import Mathlib

/-!
DesMoinesActivities: the text-to-events extraction engine.

A shallow embedding of `src/server/services/improved-chatgpt.js`
(`ImprovedChatGPTService`): the response parser with its field extractors,
the validator, and the generation-retry controller.  Also embedded: from
`src/server/services/multi-api.js` the week range, the weather tips, the
category list and the retry wrapper; from `src/server/services/chatgpt.js`
the helper `extractValue`; from `src/test-improved-integration.js` the section
pass of the duplicate parser (names under `Dup`).

Conventions of the embedding:

* JavaScript strings are lists of characters (`Str`); the empty list is the
  only falsy string.  A character outside the Basic Multilingual Plane counts
  as one character here and as two code units in JavaScript; no pattern of the
  source tells the two apart.
* The regular expressions of the source are transcribed one by one into the
  syntax tree `Re` and run by a backtracking matcher, `Re.run`, that follows
  the ECMAScript matching rules: leftmost match, ordered alternation, greedy
  and lazy quantifiers with the empty-iteration check, `\b`, `^`, `$`,
  lookahead and captures.  The matcher is total: every recursion is on the
  syntax tree, on the input, or on a count bounded by the input left.
* The collaborators of the retry loop (clock, prompt template, text generator,
  persistence) are the fields of `Env`; a thrown error is an `Except.error`.
* Dates are local calendar days with a time of day; whole degrees are
  integers and a quotient handed to `Math.round` is an exact rational.
-/

namespace DesMoines

/-- JavaScript string, as the list of its characters. -/
abbrev Str := List Char

/-! ## Characters -/

/-- ECMAScript `WhiteSpace` or `LineTerminator`: what `\s` matches and what
`String.prototype.trim` strips. -/
def isSpace (c : Char) : Bool :=
  let n := c.toNat
  n == 9 || n == 10 || n == 11 || n == 12 || n == 13 || n == 32 || n == 160 ||
  n == 5760 || (8192 ≤ n && n ≤ 8202) || n == 8232 || n == 8233 || n == 8239 ||
  n == 8287 || n == 12288 || n == 65279

/-- ECMAScript `LineTerminator`: the characters `.` does not match. -/
def isLineTerminator (c : Char) : Bool :=
  let n := c.toNat
  n == 10 || n == 13 || n == 8232 || n == 8233

/-- Regex class `\d`. -/
def isDigit (c : Char) : Bool :=
  let n := c.toNat
  48 ≤ n && n ≤ 57

/-- Regex class `\w` (the word characters that decide `\b`). -/
def isWord (c : Char) : Bool :=
  let n := c.toNat
  (48 ≤ n && n ≤ 57) || (65 ≤ n && n ≤ 90) || n == 95 || (97 ≤ n && n ≤ 122)

/-- Case folding of the `i` flag, as a code point.  Every pattern of the
source is written in ASCII, and ECMAScript never folds a non-ASCII character
onto an ASCII one, so folding `a`..`z` to `A`..`Z` decides every comparison
against a pattern character. -/
def canon (c : Char) : Nat :=
  let n := c.toNat
  if 97 ≤ n && n ≤ 122 then n - 32 else n

/-- Comparison of a pattern character `p` with an input character `c`. -/
def chEq (ci : Bool) (p c : Char) : Bool :=
  if ci then canon p == canon c else p.toNat == c.toNat

/-! ## Regular expressions -/

/-- One item of a bracketed character class. -/
inductive CItem where
  | ch (c : Char)
  | space
  | digit
deriving DecidableEq

/-- Regex syntax tree (the constructs the source uses). -/
inductive Re where
  | empty
  | lit (c : Char)
  | any
  | cls (neg : Bool) (items : List CItem)
  | digit
  | space
  | wordB
  | bol
  | eol
  | seq (a b : Re)
  | alt (a b : Re)
  | rep (min : Nat) (max : Option Nat) (greedy : Bool) (r : Re)
  | group (i : Nat) (r : Re)
  | look (r : Re)
deriving DecidableEq

/-- Match state: the input before the current position (reversed), the input
from the current position on, and the captures recorded so far (latest
first). -/
structure MState where
  pre : List Char
  rest : List Char
  caps : List (Nat × Str)

/-- Matcher continuation. -/
abbrev Cont := MState → Option MState

def CItem.test (ci : Bool) (c : Char) : CItem → Bool
  | .ch p => chEq ci p c
  | .space => isSpace c
  | .digit => isDigit c

/-- Consume one character satisfying `p`. -/
def stepChar (p : Char → Bool) (x : MState) (k : Cont) : Option MState :=
  match x.rest with
  | [] => none
  | c :: t => if p c then k { x with pre := c :: x.pre, rest := t } else none

/-- Is the position of `x` a word boundary (`\b`)? -/
def atWordB (x : MState) : Bool :=
  let a := match x.pre with
    | [] => false
    | c :: _ => isWord c
  let b := match x.rest with
    | [] => false
    | c :: _ => isWord c
  a != b

/-- Capture indices inside a regex (reset at each iteration of a quantifier). -/
def Re.groups : Re → List Nat
  | .seq a b => a.groups ++ b.groups
  | .alt a b => a.groups ++ b.groups
  | .rep _ _ _ r => r.groups
  | .group i r => i :: r.groups
  | .look r => r.groups
  | _ => []

/-- Forget the captures `gs`. -/
def clearCaps (gs : List Nat) (x : MState) : MState :=
  { x with caps := x.caps.filter fun p => !gs.contains p.1 }

/-- ECMAScript `RepeatMatcher` once the minimum is met.  `fuel` bounds the
remaining input: an iteration counts only if it consumes input, so with no
input left the quantifier is done. -/
def repOpt (m : MState → Cont → Option MState) (gs : List Nat) (greedy : Bool) :
    Nat → Option Nat → MState → Cont → Option MState
  | 0, _, x, c => c x
  | fuel + 1, max, x, c =>
    if max = some 0 then c x
    else
      let d : Cont := fun y =>
        if y.rest.length < x.rest.length then
          repOpt m gs greedy fuel (max.map Nat.pred) y c
        else none
      if greedy then
        match m (clearCaps gs x) d with
        | some z => some z
        | none => c x
      else
        match c x with
        | some z => some z
        | none => m (clearCaps gs x) d

/-- ECMAScript `RepeatMatcher` while `min` iterations are still owed. -/
def repMin (m : MState → Cont → Option MState) (gs : List Nat) (greedy : Bool) :
    Nat → Option Nat → MState → Cont → Option MState
  | 0, max, x, c => repOpt m gs greedy x.rest.length max x c
  | min + 1, max, x, c =>
    if max = some 0 then c x
    else m (clearCaps gs x) fun y => repMin m gs greedy min (max.map Nat.pred) y c

/-- The backtracking matcher: run `r` at state `x`, then the continuation. -/
def Re.run (ci : Bool) : Re → MState → Cont → Option MState
  | .empty, x, k => k x
  | .lit p, x, k => stepChar (chEq ci p) x k
  | .any, x, k => stepChar (fun c => !isLineTerminator c) x k
  | .cls neg items, x, k => stepChar (fun c => (items.any (CItem.test ci c)) != neg) x k
  | .digit, x, k => stepChar isDigit x k
  | .space, x, k => stepChar isSpace x k
  | .wordB, x, k => if atWordB x then k x else none
  | .bol, x, k => if x.pre.isEmpty then k x else none
  | .eol, x, k => if x.rest.isEmpty then k x else none
  | .seq a b, x, k => a.run ci x fun y => b.run ci y k
  | .alt a b, x, k =>
    match a.run ci x k with
    | some z => some z
    | none => b.run ci x k
  | .rep min max greedy r, x, k => repMin (r.run ci) r.groups greedy min max x k
  | .group i r, x, k =>
    r.run ci x fun y =>
      k { y with caps := (i, x.rest.take (x.rest.length - y.rest.length)) :: y.caps }
  | .look r, x, k =>
    match r.run ci x some with
    | some y => k { x with caps := y.caps }
    | none => none

/-- A successful match: the input before it (reversed), the matched text,
the input after it, and the captures. -/
structure Match where
  before : List Char
  text : Str
  after : List Char
  caps : List (Nat × Str)
deriving DecidableEq

/-- Capture `i` of a match (`match[i]`, for a group that took part). -/
def Match.cap (m : Match) (i : Nat) : Str :=
  match m.caps.find? fun p => p.1 == i with
  | some p => p.2
  | none => []

/-- Try the regex at one position. -/
def Re.matchAt (ci : Bool) (r : Re) (pre rest : List Char) : Option Match :=
  match r.run ci ⟨pre, rest, []⟩ some with
  | some y => some ⟨pre, rest.take (rest.length - y.rest.length), y.rest, y.caps⟩
  | none => none

/-- Leftmost match at or after the current position. -/
def Re.searchFrom (ci : Bool) (r : Re) : List Char → List Char → Option Match
  | pre, [] => r.matchAt ci pre []
  | pre, c :: t =>
    match r.matchAt ci pre (c :: t) with
    | some m => some m
    | none => r.searchFrom ci (c :: pre) t

/-- JavaScript `text.match(r)` for a regex without the `g` flag. -/
def Re.search (ci : Bool) (r : Re) (s : Str) : Option Match :=
  r.searchFrom ci [] s

/-- All successive non-overlapping matches (`g` flag): after a match of
length `n` the next `n - 1` positions are skipped; after an empty match the
search moves on by one character. -/
def Re.allFrom (ci : Bool) (r : Re) : Nat → List Char → List Char → List Match
  | 0, pre, [] =>
    match r.matchAt ci pre [] with
    | some m => [m]
    | none => []
  | _ + 1, _, [] => []
  | 0, pre, c :: t =>
    match r.matchAt ci pre (c :: t) with
    | some m => m :: r.allFrom ci (m.text.length - 1) (c :: pre) t
    | none => r.allFrom ci 0 (c :: pre) t
  | skip + 1, pre, c :: t => r.allFrom ci skip (c :: pre) t

/-- JavaScript `text.match(r)` / repeated `r.exec(text)` for a `g` regex. -/
def Re.matchAll (ci : Bool) (r : Re) (s : Str) : List Match :=
  r.allFrom ci 0 [] s

/-- Loop of `String.prototype.split` with a regex separator: `seg` is the
current piece (reversed), `skip` the characters of a separator still to pass. -/
def Re.splitFrom (ci : Bool) (r : Re) : Nat → List Char → List Char → List Char → List Str
  | _, seg, _, [] => [seg.reverse]
  | skip + 1, seg, pre, c :: t => r.splitFrom ci skip seg (c :: pre) t
  | 0, seg, pre, c :: t =>
    match r.matchAt ci pre (c :: t) with
    | none => r.splitFrom ci 0 (c :: seg) (c :: pre) t
    | some m =>
      if m.text.length = 0 then
        if seg.isEmpty then r.splitFrom ci 0 [c] (c :: pre) t
        else seg.reverse :: r.splitFrom ci 0 [c] (c :: pre) t
      else seg.reverse :: r.splitFrom ci (m.text.length - 1) [] (c :: pre) t

/-- JavaScript `s.split(r)` for a regex without capture groups. -/
def Re.split (ci : Bool) (r : Re) (s : Str) : List Str :=
  match s with
  | [] => if (r.matchAt ci [] []).isSome then [] else [[]]
  | _ => r.splitFrom ci 0 [] [] s

/-! ## Regex building blocks -/

/-- The literal text `s`. -/
def Re.str (s : String) : Re :=
  s.toList.foldr (fun c r => Re.seq (Re.lit c) r) Re.empty

/-- Ordered alternation `a|b|c`. -/
def Re.alts : List Re → Re
  | [] => Re.empty
  | [r] => r
  | r :: rs => Re.alt r (Re.alts rs)

/-- Ordered alternation of literal words. -/
def Re.words (ws : List String) : Re :=
  Re.alts (ws.map Re.str)

/-- Sequence of regexes. -/
def Re.seqs : List Re → Re
  | [] => Re.empty
  | [r] => r
  | r :: rs => Re.seq r (Re.seqs rs)

def Re.star (r : Re) : Re := Re.rep 0 none true r
def Re.plus (r : Re) : Re := Re.rep 1 none true r
def Re.plusLazy (r : Re) : Re := Re.rep 1 none false r
def Re.starLazy (r : Re) : Re := Re.rep 0 none false r
def Re.opt (r : Re) : Re := Re.rep 0 (some 1) true r
def Re.between (lo hi : Nat) (r : Re) : Re := Re.rep lo (some hi) true r

/-! ## String helpers -/

/-- JavaScript `String.prototype.trim`. -/
def trim (s : Str) : Str :=
  ((s.dropWhile isSpace).reverse.dropWhile isSpace).reverse

/-- JavaScript `hay.includes(needle)`. -/
def includes (needle : Str) : Str → Bool
  | [] => needle.isEmpty
  | c :: t => needle.isPrefixOf (c :: t) || includes needle t

/-- JavaScript `s.split('\n')`. -/
def splitLines : Str → List Str
  | [] => [[]]
  | c :: t =>
    if c = '\n' then [] :: splitLines t
    else
      match splitLines t with
      | [] => [[c]]
      | l :: ls => (c :: l) :: ls

/-- JavaScript `s.replace(r, '')` for a `g` regex that matches no empty
string: the pieces between the matches, joined. -/
def Re.removeAll (ci : Bool) (r : Re) (s : Str) : Str :=
  (r.split ci s).flatten

/-! ## Data model -/

/-- Event record. -/
structure Event where
  name : Str
  date : Str
  time : Str
  venue : Str
  ticketPrice : Str
  ticketLink : Str
  description : Str
deriving DecidableEq, Repr

/-- Category: a label and its events, in order. -/
structure Category where
  name : Str
  events : List Event
deriving DecidableEq, Repr

/-- Extraction result. -/
structure Parsed where
  categories : List Category
  planningTips : List Str
deriving DecidableEq, Repr

/-! ## The patterns of `parseResponse` -/

/-- A regex literal with its `i` flag; `labelled` records the outcome of the
source's test `pattern.toString().includes('<labels>')`, true exactly for the
labelled-line pattern of each extractor. -/
structure Pat where
  re : Re
  ci : Bool
  labelled : Bool := false
deriving DecidableEq

/-- The call `text.match(pattern)`. -/
def Pat.exec (p : Pat) (text : Str) : Option Match :=
  p.re.search p.ci text

/-- The matches a `g` pattern yields: the loop `while ((match = pattern.exec(text)) !== null)`. -/
def Pat.execAll (p : Pat) (text : Str) : List Match :=
  p.re.matchAll p.ci text

def weekdays : List String :=
  ["Monday", "Tuesday", "Wednesday", "Thursday", "Friday", "Saturday", "Sunday"]

def months : List String :=
  ["January", "February", "March", "April", "May", "June", "July", "August",
   "September", "October", "November", "December"]

def weekdaysShort : List String := ["Mon", "Tue", "Wed", "Thu", "Fri", "Sat", "Sun"]

def monthsShort : List String :=
  ["Jan", "Feb", "Mar", "Apr", "May", "Jun", "Jul", "Aug", "Sep", "Oct", "Nov", "Dec"]

/-- The tail `:\s*(.+?)(?=\n|$)` of every labelled-line pattern. -/
def labelTail : Re :=
  Re.seqs [Re.lit ':', Re.star Re.space, Re.group 2 (Re.plusLazy Re.any),
    Re.look (Re.alt (Re.lit '\n') Re.eol)]

/-- Labelled-line pattern `\b(l1|l2|...):\s*(.+?)(?=\n|$)`. -/
def labelRe (labels : List String) : Re :=
  Re.seqs [Re.wordB, Re.group 1 (Re.words labels), labelTail]

/-- Regex `\d{1,2}`. -/
def d12 : Re := Re.between 1 2 Re.digit

/-- Regex `\s*(AM|PM)` with capture index `i`. -/
def ampm (i : Nat) : Re := Re.seq (Re.star Re.space) (Re.group i (Re.words ["AM", "PM"]))

/-- Regex `\d{1,2}:\d{2}`. -/
def hhmm : Re := Re.seqs [d12, Re.lit ':', Re.rep 2 (some 2) true Re.digit]

/-- Regex `\s*-\s*`. -/
def dash : Re := Re.seqs [Re.star Re.space, Re.lit '-', Re.star Re.space]

/-- The list `datePatterns` of `extractDate`. -/
def datePatterns : List Pat :=
  [ -- /\b(Monday|...|Sunday),?\s+(January|...|December)\s+\d{1,2}/i
    ⟨Re.seqs [Re.wordB, Re.group 1 (Re.words weekdays), Re.opt (Re.lit ','), Re.plus Re.space,
        Re.group 2 (Re.words months), Re.plus Re.space, d12], true, false⟩,
    -- /\b(January|...|December)\s+\d{1,2}/i
    ⟨Re.seqs [Re.wordB, Re.group 1 (Re.words months), Re.plus Re.space, d12], true, false⟩,
    -- /\b(Mon|...|Sun),?\s+(Jan|...|Dec)\s+\d{1,2}/i
    ⟨Re.seqs [Re.wordB, Re.group 1 (Re.words weekdaysShort), Re.opt (Re.lit ','),
        Re.plus Re.space, Re.group 2 (Re.words monthsShort), Re.plus Re.space, d12], true, false⟩,
    -- /\b\d{1,2}\/\d{1,2}\/\d{2,4}\b/
    ⟨Re.seqs [Re.wordB, d12, Re.lit '/', d12, Re.lit '/', Re.between 2 4 Re.digit, Re.wordB],
      false, false⟩,
    -- /\b(Monday|...|Sunday),?\s+\d{1,2}/i
    ⟨Re.seqs [Re.wordB, Re.group 1 (Re.words weekdays), Re.opt (Re.lit ','), Re.plus Re.space,
        d12], true, false⟩ ]

/-- Regex `/\b(Dates|Date):\s*(.+?)(?=\n|$)/i` of `extractDate`. -/
def dateRangePat : Pat := ⟨labelRe ["Dates", "Date"], true, true⟩

/-- The list `timePatterns` of `extractTime`. -/
def timePatterns : List Pat :=
  [ -- /\b(Time|Hours):\s*(.+?)(?=\n|$)/i
    ⟨labelRe ["Time", "Hours"], true, true⟩,
    -- /\b\d{1,2}:\d{2}\s*(AM|PM)\b/i
    ⟨Re.seqs [Re.wordB, hhmm, ampm 1, Re.wordB], true, false⟩,
    -- /\b\d{1,2}\s*(AM|PM)\b/i
    ⟨Re.seqs [Re.wordB, d12, ampm 1, Re.wordB], true, false⟩,
    -- /\b\d{1,2}:\d{2}\s*-\s*\d{1,2}:\d{2}\s*(AM|PM)\b/i
    ⟨Re.seqs [Re.wordB, hhmm, dash, hhmm, ampm 1, Re.wordB], true, false⟩,
    -- /\b\d{1,2}\s*(AM|PM)\s*-\s*\d{1,2}\s*(AM|PM)\b/i
    ⟨Re.seqs [Re.wordB, d12, ampm 1, dash, d12, ampm 2, Re.wordB], true, false⟩,
    -- /\b\d{1,2}:\d{2}\s*(AM|PM)\s*-\s*\d{1,2}:\d{2}\s*(AM|PM)\b/i
    ⟨Re.seqs [Re.wordB, hhmm, ampm 1, dash, hhmm, ampm 2, Re.wordB], true, false⟩ ]

/-- The list `venuePatterns` of `extractVenue`. -/
def venuePatterns : List Pat :=
  [ -- /\b(Location|Venue):\s*(.+?)(?=\n|$)/i
    ⟨labelRe ["Location", "Venue"], true, true⟩,
    -- /\bat\s+([^,\n.]+)/i
    ⟨Re.seqs [Re.wordB, Re.str "at", Re.plus Re.space,
        Re.group 1 (Re.plus (Re.cls true [.ch ',', .ch '\n', .ch '.']))], true, false⟩ ]

/-- Regex `\$\d+`. -/
def dollars : Re := Re.seq (Re.lit '$') (Re.plus Re.digit)

/-- The list `pricePatterns` of `extractTicketPrice`. -/
def pricePatterns : List Pat :=
  [ -- /\b(Tickets|Admission|Price|Cost):\s*(.+?)(?=\n|$)/i
    ⟨labelRe ["Tickets", "Admission", "Price", "Cost"], true, true⟩,
    -- /\$\d+(\.\d{2})?/
    ⟨Re.seq dollars (Re.opt (Re.group 1 (Re.seq (Re.lit '.') (Re.rep 2 (some 2) true Re.digit)))),
      false, false⟩,
    -- /\$\d+\s*-\s*\$\d+/
    ⟨Re.seqs [dollars, dash, dollars], false, false⟩,
    -- /Starting at \$\d+/i
    ⟨Re.seq (Re.str "Starting at ") dollars, true, false⟩,
    -- /Free/i
    ⟨Re.str "Free", true, false⟩ ]

/-- The list `linkPatterns` of `extractTicketLink`; the second pattern is the
one whose source includes `\[`. -/
def linkPatterns : List Pat :=
  [ -- /\b(Ticket Link|Link|Website):\s*(.+?)(?=\n|$)/i
    ⟨labelRe ["Ticket Link", "Link", "Website"], true, true⟩,
    -- /\[(.*?)\]\((https?:\/\/[^\s)]+)\)/
    ⟨Re.seqs [Re.lit '[', Re.group 1 (Re.starLazy Re.any), Re.lit ']', Re.lit '(',
        Re.group 2 (Re.seqs [Re.str "http", Re.opt (Re.lit 's'), Re.str "://",
          Re.plus (Re.cls true [.space, .ch ')'])]), Re.lit ')'], false, false⟩ ]

/-- The list `bioPatterns` of `extractDescription`. -/
def bioPatterns : List Pat :=
  [ -- /\b(Bio|Description|Details):\s*(.+?)(?=\n|$)/i
    ⟨labelRe ["Bio", "Description", "Details"], true, true⟩ ]

/-- Regex `/^(Time|Date|Venue|Tickets|Link|Location|Hours|Admission)/i`. -/
def fieldStartPat : Pat :=
  ⟨Re.seq Re.bol (Re.group 1 (Re.words
    ["Time", "Date", "Venue", "Tickets", "Link", "Location", "Hours", "Admission"])), true, false⟩

/-- Regex `/#{2,3}\s+/` that splits the response into sections. -/
def headingRe : Re := Re.seq (Re.between 2 3 (Re.lit '#')) (Re.plus Re.space)

/-- Regex `/\*\*[^*]+\*\*/` that splits a section body into event blocks. -/
def boldRe : Re :=
  Re.seqs [Re.lit '*', Re.lit '*', Re.plus (Re.cls true [.ch '*']), Re.lit '*', Re.lit '*']

/-- Regex `/\*\*([^*]+)\*\*/` that finds the event names. -/
def boldNameRe : Re :=
  Re.seqs [Re.lit '*', Re.lit '*', Re.group 1 (Re.plus (Re.cls true [.ch '*'])),
    Re.lit '*', Re.lit '*']

/-- Regex `/\*\*/g`. -/
def starsRe : Re := Re.seq (Re.lit '*') (Re.lit '*')

/-- Regex `/live music|music|concerts|shows/i`. -/
def musicTitlePat : Pat := ⟨Re.words ["live music", "music", "concerts", "shows"], true, false⟩

/-- Regex `/festivals|events|outdoor|family/i`. -/
def festivalTitlePat : Pat := ⟨Re.words ["festivals", "events", "outdoor", "family"], true, false⟩

/-- Regex `/planning|tips|notes/i`. -/
def tipsTitlePat : Pat := ⟨Re.words ["planning", "tips", "notes"], true, false⟩

/-- Regex `/\*\s+/` that splits the planning tips. -/
def bulletRe : Re := Re.seq (Re.lit '*') (Re.plus Re.space)

/-- Regex `/^\*\*([^*]+)\*\*:/` of the tip clean-up. -/
def tipTopicRe : Re := Re.seqs [Re.bol, boldNameRe, Re.lit ':']

/-- Regex `[^\n]+` with capture index `i`. -/
def lineCap (i : Nat) : Re := Re.group i (Re.plus (Re.cls true [.ch '\n']))

/-- Regex `\n\s+\*\s+` between the sub-lines of a fallback pattern. -/
def subBullet : Re :=
  Re.seqs [Re.lit '\n', Re.plus Re.space, Re.lit '*', Re.plus Re.space]

/-- First fallback pattern (bullet style, flag `g`, no `i`):
`/\*\s+([^\n]+)\n\s+\*\s+Time: ([^\n]+)\n\s+\*\s+(?:Tickets|Admission): ([^\n]+)`
`\n\s+\*\s+(?:Ticket Link|Link|Website): ([^\n]+)\n\s+\*\s+(?:Bio|Description|Details): ([^\n]+)/g`. -/
def bulletEventPat : Pat :=
  ⟨Re.seqs [Re.lit '*', Re.plus Re.space, lineCap 1,
      subBullet, Re.str "Time: ", lineCap 2,
      subBullet, Re.words ["Tickets", "Admission"], Re.str ": ", lineCap 3,
      subBullet, Re.words ["Ticket Link", "Link", "Website"], Re.str ": ", lineCap 4,
      subBullet, Re.words ["Bio", "Description", "Details"], Re.str ": ", lineCap 5],
    false, false⟩

/-- Second fallback pattern (bold name, flag `g`, no `i`):
`/\*\*([^*]+)\*\*\n\s+\*\s+(?:Date|Dates): ([^\n]+)\n\s+\*\s+(?:Time|Hours): ([^\n]+)`
`\n\s+\*\s+(?:Location|Venue): ([^\n]+)/g`. -/
def boldEventPat : Pat :=
  ⟨Re.seqs [boldNameRe,
      subBullet, Re.words ["Date", "Dates"], Re.str ": ", lineCap 2,
      subBullet, Re.words ["Time", "Hours"], Re.str ": ", lineCap 3,
      subBullet, Re.words ["Location", "Venue"], Re.str ": ", lineCap 4],
    false, false⟩

/-- The list `eventPatterns` of the fallback scanner. -/
def eventPatterns : List Pat := [bulletEventPat, boldEventPat]

/-- Regex `/concert|music|band|artist|performance|show/i`. -/
def musicKeywordPat : Pat :=
  ⟨Re.words ["concert", "music", "band", "artist", "performance", "show"], true, false⟩

/-! ## Field extractors -/

/-- The loop `for (const pattern of patterns) { const match = text.match(pattern); if (match) ... }`:
the first pattern that matches, with its match. -/
def firstMatch : List Pat → Str → Option (Pat × Match)
  | [], _ => none
  | p :: ps, text =>
    match p.exec text with
    | some m => some (p, m)
    | none => firstMatch ps text

/-- Helper `extractDate` of `parseResponse`. -/
def extractDate (text : Str) : Str :=
  match firstMatch datePatterns text with
  | some (_, m) => m.text
  | none =>
    match dateRangePat.exec text with
    | some m => trim (m.cap 2)
    | none => "TBD".toList

/-- Helper `extractTime` of `parseResponse`. -/
def extractTime (text : Str) : Str :=
  match firstMatch timePatterns text with
  | some (p, m) => if p.labelled then trim (m.cap 2) else m.text
  | none => "TBD".toList

/-- Helper `extractVenue` of `parseResponse`. -/
def extractVenue (text : Str) : Str :=
  match firstMatch venuePatterns text with
  | some (p, m) => if p.labelled then trim (m.cap 2) else trim (m.cap 1)
  | none => "TBD".toList

/-- Helper `extractTicketPrice` of `parseResponse`. -/
def extractTicketPrice (text : Str) : Str :=
  match firstMatch pricePatterns text with
  | some (p, m) => if p.labelled then trim (m.cap 2) else m.text
  | none => "Free".toList

/-- Helper `extractTicketLink` of `parseResponse`: the labelled pattern gives the
trimmed rest of its line, the markdown pattern its second group. -/
def extractTicketLink (text : Str) : Str :=
  match firstMatch linkPatterns text with
  | some (p, m) => if p.labelled then trim (m.cap 2) else m.cap 2
  | none => []

/-- Helper `extractDescription` of `parseResponse`. -/
def extractDescription (text : Str) : Str :=
  match firstMatch bioPatterns text with
  | some (_, m) => trim (m.cap 2)
  | none =>
    let lines := (splitLines text).filter fun line => (trim line).length > 0
    match lines.getLast? with
    | some last =>
      let lastLine := trim last
      if (fieldStartPat.exec lastLine).isNone then lastLine
      else "No description available.".toList
    | none => "No description available.".toList

/-- The event literal built from a name and the text its fields are read from. -/
def mkEvent (name text : Str) : Event :=
  { name := name
    date := extractDate text
    time := extractTime text
    venue := extractVenue text
    ticketPrice := extractTicketPrice text
    ticketLink := extractTicketLink text
    description := extractDescription text }

/-! ## `parseResponse` -/

/-- The name of the `j`-th event of a section:
`eventNames[j-1]?.replace(/\*\*/g, '').trim() || 'Event j'`. -/
def eventName (eventNames : List Str) (j : Nat) : Str :=
  let fallback := "Event ".toList ++ (toString j).toList
  match eventNames.get? (j - 1) with
  | some n =>
    let t := trim (starsRe.removeAll false n)
    if t.isEmpty then fallback else t
  | none => fallback

/-- The events of a music or festival section body: the loop
`for (let j = 1; j < eventBlocks.length; j++)`. -/
def sectionEvents (sectionContent : Str) : List Event :=
  let eventBlocks := boldRe.split false sectionContent
  let eventNames := (boldNameRe.matchAll false sectionContent).map Match.text
  eventBlocks.tail.enum.map fun (k, block) =>
    mkEvent (eventName eventNames (k + 1)) (trim block)

/-- The clean-up `tip.trim().replace(/^\*\*([^*]+)\*\*:/, '$1:')`. -/
def tipText (tip : Str) : Str :=
  let t := trim tip
  match tipTopicRe.search false t with
  | some m => m.before.reverse ++ m.cap 1 ++ [':'] ++ m.after
  | none => t

/-- The planning tips of a tips section body. -/
def sectionTips (sectionContent : Str) : List Str :=
  ((bulletRe.split false sectionContent).filter fun tip => (trim tip).length > 0).map tipText

/-- The title of a section: `section.split('\n')[0].trim()` with
`section = sections[i].trim()`. -/
def sectionTitleOf (rawSection : Str) : Str :=
  trim ((splitLines (trim rawSection)).headD [])

/-- The body of a section: `section.substring(sectionTitle.length).trim()`. -/
def sectionContentOf (rawSection : Str) : Str :=
  trim ((trim rawSection).drop (sectionTitleOf rawSection).length)

/-- One turn of the loop over `sections`: the section's title decides what is
added to the result. -/
def processSection (result : Parsed) (rawSection : Str) : Parsed :=
  let sectionTitle := sectionTitleOf rawSection
  let sectionContent := sectionContentOf rawSection
  if (musicTitlePat.exec sectionTitle).isSome then
    { result with categories := result.categories ++
        [⟨"Live Music".toList, sectionEvents sectionContent⟩] }
  else if (festivalTitlePat.exec sectionTitle).isSome then
    { result with categories := result.categories ++
        [⟨"Festivals & Events".toList, sectionEvents sectionContent⟩] }
  else if (tipsTitlePat.exec sectionTitle).isSome then
    { result with planningTips := result.planningTips ++ sectionTips sectionContent }
  else result

/-- The section pass: `sections = response.split(/#{2,3}\s+/)`, read from index 1. -/
def parseSections (response : Str) : Parsed :=
  ((headingRe.split false response).tail).foldl processSection ⟨[], []⟩

/-- The matches of the fallback patterns over the whole response, in the order
the source visits them, each with the event built from it. -/
def fallbackMatches (response : Str) : List (Match × Event) :=
  eventPatterns.flatMap fun p =>
    (p.execAll response).map fun m => (m, mkEvent (trim (m.cap 1)) m.text)

/-- Does the fallback scanner class a match as music? -/
def isMusicText (eventText : Str) : Bool :=
  (musicKeywordPat.exec eventText).isSome

/-- The categories the fallback scanner adds. -/
def fallbackCategories (response : Str) : List Category :=
  let ms := fallbackMatches response
  let musicEvents := (ms.filter fun p => isMusicText p.1.text).map Prod.snd
  let festivalEvents := (ms.filter fun p => !isMusicText p.1.text).map Prod.snd
  (if musicEvents.length > 0 then [⟨"Live Music".toList, musicEvents⟩] else []) ++
  (if festivalEvents.length > 0 then [⟨"Festivals & Events".toList, festivalEvents⟩] else [])

/-- The final pass "Ensure all events have the required fields" on one event. -/
def ensureRequired (e : Event) : Event :=
  let e1 := if e.date.isEmpty ∨ e.date = "Date not specified".toList
    then { e with date := "TBD".toList } else e
  let e2 := if e1.time.isEmpty ∨ e1.time = "Time not specified".toList
    then { e1 with time := "TBD".toList } else e1
  if e2.venue.isEmpty ∨ e2.venue = "Venue not specified".toList
    then { e2 with venue := "TBD".toList } else e2

/-- Method `ImprovedChatGPTService.parseResponse`. -/
def parseResponse (response : Str) : Parsed :=
  let result := parseSections response
  let result :=
    if result.categories.length = 0 then
      { result with categories := result.categories ++ fallbackCategories response }
    else result
  { result with categories := result.categories.map fun c =>
      { c with events := c.events.map ensureRequired } }

/-! ## `validateParsedData` -/

/-- Flag `hasName`: `!!event.name && event.name !== 'Event' && !event.name.startsWith('Event ')`. -/
def hasName (e : Event) : Bool :=
  !e.name.isEmpty && e.name != "Event".toList && !("Event ".toList.isPrefixOf e.name)

/-- Flag `hasDate`: `!!event.date && event.date !== 'TBD'`. -/
def hasDate (e : Event) : Bool := !e.date.isEmpty && e.date != "TBD".toList

/-- Flag `hasTime`: `!!event.time && event.time !== 'TBD'`. -/
def hasTime (e : Event) : Bool := !e.time.isEmpty && e.time != "TBD".toList

/-- Flag `hasVenue`: `!!event.venue && event.venue !== 'TBD'`. -/
def hasVenue (e : Event) : Bool := !e.venue.isEmpty && e.venue != "TBD".toList

/-- The count `[hasName, hasDate, hasTime, hasVenue].filter(Boolean).length`. -/
def requiredFieldsCount (e : Event) : Nat :=
  ([hasName e, hasDate e, hasTime e, hasVenue e].filter id).length

/-- The inner `forEach` of `validateParsedData`: the events pushed to `validCategory`. -/
def validEvents (events : List Event) : List Event :=
  events.foldl (fun acc event => if requiredFieldsCount event ≥ 3 then acc ++ [event] else acc) []

/-- Method `ImprovedChatGPTService.validateParsedData`. -/
def validateParsedData (parsedData : Parsed) : Parsed :=
  { categories := parsedData.categories.foldl (fun acc category =>
      let validCategory : Category := ⟨category.name, validEvents category.events⟩
      if validCategory.events.length > 0 then acc ++ [validCategory] else acc) []
    planningTips := parsedData.planningTips }

/-! ## `fetchAndStoreActivitiesWithRetry` -/

/-- The week handed to the prompt and stored with the result (opaque time stamps). -/
structure DateRange where
  startDate : Nat
  endDate : Nat
deriving DecidableEq, Repr

/-- The `Activities` document that is saved and returned. -/
structure Activities where
  weekStartDate : Nat
  weekEndDate : Nat
  categories : List Category
  planningTips : List Str
  rawResponse : Str
deriving DecidableEq, Repr

/-- The collaborators of the retry loop, each indexed by the number of
generation calls made before it is used: the clock, the prompt template, the
text generator (`callChatGPT`: a response, or a thrown error) and the
persistence layer (`activities.save()`). -/
structure Env where
  getCurrentWeekDateRange : Nat → DateRange
  generatePrompt : DateRange → Str
  callChatGPT : Nat → Str → Except Str Str
  save : Nat → Activities → Except Str Unit

/-- How a run ends: it returns the saved document or throws. -/
inductive Ending where
  | returned (activities : Activities)
  | thrown (error : Str)
deriving DecidableEq, Repr

/-- What a run did: the number of generation calls, its ending (`none` only if
the loop were cut off before it ended), and the documents written to the
store, one for each `activities.save()` that succeeded. -/
structure Outcome where
  calls : Nat
  ending : Option Ending
  saved : List Activities
deriving DecidableEq, Repr

/-- The text appended to the prompt on a retry. -/
def retryNote : Str :=
  ("\n\nPrevious attempt failed to parse correctly. Please ensure STRICT adherence to the " ++
   "format specified above. Each event MUST include ALL required fields with the exact field " ++
   "names provided. If information is unknown, use \"TBD\" rather than omitting the field.").toList

/-- The sum `validatedData.categories.reduce((sum, category) => sum + category.events.length, 0)`. -/
def totalEvents (validatedData : Parsed) : Nat :=
  validatedData.categories.foldl (fun sum category => sum + category.events.length) 0

/-- The final `throw lastError || new Error(...)`. -/
def finalThrow (lastError : Option Str) : Ending :=
  match lastError with
  | some e => Ending.thrown e
  | none => Ending.thrown "Failed to fetch and store activities after multiple attempts".toList

/-- The prompt of an attempt: `generatePrompt(startDate, endDate)`, with the
retry note appended when `retryCount > 0`. -/
def attemptPrompt (env : Env) (retryCount calls : Nat) : Str :=
  env.generatePrompt (env.getCurrentWeekDateRange calls) ++
    (if retryCount > 0 then retryNote else [])

/-- The document `new Activities({...})` built from a response. -/
def mkActivities (range : DateRange) (response : Str) : Activities :=
  let validatedData := validateParsedData (parseResponse response)
  ⟨range.startDate, range.endDate, validatedData.categories, validatedData.planningTips, response⟩

/-- The `while (retryCount <= maxRetries)` loop; `fuel` bounds its turns. -/
def retryLoop (env : Env) (maxRetries : Nat) :
    Nat → (retryCount : Nat) → (calls : Nat) → (lastError : Option Str) → Outcome
  | 0, _, calls, _ => ⟨calls, none, []⟩
  | fuel + 1, retryCount, calls, lastError =>
    if retryCount ≤ maxRetries then
      match env.callChatGPT calls (attemptPrompt env retryCount calls) with
      | .error e =>
        if retryCount < maxRetries then
          retryLoop env maxRetries fuel (retryCount + 1) (calls + 1) (some e)
        else ⟨calls + 1, some (finalThrow (some e)), []⟩
      | .ok response =>
        if totalEvents (validateParsedData (parseResponse response)) < 3
            ∧ retryCount < maxRetries then
          retryLoop env maxRetries fuel (retryCount + 1) (calls + 1) lastError
        else
          let activities := mkActivities (env.getCurrentWeekDateRange calls) response
          match env.save calls activities with
          | .ok _ => ⟨calls + 1, some (Ending.returned activities), [activities]⟩
          | .error e =>
            if retryCount < maxRetries then
              retryLoop env maxRetries fuel (retryCount + 1) (calls + 1) (some e)
            else ⟨calls + 1, some (finalThrow (some e)), []⟩
    else ⟨calls, some (finalThrow lastError), []⟩

/-- Method `ImprovedChatGPTService.fetchAndStoreActivitiesWithRetry(maxRetries)`.
Each turn of the loop either ends the run or raises `retryCount`, which never
passes `maxRetries`, so `maxRetries + 1` turns are enough. -/
def fetchAndStoreActivitiesWithRetry (env : Env) (maxRetries : Nat) : Outcome :=
  retryLoop env maxRetries (maxRetries + 1) 0 0 none

/-! ## Helpers for stating facts about the matcher -/

/-- Pairwise comparison of a pattern word with the start of the input. -/
def prefixMatch (ci : Bool) : List Char → List Char → Bool
  | [], _ => true
  | _ :: _, [] => false
  | p :: ps, c :: cs => chEq ci p c && prefixMatch ci ps cs

/-- The state after `n` more characters have been consumed. -/
def MState.advance (x : MState) (n : Nat) : MState :=
  { x with pre := (x.rest.take n).reverse ++ x.pre, rest := x.rest.drop n }

/-- Does one of the labels, followed by `:`, start the text (up to case)? -/
def labelAt (labels : List String) (s : Str) : Bool :=
  labels.any fun l => prefixMatch true (l.toList ++ [':']) s

/-- A labelled line `Date: v` or `Dates: v`. -/
def dateLine (plural : Bool) (v : Str) : Str :=
  (if plural then "Dates: " else "Date: ").toList ++ v

/-! ## Specification of the validator -/

/-- Required-field condition on the name, in the words of the specification:
non-empty, not "Event" and not starting with "Event ". -/
def NamePresent (e : Event) : Prop :=
  e.name ≠ [] ∧ e.name ≠ "Event".toList ∧ ¬ "Event ".toList <+: e.name

/-- Required-field condition on the date: non-empty and not "TBD". -/
def DatePresent (e : Event) : Prop := e.date ≠ [] ∧ e.date ≠ "TBD".toList

/-- Required-field condition on the time: non-empty and not "TBD". -/
def TimePresent (e : Event) : Prop := e.time ≠ [] ∧ e.time ≠ "TBD".toList

/-- Required-field condition on the venue: non-empty and not "TBD". -/
def VenuePresent (e : Event) : Prop := e.venue ≠ [] ∧ e.venue ≠ "TBD".toList

instance : DecidablePred NamePresent := fun e => by unfold NamePresent; infer_instance
instance : DecidablePred DatePresent := fun e => by unfold DatePresent; infer_instance
instance : DecidablePred TimePresent := fun e => by unfold TimePresent; infer_instance
instance : DecidablePred VenuePresent := fun e => by unfold VenuePresent; infer_instance

/-- Number of the four required-field conditions an event meets. -/
def presentCount (e : Event) : Nat :=
  (if NamePresent e then 1 else 0) + (if DatePresent e then 1 else 0) +
  (if TimePresent e then 1 else 0) + (if VenuePresent e then 1 else 0)

/-- The 3-of-4 required-field check of the specification. -/
def MeetsRequired (e : Event) : Prop := 3 ≤ presentCount e

instance : DecidablePred MeetsRequired := fun e => by unfold MeetsRequired; infer_instance


/-! ## Sample inputs -/

/-- Scenario A of the specification. -/
def scenarioA : Str :=
  ("### LIVE MUSIC\n\n**Jazz Night**\n* Time: 7:00 PM\n* Tickets: $15\n" ++
   "* Ticket Link: [site](https://example.com)\n* Bio: weekly jazz showcase.\n").toList

/-- A response with exactly one event that passes the validator. -/
def docOne : Str :=
  "### LIVE MUSIC\n\n**Jazz Night**\n* Date: Saturday, June 28\n* Time: 7:00 PM\n* Venue: Noce\n".toList

/-- A response with three events that pass the validator. -/
def docThree : Str :=
  ("## Music\n**A**\n* Date: 6/27/25\n* Time: 7 PM\n**B**\n* Date: 6/28/25\n* Time: 8 PM\n" ++
   "**C**\n* Date: 6/29/25\n* Time: 9 PM\n").toList

/-- An environment whose generator answers every call with `answer` and whose
persistence always succeeds. -/
def constEnv (answer : Except Str Str) : Env :=
  { getCurrentWeekDateRange := fun _ => ⟨0, 6⟩
    generatePrompt := fun _ => "prompt".toList
    callChatGPT := fun _ _ => answer
    save := fun _ _ => .ok () }

/-- An event with a name and a date only. -/
def eventNameDate : Event :=
  ⟨"Jazz Night".toList, "Saturday, June 28".toList, "TBD".toList, "TBD".toList, [], [], []⟩

/-- An event with all four required fields. -/
def eventFull : Event :=
  ⟨"Jazz Night".toList, "Saturday, June 28".toList, "7:00 PM".toList, "Noce".toList, [], [], []⟩

/-- The example of claim C9: a bold-named event whose block is one date line. -/
def dateOnlyDoc : Str := "### LIVE MUSIC\n\n**Jazz Night**\n* Date: Saturday, June 28\n".toList

/-- A bold-named event whose single date line also names a place. -/
def dateVenueDoc : Str :=
  "### LIVE MUSIC\n\n**Jazz Night**\n* Date: Saturday, June 28 at Noce\n".toList

/-- A response without headings that holds one bullet-style event. -/
def bulletDoc : Str :=
  ("Weekend picks\n* Jazz concert at Noce \n  * Time: 7:00 PM\n  * Tickets: $15\n" ++
   "  * Link: noce.com\n  * Bio: weekly showcase\n").toList

/-- Does one of the labels, followed by `:`, occur somewhere in the text (up to case)? -/
def labelIn (labels : List String) : Str → Bool
  | [] => false
  | c :: t => labelAt labels (c :: t) || labelIn labels t

/-- Does `word` occur in the text, up to case? -/
def includesCI (word : Str) : Str → Bool
  | [] => word.isEmpty
  | c :: t => prefixMatch true word (c :: t) || includesCI word t

/-- Does the title contain one of the keywords, up to case? -/
def titleHas (keywords : List String) (title : Str) : Bool :=
  keywords.any fun w => includesCI w.toList title

/-- Does the line begin with one of the words, up to case? -/
def startsWithAny (words : List String) (line : Str) : Bool :=
  words.any fun w => prefixMatch true w.toList line

/-- A line with a character that is not white space. -/
def nonBlank (line : Str) : Bool :=
  line.any fun c => !isSpace c

/-- The words that mark a line as another labelled field in `extractDescription`. -/
def fieldWords : List String :=
  ["Time", "Date", "Venue", "Tickets", "Link", "Location", "Hours", "Admission"]

/-- The sentinel of `extractDescription`. -/
def noDescription : Str := "No description available.".toList

/-- The category a section adds to the result, if its title is classed as
music or festival (the first two branches of the loop over `sections`). -/
def sectionCategory (rawSection : Str) : Option Category :=
  if (musicTitlePat.exec (sectionTitleOf rawSection)).isSome then
    some ⟨"Live Music".toList, sectionEvents (sectionContentOf rawSection)⟩
  else if (festivalTitlePat.exec (sectionTitleOf rawSection)).isSome then
    some ⟨"Festivals & Events".toList, sectionEvents (sectionContentOf rawSection)⟩
  else none

/-- The planning tips a section adds to the result (the third branch). -/
def sectionPlanningTips (rawSection : Str) : List Str :=
  if (musicTitlePat.exec (sectionTitleOf rawSection)).isSome then []
  else if (festivalTitlePat.exec (sectionTitleOf rawSection)).isSome then []
  else if (tipsTitlePat.exec (sectionTitleOf rawSection)).isSome then
    sectionTips (sectionContentOf rawSection)
  else []

/-- A section whose title matches none of the three keyword sets. -/
def unrecognised (rawSection : Str) : Prop :=
  musicTitlePat.exec (sectionTitleOf rawSection) = none ∧
  festivalTitlePat.exec (sectionTitleOf rawSection) = none ∧
  tipsTitlePat.exec (sectionTitleOf rawSection) = none

instance (rawSection : Str) : Decidable (unrecognised rawSection) := by
  unfold unrecognised; infer_instance

/-- The final pass of `parseResponse` on a category. -/
def ensureCategory (c : Category) : Category :=
  { c with events := c.events.map ensureRequired }

/-- A section headed `Music` whose body is a bullet list without bold names. -/
def musicBulletDoc : Str :=
  ("## Music\n* Jazz concert\n  * Time: 7 PM\n  * Tickets: $5\n  * Link: noce.com\n" ++
   "  * Bio: weekly showcase\n").toList

/-- A document with an introduction, whose body is removed in `introMusicCut`,
and a music section. -/
def introMusicDoc : Str :=
  ("## This week\nSome words.\n* a list\n## Music\n**Jazz Night**\n* Date: 6/27/25\n" ++
   "* Time: 7 PM\n").toList

/-- The document `introMusicDoc` without the body of its first section. -/
def introMusicCut : Str :=
  "## This week\n## Music\n**Jazz Night**\n* Date: 6/27/25\n* Time: 7 PM\n".toList

/-- A document whose only section is an introduction that holds a bullet-style event. -/
def introBulletDoc : Str :=
  ("## This week\n* Jazz concert\n  * Time: 7 PM\n  * Tickets: $5\n  * Link: noce.com\n" ++
   "  * Bio: weekly showcase\n").toList

/-- The document `introBulletDoc` without the body of its section. -/
def introBulletCut : Str := "## This week\n".toList

/-- Two match states that agree on the input left and on the captures. -/
def Sim (x y : MState) : Prop := x.rest = y.rest ∧ x.caps = y.caps

/-- Two results that fail together or succeed in states that agree. -/
def OSim : Option MState → Option MState → Prop
  | none, none => True
  | some a, some b => Sim a b
  | _, _ => False

/-- Two continuations that agree on states that agree. -/
def KSim (k k2 : Cont) : Prop := ∀ a b, Sim a b → OSim (k a) (k2 b)

/-- A regex that never looks at the input before the current position (no `\b`, no `^`). -/
def Re.noBehind : Re → Bool
  | .wordB => false
  | .bol => false
  | .seq a b => a.noBehind && b.noBehind
  | .alt a b => a.noBehind && b.noBehind
  | .rep _ _ _ r => r.noBehind
  | .group _ r => r.noBehind
  | .look r => r.noBehind
  | _ => true

/-- What a match says about the text: the matched text, the text after it, the captures. -/
def Match.view (m : Match) : Str × List Char × List (Nat × Str) := (m.text, m.after, m.caps)

/-- A character other than the asterisk. -/
def notStar (c : Char) : Bool := c != '*'

/-- A bold token at the start of a text: `**`, a non-empty run of characters
without asterisk, `**`.  Gives the inner text and the text after the token. -/
def boldAt : Str → Option (Str × Str)
  | c1 :: c2 :: t =>
    if c1 = '*' ∧ c2 = '*' ∧ t.takeWhile notStar ≠ [] then
      match t.dropWhile notStar with
      | d1 :: d2 :: rest =>
        if d1 = '*' ∧ d2 = '*' then some (t.takeWhile notStar, rest) else none
      | _ => none
    else none
  | _ => none

/-- The text of a bold token with inner text `inner`. -/
def boldText (inner : Str) : Str := '*' :: '*' :: (inner ++ ['*', '*'])

/-- The text up to the next bold token (or the end), and the text from that token on. -/
def untilBold : Str → Str × Str
  | [] => ([], [])
  | c :: t =>
    if (boldAt (c :: t)).isSome then ([], c :: t)
    else (c :: (untilBold t).1, (untilBold t).2)

/-- The bold tokens of a text that starts with one, left to right and without
overlap: each with its inner text and the text that follows it up to the next
token or the end.  At most `fuel` tokens are read. -/
def boldTokens : Nat → Str → List (Str × Str)
  | 0, _ => []
  | fuel + 1, s =>
    match boldAt s with
    | some t => (t.1, (untilBold t.2).1) :: boldTokens fuel (untilBold t.2).2
    | none => []

/-- The bold tokens of a section body (a token takes at least five characters,
so the length of the body bounds their number). -/
def bodyTokens (body : Str) : List (Str × Str) :=
  boldTokens body.length (untilBold body).2

/-- The name of the `j`-th event (counted from 0) given the inner text of its token. -/
def tokenName (j : Nat) (inner : Str) : Str :=
  if (trim inner).isEmpty then "Event ".toList ++ (toString (j + 1)).toList else trim inner

/-- A two-digit decimal part `.dd` at the start of a text: the part and the
text after it. -/
def centsAt : Str → Option (Str × Str)
  | c :: a :: b :: r =>
    if c = '.' ∧ isDigit a = true ∧ isDigit b = true then some ([c, a, b], r) else none
  | _ => none

/-- A price at the start of a text: `$`, the digits that follow (at least
one), and a two-digit decimal part when one comes next. -/
def priceAt : Str → Option Str
  | [] => none
  | c :: t =>
    if c = '$' ∧ t.takeWhile isDigit ≠ [] then
      match centsAt (t.dropWhile isDigit) with
      | some cents => some (c :: (t.takeWhile isDigit ++ cents.1))
      | none => some (c :: t.takeWhile isDigit)
    else none

/-- The first price of a text, reading from the left. -/
def firstPrice : Str → Option Str
  | [] => none
  | c :: t =>
    match priceAt (c :: t) with
    | some p => some p
    | none => firstPrice t

/-- The word `free`, in any letter case, at the start of a text, as written. -/
def freeAt (s : Str) : Option Str :=
  if prefixMatch true "free".toList s then some (s.take 4) else none

/-- The first occurrence of `free`, in any letter case, as written in the text. -/
def firstFree : Str → Option Str
  | [] => none
  | c :: t =>
    match freeAt (c :: t) with
    | some w => some w
    | none => firstFree t

/-- A character of an address: neither white space nor `)`. -/
def urlChar (c : Char) : Bool := !isSpace c && c != ')'

/-- The scheme `https://` or `http://` at the start of a text: its length. -/
def schemeAt (s : Str) : Option Nat :=
  if prefixMatch false "https://".toList s then some 8
  else if prefixMatch false "http://".toList s then some 7
  else none

/-- An address at the start of a text: a scheme and the characters up to the
closing `)` (at least one, none of them white space).  -/
def urlAt (s : Str) : Option Str :=
  match schemeAt s with
  | some n =>
    match (s.drop n).dropWhile urlChar with
    | c :: _ =>
      if c = ')' ∧ (s.drop n).takeWhile urlChar ≠ [] then
        some (s.take n ++ (s.drop n).takeWhile urlChar)
      else none
    | [] => none
  | none => none

/-- The end of a markdown link at the start of a text, `](address)`: the address. -/
def linkTailAt : Str → Option Str
  | a :: b :: t => if a = ']' ∧ b = '(' then urlAt t else none
  | _ => none

/-- The text of a markdown link, after its `[`: the shortest text on one line
that is followed by `](address)`.  Gives the address. -/
def linkTextAt : Str → Option Str
  | [] => none
  | c :: t =>
    match linkTailAt (c :: t) with
    | some u => some u
    | none => if isLineTerminator c then none else linkTextAt t

/-- A markdown link `[text](address)` at the start of a text: its address. -/
def linkAt : Str → Option Str
  | [] => none
  | c :: t => if c = '[' then linkTextAt t else none

/-- The address of the first markdown link of a text, reading from the left. -/
def firstLink : Str → Option Str
  | [] => none
  | c :: t =>
    match linkAt (c :: t) with
    | some u => some u
    | none => firstLink t

/-- The regex after the text of a markdown link: `\]\((https?:\/\/[^\s)]+)\)`. -/
def linkTailRe : Re :=
  Re.seq (Re.lit ']') (Re.seq (Re.lit '(') (Re.seq (Re.group 2
    (Re.seqs [Re.str "http", Re.opt (Re.lit 's'), Re.str "://",
      Re.plus (Re.cls true [.space, .ch ')'])])) (Re.lit ')')))

/-- Capture 2 of a list of captures. -/
def cap2 (caps : List (Nat × Str)) : Str :=
  (⟨[], [], [], caps⟩ : Match).cap 2

/-- The markdown-link regex `\[(.*?)\]\((https?:\/\/[^\s)]+)\)`. -/
def linkRe : Re :=
  Re.seqs [Re.lit '[', Re.group 1 (Re.starLazy Re.any), Re.lit ']', Re.lit '(',
    Re.group 2 (Re.seqs [Re.str "http", Re.opt (Re.lit 's'), Re.str "://",
      Re.plus (Re.cls true [.space, .ch ')'])]), Re.lit ')']

/-- An environment with mixed behaviour: the first generation call fails, the
later ones answer with one valid event, and the second save fails. -/
def flakyEnv : Env :=
  { getCurrentWeekDateRange := fun _ => ⟨0, 6⟩
    generatePrompt := fun _ => "prompt".toList
    callChatGPT := fun calls _ => if calls = 0 then .error "timeout".toList else .ok docOne
    save := fun calls _ => if calls = 1 then .error "write failed".toList else .ok () }

/-! ## `getCurrentWeekDateRange` (`multi-api.js` and `improved-chatgpt.js`) -/

/-- A JavaScript `Date` read in local time: the calendar day, counted in days
from 1 January 1970, and the time of day in milliseconds.  (Days on which the
local clock is moved are not told apart.) -/
structure JsDate where
  day : Int
  ms : Nat
deriving DecidableEq, Repr

/-- Method `Date.prototype.getDay`: 0 is Sunday; day 0, 1 January 1970, was a
Thursday. -/
def JsDate.getDay (d : JsDate) : Int := (d.day + 4) % 7

/-- Method `Date.prototype.getDate`, the day of the month, for a calendar given
by `monthStart`: the day number of the first day of the month of a day. -/
def JsDate.getDate (monthStart : Int → Int) (d : JsDate) : Int :=
  d.day - monthStart d.day + 1

/-- Method `Date.prototype.setDate(n)`: the `n`-th day counted from the first of
the month of `d`; an `n` below 1 or past the end of the month reaches a
neighbouring month.  The time of day stays. -/
def JsDate.setDate (monthStart : Int → Int) (d : JsDate) (n : Int) : JsDate :=
  { d with day := monthStart d.day + n - 1 }

/-- Method `Date.prototype.setHours(h, m, s, ms)`. -/
def JsDate.setHours (d : JsDate) (h m s ms : Nat) : JsDate :=
  { d with ms := ((h * 60 + m) * 60 + s) * 1000 + ms }

/-- The pair `{ startDate, endDate }`. -/
structure WeekRange where
  startDate : JsDate
  endDate : JsDate
deriving DecidableEq, Repr

/-- The expression `currentDay === 0 ? 6 : currentDay - 1`. -/
def daysToMonday (currentDay : Int) : Int :=
  if currentDay = 0 then 6 else currentDay - 1

/-- Function `getCurrentWeekDateRange` (the same code in both files), with the
clock reading `now` and the calendar as parameters. -/
def getCurrentWeekDateRange (monthStart : Int → Int) (now : JsDate) : WeekRange :=
  let currentDay := now.getDay
  let startDate :=
    (JsDate.setDate monthStart now (now.getDate monthStart - daysToMonday currentDay)).setHours
      0 0 0 0
  let endDate :=
    (JsDate.setDate monthStart startDate (startDate.getDate monthStart + 6)).setHours
      23 59 59 999
  ⟨startDate, endDate⟩

/-! ## `generateWeatherPlanningTips` (`multi-api.js`) -/

/-- The record `temp: { min, max }` of a forecast day; `fetchWeatherForecast`
stores `Math.round(...)` of what the weather service sends, whole degrees. -/
structure Temp where
  min : Int
  max : Int
deriving DecidableEq, Repr

/-- One day of the weather forecast, as `fetchWeatherForecast` builds it;
`precipitation` is a percentage (`day.pop * 100`). -/
structure ForecastDay where
  date : Str
  temp : Temp
  weather : Str
  description : Str
  precipitation : ℚ
deriving DecidableEq, Repr

/-- JavaScript `s.split(c)` for a one-character separator `c`. -/
def splitChar (sep : Char) : Str → List Str
  | [] => [[]]
  | c :: t =>
    if c = sep then [] :: splitChar sep t
    else
      match splitChar sep t with
      | [] => [[c]]
      | l :: ls => (c :: l) :: ls

/-- JavaScript `Math.round`: the nearest integer, a half going up. -/
def mathRound (x : ℚ) : Int := ⌊x + 1 / 2⌋

/-- The tip returned for an empty forecast. -/
def weatherUnavailable : Str :=
  ("**Weather**: Weather forecast unavailable. " ++
   "Check local weather services before heading out.").toList

/-- The template literal of the heat tip. -/
def heatAdvisory (dayList : Str) : Str :=
  "**Heat Advisory**: Temperatures will reach above 85°F on ".toList ++ dayList ++
    ". Stay hydrated and wear sunscreen for outdoor events.".toList

/-- The template literal of the rain tip. -/
def rainAlert (dayList : Str) : Str :=
  "**Rain Alert**: High chance of precipitation on ".toList ++ dayList ++
    ". Consider bringing an umbrella or rain jacket for outdoor activities.".toList

/-- The template literal of the weekly summary. -/
def weeklyWeather (averageLow averageHigh : Int) (weather : Str) : Str :=
  "**Weekly Weather**: Expect temperatures ranging from ".toList ++ (toString averageLow).toList ++
    "°F to ".toList ++ (toString averageHigh).toList ++ "°F this week. ".toList ++ weather ++
    " conditions expected for most of the week.".toList

/-- The list `days.map(day => day.date.split(',')[0]).join(', ')`. -/
def dayList (days : List ForecastDay) : Str :=
  ", ".toList.intercalate (days.map fun day => (splitChar ',' day.date).headD [])

/-- The value `averageHigh`:
`Math.round(forecast.reduce((sum, day) => sum + day.temp.max, 0) / forecast.length)`. -/
def averageHigh (forecast : List ForecastDay) : Int :=
  mathRound (((forecast.foldl (fun sum day => sum + day.temp.max) 0 : Int) : ℚ) /
    ((forecast.length : Nat) : ℚ))

/-- The value `averageLow`:
`Math.round(forecast.reduce((sum, day) => sum + day.temp.min, 0) / forecast.length)`. -/
def averageLow (forecast : List ForecastDay) : Int :=
  mathRound (((forecast.foldl (fun sum day => sum + day.temp.min) 0 : Int) : ℚ) /
    ((forecast.length : Nat) : ℚ))

/-- Function `generateWeatherPlanningTips(forecast)`. -/
def generateWeatherPlanningTips (forecast : List ForecastDay) : List Str :=
  match forecast with
  | [] => [weatherUnavailable]
  | first :: _ =>
    let tips : List Str := []
    let highTempDays := forecast.filter fun day => day.temp.max > 85
    let tips := if highTempDays.length > 0 then tips ++ [heatAdvisory (dayList highTempDays)] else tips
    let rainyDays := forecast.filter fun day => day.precipitation > 50
    let tips := if rainyDays.length > 0 then tips ++ [rainAlert (dayList rainyDays)] else tips
    tips ++ [weeklyWeather (averageLow forecast) (averageHigh forecast) first.weather]

/-- The text before the first comma of a forecast date (all of it when it has
no comma). -/
def dayLabel (day : ForecastDay) : Str :=
  day.date.takeWhile fun c => c != ','

/-- The labels, joined by `, `, of the days that satisfy `exceeds`, in forecast order. -/
def alertDays (exceeds : ForecastDay → Bool) (forecast : List ForecastDay) : Str :=
  ", ".toList.intercalate ((forecast.filter exceeds).map dayLabel)

/-- A three-day forecast with one hot day and one rainy day. -/
def sampleForecast : List ForecastDay :=
  [⟨"Friday, June 27".toList, ⟨68, 91⟩, "Clear".toList, "clear sky".toList, 10⟩,
   ⟨"Saturday, June 28".toList, ⟨64, 80⟩, "Rain".toList, "light rain".toList, 70⟩,
   ⟨"Sunday, June 29".toList, ⟨61, 79⟩, "Clouds".toList, "few clouds".toList, 50⟩]

/-! ## `fetchAndStoreActivities` (`multi-api.js`): the categories -/

/-- The two values `fetchTicketmasterEvents` gives to the field `category` of
an event: `'Live Music'` when the first classification has the segment
`Music`, `'Festivals & Events'` otherwise. -/
inductive TicketmasterCategory where
  | liveMusic
  | festivalsAndEvents
deriving DecidableEq, Repr

/-- The string stored in the field `category`. -/
def TicketmasterCategory.name : TicketmasterCategory → Str
  | .liveMusic => "Live Music".toList
  | .festivalsAndEvents => "Festivals & Events".toList

/-- An event as `fetchTicketmasterEvents` returns it: the field `category` and
the other fields (`eventData`). -/
structure TicketmasterEvent where
  category : TicketmasterCategory
  eventData : Event
deriving DecidableEq, Repr

/-- The statement `if (!obj[key]) { obj[key] = []; }` on an object whose own
keys are kept in insertion order. -/
def ensureKey (obj : List (Str × List Event)) (key : Str) : List (Str × List Event) :=
  if obj.any fun p => p.1 == key then obj else obj ++ [(key, [])]

/-- The statement `obj[key].push(...events)`. -/
def pushEvents (obj : List (Str × List Event)) (key : Str) (events : List Event) :
    List (Str × List Event) :=
  obj.map fun p => if p.1 == key then (p.1, p.2 ++ events) else p

/-- The object `eventsByCategory` after the Ticketmaster events and the Gemini
activities (all of category `'Local Activities'`) have been added. -/
def eventsByCategory (ticketmasterEvents : List TicketmasterEvent)
    (geminiActivities : List Event) : List (Str × List Event) :=
  let obj := ticketmasterEvents.foldl
    (fun obj event => pushEvents (ensureKey obj event.category.name) event.category.name
      [event.eventData]) []
  if geminiActivities.length > 0 then
    pushEvents (ensureKey obj "Local Activities".toList) "Local Activities".toList geminiActivities
  else obj

/-- The array `categories` that `fetchAndStoreActivities` stores: one category
per key of `eventsByCategory`, then the two categories that are ensured. -/
def buildCategories (ticketmasterEvents : List TicketmasterEvent)
    (geminiActivities : List Event) : List Category :=
  let categories : List Category :=
    (eventsByCategory ticketmasterEvents geminiActivities).map fun p => ⟨p.1, p.2⟩
  let categoryNames := categories.map Category.name
  let categories :=
    if !categoryNames.contains "Live Music".toList then
      categories ++ [⟨"Live Music".toList, []⟩]
    else categories
  if !categoryNames.contains "Festivals & Events".toList then
    categories ++ [⟨"Festivals & Events".toList, []⟩]
  else categories

/-! ## `fetchAndStoreActivitiesWithRetry` (`multi-api.js`) -/

/-- How a run of the retry wrapper of `multi-api.js` ends: it returns the
stored document, throws `new Error(message)`, or throws the `TypeError` of
reading `.message` of `null`. -/
inductive FetchEnding (α : Type) where
  | returned (activities : α)
  | thrown (message : Str)
  | typeError
deriving DecidableEq, Repr

/-- What a run did: the number of calls of `fetchAndStoreActivities`, and its
ending (`none` only if the loop were cut off before it ended). -/
structure FetchOutcome (α : Type) where
  attempts : Nat
  ending : Option (FetchEnding α)
deriving DecidableEq, Repr

/-- The final statement
`throw new Error("Failed after " + maxRetries + " attempts. Last error: " + lastError.message)`
(a template literal in the source). -/
def failedAfter {α : Type} (maxRetries : Nat) (lastError : Option Str) : FetchEnding α :=
  match lastError with
  | some message =>
    .thrown ("Failed after ".toList ++ (toString maxRetries).toList ++
      " attempts. Last error: ".toList ++ message)
  | none => .typeError

/-- The loop `while (retries < maxRetries)`; `fetchAndStoreActivities n` is the
result of the call made after `n` failed calls (the stored document, or the
message of the error thrown), and `fuel` bounds the turns. -/
def MultiApi.retryLoop {α : Type} (fetchAndStoreActivities : Nat → Except Str α)
    (maxRetries : Nat) : Nat → (retries : Nat) → (lastError : Option Str) → FetchOutcome α
  | 0, retries, _ => ⟨retries, none⟩
  | fuel + 1, retries, lastError =>
    if retries < maxRetries then
      match fetchAndStoreActivities retries with
      | .ok activities => ⟨retries + 1, some (.returned activities)⟩
      | .error message =>
        MultiApi.retryLoop fetchAndStoreActivities maxRetries fuel (retries + 1) (some message)
    else ⟨retries, some (failedAfter maxRetries lastError)⟩

/-- Function `fetchAndStoreActivitiesWithRetry(maxRetries)` of `multi-api.js`.
Each turn ends the run or raises `retries`, so `maxRetries + 1` turns are
enough. -/
def MultiApi.fetchAndStoreActivitiesWithRetry {α : Type}
    (fetchAndStoreActivities : Nat → Except Str α) (maxRetries : Nat) : FetchOutcome α :=
  MultiApi.retryLoop fetchAndStoreActivities maxRetries (maxRetries + 1) 0 none

/-! ## `extractValue` (`chatgpt.js`) -/

/-- The separator regex of `extractValue`, the alternation `:|–|-`: a colon, an
en dash or a hyphen. -/
def valueSepRe : Re := Re.alts [Re.lit ':', Re.lit '–', Re.lit '-']

/-- Method `ChatGPTService.extractValue(line)`:
`parts.length > 1 ? parts[1].trim() : line.trim()`, where `parts` is `line`
split at the separator regex. -/
def extractValue (line : Str) : Str :=
  let parts := valueSepRe.split false line
  if parts.length > 1 then trim (parts.getD 1 []) else trim line

/-- One of the three separators `:`, `–`, `-`. -/
def isSep (c : Char) : Bool := c == ':' || c == '–' || c == '-'

/-! ## The duplicate parser of `test-improved-integration.js` -/

/-- Helper `extractTicketPrice` of the duplicate: the patterns of the service,
with the default `""`. -/
def Dup.extractTicketPrice (text : Str) : Str :=
  match firstMatch pricePatterns text with
  | some (p, m) => if p.labelled then trim (m.cap 2) else m.text
  | none => []

/-- Helper `extractDescription` of the duplicate: as in the service, with the
default `""`. -/
def Dup.extractDescription (text : Str) : Str :=
  match firstMatch bioPatterns text with
  | some (_, m) => trim (m.cap 2)
  | none =>
    let lines := (splitLines text).filter fun line => (trim line).length > 0
    match lines.getLast? with
    | some last =>
      let lastLine := trim last
      if (fieldStartPat.exec lastLine).isNone then lastLine else []
    | none => []

/-- The event literal of the duplicate; its other helpers are those of the service. -/
def Dup.mkEvent (name text : Str) : Event :=
  { name := name
    date := extractDate text
    time := extractTime text
    venue := extractVenue text
    ticketPrice := Dup.extractTicketPrice text
    ticketLink := extractTicketLink text
    description := Dup.extractDescription text }

/-- The name of the `j`-th event in the duplicate: the bold text is looked for
inside the event block,
`eventName = eventBlock.match(/\*\*([^*]+)\*\*/); name = eventName ? eventName[1].trim() : 'Event j'`. -/
def Dup.eventName (j : Nat) (eventBlock : Str) : Str :=
  match boldNameRe.search false eventBlock with
  | some m => trim (m.cap 1)
  | none => "Event ".toList ++ (toString j).toList

/-- The events of a music or festival section body in the duplicate. -/
def Dup.sectionEvents (sectionContent : Str) : List Event :=
  let eventBlocks := boldRe.split false sectionContent
  eventBlocks.tail.enum.map fun (k, block) =>
    Dup.mkEvent (Dup.eventName (k + 1) (trim block)) (trim block)

/-- One turn of the loop over `sections` in the duplicate. -/
def Dup.processSection (result : Parsed) (rawSection : Str) : Parsed :=
  let sectionTitle := sectionTitleOf rawSection
  let sectionContent := sectionContentOf rawSection
  if (musicTitlePat.exec sectionTitle).isSome then
    { result with categories := result.categories ++
        [⟨"Live Music".toList, Dup.sectionEvents sectionContent⟩] }
  else if (festivalTitlePat.exec sectionTitle).isSome then
    { result with categories := result.categories ++
        [⟨"Festivals & Events".toList, Dup.sectionEvents sectionContent⟩] }
  else if (tipsTitlePat.exec sectionTitle).isSome then
    { result with planningTips := result.planningTips ++ sectionTips sectionContent }
  else result

/-- Method `improvedChatGPTService.parseResponse` of
`test-improved-integration.js`: the section pass alone. -/
def Dup.parseResponse (response : Str) : Parsed :=
  ((headingRe.split false response).tail).foldl Dup.processSection ⟨[], []⟩

/-- A text in which no bold token starts, at any position. -/
def NoBold (b : Str) : Prop := ∀ n, boldAt (b.drop n) = none

/-- The names `Event 1`, ..., `Event n`. -/
def defaultNames (n : Nat) : List Str :=
  (List.range n).map fun k => "Event ".toList ++ (toString (k + 1)).toList

/-! # Theorems -/

/-! ## The validator -/

/-- A `forEach` that pushes the elements passing a test builds the filtered list. -/
theorem foldl_push_filter {α : Type} (p : α → Bool) (l : List α) (init : List α) :
    l.foldl (fun acc x => if p x then acc ++ [x] else acc) init = init ++ l.filter p := by
  induction l generalizing init with
  | nil => simp
  | cons a t ih =>
    simp only [List.foldl_cons, List.filter_cons]
    by_cases h : p a <;> simp [h, ih]

theorem hasName_iff (e : Event) : hasName e = true ↔ NamePresent e := by
  simp only [hasName, NamePresent, Bool.and_eq_true, Bool.not_eq_true', List.isEmpty_eq_false,
    bne_iff_ne, ne_eq, ← List.isPrefixOf_iff_prefix, Bool.not_eq_true, and_assoc]

theorem hasDate_iff (e : Event) : hasDate e = true ↔ DatePresent e := by
  simp [hasDate, DatePresent, List.isEmpty_iff]

theorem hasTime_iff (e : Event) : hasTime e = true ↔ TimePresent e := by
  simp [hasTime, TimePresent, List.isEmpty_iff]

theorem hasVenue_iff (e : Event) : hasVenue e = true ↔ VenuePresent e := by
  simp [hasVenue, VenuePresent, List.isEmpty_iff]

theorem requiredFieldsCount_eq (e : Event) : requiredFieldsCount e = presentCount e := by
  unfold requiredFieldsCount presentCount
  have h1 := hasName_iff e
  have h2 := hasDate_iff e
  have h3 := hasTime_iff e
  have h4 := hasVenue_iff e
  by_cases a : NamePresent e <;> by_cases b : DatePresent e <;>
    by_cases c : TimePresent e <;> by_cases d : VenuePresent e <;>
    simp_all [List.filter]

theorem validEvents_eq (es : List Event) :
    validEvents es = es.filter fun e => decide (MeetsRequired e) := by
  unfold validEvents
  have h := foldl_push_filter (fun e => decide (requiredFieldsCount e ≥ 3)) es []
  simp only [decide_eq_true_eq, List.nil_append] at h
  rw [h]
  congr 1
  funext e
  simp [MeetsRequired, requiredFieldsCount_eq]


theorem foldl_push_filterMap {α β : Type} (f : α → β) (p : β → Bool) (l : List α) (init : List β) :
    l.foldl (fun acc x => if p (f x) then acc ++ [f x] else acc) init
      = init ++ (l.map f).filter p := by
  induction l generalizing init with
  | nil => simp
  | cons a t ih =>
    simp only [List.foldl_cons, List.map_cons, List.filter_cons]
    by_cases h : p (f a) <;> simp [h, ih]

/-- The validator as one filter inside each category and one over the categories. -/
theorem validate_categories_eq (p : Parsed) :
    (validateParsedData p).categories =
      (p.categories.map fun c =>
        (⟨c.name, c.events.filter fun e => decide (MeetsRequired e)⟩ : Category)).filter
        fun c => decide (c.events ≠ []) := by
  unfold validateParsedData
  simp only
  have h := foldl_push_filterMap
    (fun c : Category => (⟨c.name, validEvents c.events⟩ : Category))
    (fun c => decide (c.events.length > 0)) p.categories []
  simp only [decide_eq_true_eq, List.nil_append] at h
  rw [h]
  simp only [validEvents_eq]
  congr 1
  funext c
  simp [List.length_pos]

/-! ## The retry loop -/

/-- A run in which every response is insufficient and every save succeeds:
from any turn with budget left the loop makes one call per remaining retry
and stores the last response. -/
theorem retryLoop_insufficient (env : Env) (maxRetries : Nat)
    (hgen : ∀ k prompt, ∃ r, env.callChatGPT k prompt = .ok r ∧
      totalEvents (validateParsedData (parseResponse r)) < 3)
    (hsave : ∀ k a, env.save k a = .ok ()) :
    ∀ (fuel retryCount calls : Nat) (lastError : Option Str),
      retryCount ≤ maxRetries → maxRetries - retryCount < fuel →
      ∃ r, env.callChatGPT (calls + (maxRetries - retryCount))
            (attemptPrompt env maxRetries (calls + (maxRetries - retryCount))) = .ok r ∧
        retryLoop env maxRetries fuel retryCount calls lastError =
          ⟨calls + (maxRetries - retryCount) + 1,
            some (Ending.returned (mkActivities
              (env.getCurrentWeekDateRange (calls + (maxRetries - retryCount))) r)),
            [mkActivities (env.getCurrentWeekDateRange (calls + (maxRetries - retryCount))) r]⟩ := by
  intro fuel
  induction fuel with
  | zero => intro _ _ _ _ h; omega
  | succ n ih =>
    intro retryCount calls lastError hle hfuel
    obtain ⟨r, hr, hlt⟩ := hgen calls (attemptPrompt env retryCount calls)
    by_cases hlast : retryCount < maxRetries
    · obtain ⟨r2, hr2, hloop⟩ := ih (retryCount + 1) (calls + 1) lastError (by omega) (by omega)
      have e1 : calls + 1 + (maxRetries - (retryCount + 1)) = calls + (maxRetries - retryCount) := by
        omega
      rw [e1] at hr2 hloop
      refine ⟨r2, hr2, ?_⟩
      rw [retryLoop, if_pos hle, hr]
      simp only [hlt, hlast, and_self, if_true]
      exact hloop
    · have heq : retryCount = maxRetries := by omega
      subst heq
      simp only [Nat.sub_self, Nat.add_zero]
      refine ⟨r, hr, ?_⟩
      rw [retryLoop, if_pos hle, hr]
      simp only [hlt, hlast, and_false, if_false, hsave]

/-- A run in which every generation call fails: the error is caught and the
next attempt made until the budget is spent; the last error is thrown. -/
theorem retryLoop_all_fail (env : Env) (maxRetries : Nat)
    (hgen : ∀ k prompt, ∃ e, env.callChatGPT k prompt = .error e) :
    ∀ (fuel retryCount calls : Nat) (lastError : Option Str),
      retryCount ≤ maxRetries → maxRetries - retryCount < fuel →
      ∃ e, env.callChatGPT (calls + (maxRetries - retryCount))
            (attemptPrompt env maxRetries (calls + (maxRetries - retryCount))) = .error e ∧
        retryLoop env maxRetries fuel retryCount calls lastError =
          ⟨calls + (maxRetries - retryCount) + 1, some (Ending.thrown e), []⟩ := by
  intro fuel
  induction fuel with
  | zero => intro _ _ _ _ h; omega
  | succ n ih =>
    intro retryCount calls lastError hle hfuel
    obtain ⟨e, he⟩ := hgen calls (attemptPrompt env retryCount calls)
    by_cases hlast : retryCount < maxRetries
    · obtain ⟨e2, he2, hloop⟩ := ih (retryCount + 1) (calls + 1) (some e) (by omega) (by omega)
      have e1 : calls + 1 + (maxRetries - (retryCount + 1)) = calls + (maxRetries - retryCount) := by
        omega
      rw [e1] at he2 hloop
      refine ⟨e2, he2, ?_⟩
      rw [retryLoop, if_pos hle, he]
      simp only [hlast, if_true]
      exact hloop
    · have heq : retryCount = maxRetries := by omega
      subst heq
      simp only [Nat.sub_self, Nat.add_zero]
      refine ⟨e, he, ?_⟩
      rw [retryLoop, if_pos hle, he]
      simp only [hlast, if_false, finalThrow]


/-! ## The matcher -/

theorem chEq_self (ci : Bool) (c : Char) : chEq ci c c = true := by
  cases ci <;> simp [chEq]

theorem prefixMatch_append (ci : Bool) (w s : List Char) : prefixMatch ci w (w ++ s) = true := by
  induction w with
  | nil => rfl
  | cons c t ih => simp [prefixMatch, chEq_self, ih]

/-- A literal word matches exactly when it is a prefix of the input, up to
case under the `i` flag. -/
theorem run_word (ci : Bool) (w : List Char) (x : MState) (k : Cont) :
    (w.foldr (fun c r => Re.seq (Re.lit c) r) Re.empty).run ci x k =
      if prefixMatch ci w x.rest then k (x.advance w.length) else none := by
  induction w generalizing x with
  | nil => simp [Re.run, prefixMatch, MState.advance]
  | cons c t ih =>
    obtain ⟨pre, rest, caps⟩ := x
    cases rest with
    | nil => simp [Re.run, stepChar, prefixMatch]
    | cons d u =>
      by_cases h : chEq ci c d = true
      · simp [Re.run, stepChar, prefixMatch, h, ih, MState.advance]
      · simp [Re.run, stepChar, prefixMatch, h]

theorem run_str (ci : Bool) (w : String) (x : MState) (k : Cont) :
    (Re.str w).run ci x k =
      if prefixMatch ci w.toList x.rest then k (x.advance w.toList.length) else none :=
  run_word ci w.toList x k

theorem run_alt (ci : Bool) (a b : Re) (x : MState) (k : Cont) :
    (Re.alt a b).run ci x k =
      match a.run ci x k with
      | some z => some z
      | none => b.run ci x k := by
  rw [Re.run]

theorem run_seq (ci : Bool) (a b : Re) (x : MState) (k : Cont) :
    (Re.seq a b).run ci x k = a.run ci x fun y => b.run ci y k := by
  rw [Re.run]

theorem searchFrom_cons (ci : Bool) (r : Re) (pre : List Char) (c : Char) (t : List Char) :
    r.searchFrom ci pre (c :: t) =
      match r.matchAt ci pre (c :: t) with
      | some m => some m
      | none => r.searchFrom ci (c :: pre) t := by
  rw [Re.searchFrom]

theorem searchFrom_cons_none (ci : Bool) (r : Re) (pre : List Char) (c : Char) (t : List Char)
    (h : r.matchAt ci pre (c :: t) = none) :
    r.searchFrom ci pre (c :: t) = r.searchFrom ci (c :: pre) t := by
  rw [searchFrom_cons, h]

theorem searchFrom_of_matchAt (ci : Bool) (r : Re) (pre s : List Char) (m : Match)
    (h : r.matchAt ci pre s = some m) : r.searchFrom ci pre s = some m := by
  cases s with
  | nil => rw [Re.searchFrom, h]
  | cons c t => rw [searchFrom_cons, h]

/-- A match at some later position makes the search succeed. -/
theorem searchFrom_isSome (ci : Bool) (r : Re) (a b pre : List Char)
    (h : (r.matchAt ci (a.reverse ++ pre) b).isSome) :
    (r.searchFrom ci pre (a ++ b)).isSome := by
  induction a generalizing pre with
  | nil =>
    obtain ⟨m, hm⟩ := Option.isSome_iff_exists.mp h
    simp only [List.reverse_nil, List.nil_append] at hm ⊢
    rw [searchFrom_of_matchAt ci r pre b m hm]
    rfl
  | cons c t ih =>
    cases hm : r.matchAt ci pre (c :: (t ++ b)) with
    | some m =>
      rw [List.cons_append, searchFrom_of_matchAt ci r pre _ m hm]
      rfl
    | none =>
      rw [List.cons_append, searchFrom_cons_none ci r pre c _ hm]
      apply ih
      simpa using h

/-- Without a match the text is split into itself alone. -/
theorem splitFrom_of_search_none (ci : Bool) (r : Re) (seg pre rest : List Char)
    (h : r.searchFrom ci pre rest = none) :
    r.splitFrom ci 0 seg pre rest = [seg.reverse ++ rest] := by
  induction rest generalizing seg pre with
  | nil => simp [Re.splitFrom]
  | cons c t ih =>
    rw [Re.searchFrom] at h
    cases hm : r.matchAt ci pre (c :: t) with
    | some m => rw [hm] at h; simp at h
    | none =>
      rw [hm] at h
      simp only at h
      rw [Re.splitFrom, hm]
      simp only
      rw [ih _ _ h]
      simp

theorem split_tail_of_search_none (ci : Bool) (r : Re) (s : Str)
    (h : r.search ci s = none) : (r.split ci s).tail = [] := by
  cases s with
  | nil =>
    simp only [Re.split]
    split <;> rfl
  | cons c t =>
    simp only [Re.split]
    rw [splitFrom_of_search_none ci r [] [] (c :: t) h]
    rfl

theorem includes_infix (needle : Str) (hay : Str) (h : includes needle hay = true) :
    ∃ a b, hay = a ++ needle ++ b := by
  induction hay with
  | nil =>
    simp only [includes, List.isEmpty_iff] at h
    exact ⟨[], [], by simp [h]⟩
  | cons c t ih =>
    simp only [includes, Bool.or_eq_true] at h
    rcases h with h | h
    · obtain ⟨b, hb⟩ := List.isPrefixOf_iff_prefix.mp h
      exact ⟨[], b, by simp [hb]⟩
    · obtain ⟨a, b, hab⟩ := ih h
      exact ⟨c :: a, b, by simp [hab]⟩

/-- A text that includes the word `concert` is classed as music. -/
theorem isMusicText_of_concert (text : Str) (h : includes "concert".toList text = true) :
    isMusicText text = true := by
  obtain ⟨a, b, hab⟩ := includes_infix _ _ h
  subst hab
  unfold isMusicText Pat.exec Re.search
  rw [List.append_assoc]
  apply searchFrom_isSome
  simp only [Re.matchAt, musicKeywordPat, Re.words, List.map, Re.alts]
  rw [run_alt, run_str]
  dsimp only
  rw [prefixMatch_append]
  simp


theorem clearCaps_nil (x : MState) : clearCaps [] x = x := by
  simp [clearCaps]

theorem run_space (ci : Bool) (x : MState) (k : Cont) :
    Re.space.run ci x k = stepChar isSpace x k := by
  rw [Re.run]

theorem run_any (ci : Bool) (x : MState) (k : Cont) :
    Re.any.run ci x k = stepChar (fun c => !isLineTerminator c) x k := by
  rw [Re.run]

theorem run_lit (ci : Bool) (p : Char) (x : MState) (k : Cont) :
    (Re.lit p).run ci x k = stepChar (chEq ci p) x k := by
  rw [Re.run]

theorem run_rep (ci : Bool) (min : Nat) (max : Option Nat) (g : Bool) (r : Re) (x : MState) (k : Cont) :
    (Re.rep min max g r).run ci x k = repMin (r.run ci) r.groups g min max x k := by
  rw [Re.run]

theorem stepChar_cons (p : Char → Bool) (pre : List Char) (c : Char) (t : List Char)
    (caps : List (Nat × Str)) (k : Cont) :
    stepChar p ⟨pre, c :: t, caps⟩ k = if p c then k ⟨c :: pre, t, caps⟩ else none := rfl

theorem stepChar_nil (p : Char → Bool) (pre : List Char) (caps : List (Nat × Str)) (k : Cont) :
    stepChar p ⟨pre, [], caps⟩ k = none := rfl

/-- Greedy `\s*` over a maximal run of white space `ws`: when the continuation
accepts the position after the run, that is the result. -/
theorem repOpt_space_greedy (ci : Bool) (k : Cont) (z : MState) (r : List Char)
    (caps : List (Nat × Str))
    (hr : ∀ c t, r = c :: t → isSpace c = false) :
    ∀ (ws : List Char) (fuel : Nat) (pre : List Char), (∀ c ∈ ws, isSpace c = true) →
      ws.length ≤ fuel → k ⟨ws.reverse ++ pre, r, caps⟩ = some z →
      repOpt (Re.space.run ci) [] true fuel none ⟨pre, ws ++ r, caps⟩ k = some z := by
  intro ws
  induction ws with
  | nil =>
    intro fuel pre _ _ hk
    simp only [List.reverse_nil, List.nil_append] at hk ⊢
    cases fuel with
    | zero => simpa [repOpt] using hk
    | succ n =>
      have hstep : ∀ d : Cont, Re.space.run ci (clearCaps [] ⟨pre, r, caps⟩) d = none := by
        intro d
        rw [clearCaps_nil, run_space]
        cases r with
        | nil => rfl
        | cons c t => simp [stepChar_cons, hr c t rfl]
      simp [repOpt, hstep, hk]
  | cons w ws ih =>
    intro fuel pre hws hfuel hk
    cases fuel with
    | zero => simp at hfuel
    | succ n =>
      have hw : isSpace w = true := hws w (by simp)
      have hrec := ih n (w :: pre) (fun c hc => hws c (by simp [hc]))
        (by simpa using hfuel) (by simpa using hk)
      simp [repOpt, clearCaps_nil, run_space, stepChar_cons, hw, hrec]


/-- Lazy `.*?` over text without line terminators: when the continuation
rejects every earlier position and accepts the position after `u`, that is
the result. -/
theorem repOpt_any_lazy (ci : Bool) (k : Cont) (z : MState) (back : List Char)
    (caps : List (Nat × Str)) :
    ∀ (u : List Char) (fuel : Nat) (pre : List Char),
      (∀ c ∈ u, isLineTerminator c = false) → u.length ≤ fuel →
      (∀ a b, u = a ++ b → b ≠ [] → k ⟨a.reverse ++ pre, b ++ back, caps⟩ = none) →
      k ⟨u.reverse ++ pre, back, caps⟩ = some z →
      repOpt (Re.any.run ci) [] false fuel none ⟨pre, u ++ back, caps⟩ k = some z := by
  intro u
  induction u with
  | nil =>
    intro fuel pre _ _ _ hk
    simp only [List.reverse_nil, List.nil_append] at hk ⊢
    cases fuel with
    | zero => simpa [repOpt] using hk
    | succ n => simp [repOpt, hk]
  | cons a u ih =>
    intro fuel pre hu hfuel hnone hk
    cases fuel with
    | zero => simp at hfuel
    | succ n =>
      have ha : isLineTerminator a = false := hu a (by simp)
      have h0 : k ⟨pre, a :: (u ++ back), caps⟩ = none := by
        simpa using hnone [] (a :: u) rfl (by simp)
      have hrec := ih n (a :: pre) (fun c hc => hu c (by simp [hc])) (by simpa using hfuel)
        (fun a2 b2 hab hb => by
          simpa using hnone (a :: a2) b2 (by simp [hab]) hb)
        (by simpa using hk)
      simp [repOpt, clearCaps_nil, run_any, stepChar_cons, ha, h0, hrec]

theorem chEq_newline (ci : Bool) (c : Char) (h : isLineTerminator c = false) :
    chEq ci '\n' c = false := by
  have h10 : c.toNat ≠ 10 := by
    intro h10
    simp [isLineTerminator, h10] at h
  have hn : ('\n' : Char).toNat = 10 := rfl
  cases ci
  · simp only [chEq, hn, Bool.false_eq_true, if_false]
    simpa using Ne.symm h10
  · simp only [chEq, canon, hn, if_true]
    split_ifs with h1 h2 <;>
      simp only [Bool.and_eq_true, decide_eq_true_eq, Bool.not_eq_true, not_and, not_le,
        beq_eq_false_iff_ne, ne_eq] at * <;> omega

/-- The lookahead `(?=\n|$)` holds at the end of the input and before a line feed. -/
theorem run_lineEnd_ok (ci : Bool) (x : MState) (k : Cont)
    (h : x.rest = [] ∨ ∃ t, x.rest = '\n' :: t) :
    (Re.look (Re.alt (Re.lit '\n') Re.eol)).run ci x k = k x := by
  obtain ⟨pre, rest, caps⟩ := x
  rcases h with h | ⟨t, h⟩
  · simp only at h
    subst h
    simp [Re.run, stepChar]
  · simp only at h
    subst h
    simp [Re.run, stepChar, chEq_self]

/-- The lookahead `(?=\n|$)` fails before any character other than a line feed. -/
theorem run_lineEnd_fail (ci : Bool) (pre : List Char) (c : Char) (t : List Char)
    (caps : List (Nat × Str)) (k : Cont) (h : isLineTerminator c = false) :
    (Re.look (Re.alt (Re.lit '\n') Re.eol)).run ci ⟨pre, c :: t, caps⟩ k = none := by
  simp [Re.run, stepChar, chEq_newline ci c h]


theorem groups_any : Re.any.groups = [] := rfl

theorem groups_space : Re.space.groups = [] := rfl

theorem run_group (ci : Bool) (i : Nat) (r : Re) (x : MState) (k : Cont) :
    (Re.group i r).run ci x k =
      r.run ci x fun y =>
        k { y with caps := (i, x.rest.take (x.rest.length - y.rest.length)) :: y.caps } := by
  rw [Re.run]

theorem take_length_sub (a b : List Char) : (a ++ b).take ((a ++ b).length - b.length) = a := by
  simp

/-- The value part `(.+?)(?=\n|$)` of a labelled line, started at the first
character `c0` of a value `c0 :: u` that holds no line terminator and is
followed by a line feed or the end of the text: the capture is `c0 :: u`. -/
theorem run_lineValue (pre : List Char) (c0 : Char) (u back : List Char)
    (caps : List (Nat × Str))
    (hu : ∀ c ∈ c0 :: u, isLineTerminator c = false)
    (hback : back = [] ∨ ∃ t, back = '\n' :: t) :
    (Re.seq (Re.group 2 (Re.plusLazy Re.any)) (Re.look (Re.alt (Re.lit '\n') Re.eol))).run true
        ⟨pre, c0 :: (u ++ back), caps⟩ some
      = some ⟨u.reverse ++ c0 :: pre, back, (2, c0 :: u) :: caps⟩ := by
  have hc0 : isLineTerminator c0 = false := hu c0 (by simp)
  rw [run_seq, run_group, Re.plusLazy, run_rep]
  simp only [repMin, groups_any, clearCaps_nil, run_any, stepChar_cons, hc0, Bool.not_false,
    if_true, Option.map_none', reduceCtorEq, if_false]
  apply repOpt_any_lazy true _ _ back caps u _ (c0 :: pre) (fun c hc => hu c (by simp [hc]))
    (by simp)
  · intro a b hab hb
    obtain ⟨b0, bt, rfl⟩ := List.exists_cons_of_ne_nil hb
    have hb0 : isLineTerminator b0 = false := hu b0 (by simp [hab])
    simp only [List.cons_append]
    rw [run_lineEnd_fail true _ b0 _ _ _ hb0]
  · rw [run_lineEnd_ok true _ _ (by simpa using hback)]
    have ht : (c0 :: (u ++ back)).take ((c0 :: (u ++ back)).length - back.length) = c0 :: u := by
      have := take_length_sub (c0 :: u) back
      simpa using this
    simp only [ht]

/-- The tail `:\s*(.+?)(?=\n|$)` of a labelled-line pattern on `:`, white
space `ws`, a value `c0 :: u` and the rest of the text `back`. -/
theorem run_labelTail (pre ws : List Char) (c0 : Char) (u back : List Char)
    (caps : List (Nat × Str))
    (hws : ∀ c ∈ ws, isSpace c = true) (hc0 : isSpace c0 = false)
    (hu : ∀ c ∈ c0 :: u, isLineTerminator c = false)
    (hback : back = [] ∨ ∃ t, back = '\n' :: t) :
    labelTail.run true ⟨pre, ':' :: (ws ++ c0 :: (u ++ back)), caps⟩ some
      = some ⟨u.reverse ++ c0 :: (ws.reverse ++ ':' :: pre), back, (2, c0 :: u) :: caps⟩ := by
  simp only [labelTail, Re.seqs]
  rw [run_seq, run_lit, stepChar_cons, chEq_self]
  simp only [if_true]
  rw [run_seq, Re.star, run_rep]
  simp only [repMin, groups_space]
  apply repOpt_space_greedy true _ _ (c0 :: (u ++ back)) caps
    (fun c t h => by
      have hc : c = c0 := by
        have := List.cons.inj h
        exact this.1.symm
      rw [hc]
      exact hc0) ws _ (':' :: pre) hws (by simp)
  exact run_lineValue _ c0 u back caps hu hback


theorem run_wordB (ci : Bool) (x : MState) (k : Cont) :
    Re.wordB.run ci x k = if atWordB x then k x else none := by
  rw [Re.run]

theorem prefixMatch_snoc (ci : Bool) (w : List Char) (p : Char) (s : List Char) :
    prefixMatch ci (w ++ [p]) s =
      (prefixMatch ci w s && match s.drop w.length with
        | d :: _ => chEq ci p d
        | [] => false) := by
  induction w generalizing s with
  | nil => cases s <;> simp [prefixMatch]
  | cons c t ih =>
    cases s with
    | nil => simp [prefixMatch]
    | cons d u => simp [prefixMatch, ih, Bool.and_assoc]

/-- The tail of a labelled-line pattern fails where no `:` comes next. -/
theorem run_labelTail_none (x : MState) (k : Cont)
    (h : ∀ d t, x.rest = d :: t → chEq true ':' d = false) :
    labelTail.run true x k = none := by
  obtain ⟨pre, rest, caps⟩ := x
  simp only [labelTail, Re.seqs]
  rw [run_seq, run_lit]
  cases rest with
  | nil => rfl
  | cons d t => simp [stepChar_cons, h d t rfl]

theorem run_words_none (ci : Bool) (labels : List String) (hne : labels ≠ []) (x : MState)
    (k : Cont) (h : ∀ l ∈ labels, (Re.str l).run ci x k = none) :
    (Re.words labels).run ci x k = none := by
  induction labels with
  | nil => exact absurd rfl hne
  | cons l ls ih =>
    cases ls with
    | nil => simpa [Re.words, Re.alts] using h l (by simp)
    | cons l2 ls2 =>
      have h1 := h l (by simp)
      have h2 := ih (by simp) (fun l3 hl3 => h l3 (by simp [hl3]))
      simp only [Re.words, List.map_cons, Re.alts] at h2 ⊢
      rw [run_alt, h1]
      exact h2

/-- A labelled-line pattern does not match at a position where none of its
labels, followed by `:`, starts the text. -/
theorem labelRe_matchAt_none (labels : List String) (hne : labels ≠ []) (pre s : List Char)
    (h : labelAt labels s = false) : (labelRe labels).matchAt true pre s = none := by
  have hrun : (labelRe labels).run true ⟨pre, s, []⟩ some = none := by
    simp only [labelRe, Re.seqs]
    rw [run_seq, run_wordB]
    split_ifs
    · rw [run_seq, run_group]
      apply run_words_none true labels hne
      intro l hl
      rw [run_str]
      split_ifs with hp
      · apply run_labelTail_none
        intro d t hd
        have hl2 : prefixMatch true (l.toList ++ [':']) s = false := by
          have := h
          simp only [labelAt, List.any_eq_false] at this
          simpa using this l hl
        rw [prefixMatch_snoc] at hl2
        simp only [MState.advance] at hd hp
        simp only [hp, Bool.true_and] at hl2
        rw [hd] at hl2
        exact hl2
      · rfl
    · rfl
  simp [Re.matchAt, hrun]

/-- The search passes over a stretch of text in which the regex matches nowhere. -/
theorem searchFrom_skip (ci : Bool) (r : Re) (a b pre : List Char)
    (h : ∀ i, i < a.length → r.matchAt ci ((a.take i).reverse ++ pre) (a.drop i ++ b) = none) :
    r.searchFrom ci pre (a ++ b) = r.searchFrom ci (a.reverse ++ pre) b := by
  induction a generalizing pre with
  | nil => rfl
  | cons c t ih =>
    have h0 : r.matchAt ci pre (c :: (t ++ b)) = none := by
      simpa using h 0 (by simp)
    rw [List.cons_append, searchFrom_cons_none ci r pre c _ h0, ih (c :: pre)]
    · simp
    · intro i hi
      have := h (i + 1) (by simpa using hi)
      simpa using this


theorem atWordB_letter (pre : List Char) (c : Char) (t : List Char) (caps : List (Nat × Str))
    (hpre : ∀ p q, pre = p :: q → isWord p = false) (hc : isWord c = true) :
    atWordB ⟨pre, c :: t, caps⟩ = true := by
  cases pre with
  | nil => simp [atWordB, hc]
  | cons p q => simp [atWordB, hc, hpre p q rfl]

/-- At a word boundary, `Date:` or `Dates:` followed by white space `ws` and a
value `c0 :: u` up to the end of its line is matched by the labelled date
pattern, and the value is its second capture. -/
theorem dateLabel_matchAt (pre : List Char) (plural : Bool) (ws : List Char) (c0 : Char)
    (u back : List Char)
    (hpre : ∀ p q, pre = p :: q → isWord p = false)
    (hws : ∀ c ∈ ws, isSpace c = true) (hc0 : isSpace c0 = false)
    (hu : ∀ c ∈ c0 :: u, isLineTerminator c = false)
    (hback : back = [] ∨ ∃ t, back = '\n' :: t) :
    ∃ m, (labelRe ["Dates", "Date"]).matchAt true pre
        ((if plural then "Dates" else "Date").toList ++ ':' :: (ws ++ c0 :: (u ++ back))) = some m ∧
      m.cap 2 = c0 :: u := by
  have hD : isWord 'D' = true := by decide
  have hs : chEq true 's' ':' = false := by decide
  cases plural
  · have hrun : (labelRe ["Dates", "Date"]).run true
        ⟨pre, 'D' :: 'a' :: 't' :: 'e' :: ':' :: (ws ++ c0 :: (u ++ back)), []⟩ some
        = some ⟨u.reverse ++ c0 :: (ws.reverse ++ ':' :: 'e' :: 't' :: 'a' :: 'D' :: pre), back,
            [(2, c0 :: u), (1, ['D', 'a', 't', 'e'])]⟩ := by
      simp only [labelRe, Re.seqs, Re.words, List.map, Re.alts]
      rw [run_seq, run_wordB, atWordB_letter pre _ _ _ hpre hD]
      simp only [if_true]
      rw [run_seq, run_group, run_alt, run_str, run_str]
      simp only [prefixMatch, chEq_self, hs, Bool.and_true, Bool.and_false, Bool.false_eq_true,
        if_false, if_true, MState.advance, String.toList, List.length_cons, List.length_nil,
        List.take, List.drop, List.reverse_cons, List.reverse_nil, List.nil_append,
        List.cons_append, List.singleton_append]
      have := run_labelTail ('e' :: 't' :: 'a' :: 'D' :: pre) ws c0 u back
        [(1, ['D', 'a', 't', 'e'])] hws hc0 hu hback
      simpa using this
    refine ⟨_, by simp only [Bool.false_eq_true, if_false, Re.matchAt]; rw [show "Date".toList = ['D', 'a', 't', 'e'] from rfl]; simp only [List.cons_append, List.nil_append, hrun]; rfl, ?_⟩
    simp [Match.cap]
  · have hrun : (labelRe ["Dates", "Date"]).run true
        ⟨pre, 'D' :: 'a' :: 't' :: 'e' :: 's' :: ':' :: (ws ++ c0 :: (u ++ back)), []⟩ some
        = some ⟨u.reverse ++ c0 :: (ws.reverse ++ ':' :: 's' :: 'e' :: 't' :: 'a' :: 'D' :: pre), back,
            [(2, c0 :: u), (1, ['D', 'a', 't', 'e', 's'])]⟩ := by
      simp only [labelRe, Re.seqs, Re.words, List.map, Re.alts]
      rw [run_seq, run_wordB, atWordB_letter pre _ _ _ hpre hD]
      simp only [if_true]
      rw [run_seq, run_group, run_alt, run_str]
      simp only [prefixMatch, chEq_self, Bool.and_true, Bool.and_false, Bool.false_eq_true,
        if_false, if_true, MState.advance, String.toList, List.length_cons, List.length_nil,
        List.take, List.drop, List.reverse_cons, List.reverse_nil, List.nil_append,
        List.cons_append, List.singleton_append]
      have := run_labelTail ('s' :: 'e' :: 't' :: 'a' :: 'D' :: pre) ws c0 u back
        [(1, ['D', 'a', 't', 'e', 's'])] hws hc0 hu hback
      simp only [List.length_append, List.length_cons] at this ⊢
      simp [this]
    refine ⟨_, by simp only [if_true, Re.matchAt]; rw [show "Dates".toList = ['D', 'a', 't', 'e', 's'] from rfl]; simp only [List.cons_append, List.nil_append, hrun]; rfl, ?_⟩
    simp [Match.cap]


theorem trim_dropWhile (v : Str) : trim (v.dropWhile isSpace) = trim v := by
  simp [trim, List.dropWhile_idempotent]

/-- A non-blank text splits into leading white space and a rest that starts
with a character that is not white space. -/
theorem nonblank_split (v : Str) (h : ∃ c ∈ v, isSpace c = false) :
    ∃ c0 u, v.dropWhile isSpace = c0 :: u ∧ isSpace c0 = false ∧
      v = v.takeWhile isSpace ++ c0 :: u := by
  have hne : v.dropWhile isSpace ≠ [] := by
    intro hnil
    obtain ⟨c, hc, hsp⟩ := h
    have := (List.dropWhile_eq_nil_iff.mp hnil) c hc
    simp [hsp] at this
  obtain ⟨c0, u, hcu⟩ := List.exists_cons_of_ne_nil hne
  refine ⟨c0, u, hcu, ?_, ?_⟩
  · have := List.head_dropWhile_not isSpace v hne
    simpa [hcu] using this
  · rw [← hcu, List.takeWhile_append_dropWhile]

/-! ## The pipeline -/

/-- Without a heading marker the section pass adds nothing. -/
theorem parseSections_of_no_heading (doc : Str) (h : headingRe.search false doc = none) :
    parseSections doc = ⟨[], []⟩ := by
  unfold parseSections
  rw [split_tail_of_search_none false headingRe doc h]
  rfl

/-- The final pass leaves the name alone. -/
theorem ensureRequired_name (e : Event) : (ensureRequired e).name = e.name := by
  unfold ensureRequired
  simp only
  split_ifs <;> rfl

theorem ensureRequired_time (e : Event) (h : e.time = "TBD".toList) :
    (ensureRequired e).time = "TBD".toList := by
  unfold ensureRequired
  simp only
  split_ifs <;> simp_all

theorem ensureRequired_venue (e : Event) (h : e.venue = "TBD".toList) :
    (ensureRequired e).venue = "TBD".toList := by
  unfold ensureRequired
  simp only
  split_ifs <;> simp_all

/-- An event without time and venue fails the 3-of-4 check. -/
theorem not_meetsRequired_of_tbd (e : Event) (ht : e.time = "TBD".toList)
    (hv : e.venue = "TBD".toList) : ¬ MeetsRequired e := by
  have h1 : ¬ TimePresent e := fun h => h.2 ht
  have h2 : ¬ VenuePresent e := fun h => h.2 hv
  unfold MeetsRequired presentCount
  simp only [h1, h2, if_false]
  split_ifs <;> omega

theorem extractTime_of_no_match (text : Str) (h : firstMatch timePatterns text = none) :
    extractTime text = "TBD".toList := by
  simp [extractTime, h]

theorem extractVenue_of_no_match (text : Str) (h : firstMatch venuePatterns text = none) :
    extractVenue text = "TBD".toList := by
  simp [extractVenue, h]

/-- The section pass on a document with one heading: one category, or none. -/
theorem parseSections_single (doc front sec : Str)
    (hsplit : headingRe.split false doc = [front, sec])
    (htitle : (musicTitlePat.exec (sectionTitleOf sec)).isSome ∨
      (festivalTitlePat.exec (sectionTitleOf sec)).isSome) :
    ∃ label, (parseSections doc).categories = [⟨label, sectionEvents (sectionContentOf sec)⟩] := by
  unfold parseSections
  rw [hsplit]
  simp only [List.tail_cons, List.foldl_cons, List.foldl_nil, processSection]
  by_cases hm : (musicTitlePat.exec (sectionTitleOf sec)).isSome = true
  · exact ⟨"Live Music".toList, by simp [hm]⟩
  · have hf : (festivalTitlePat.exec (sectionTitleOf sec)).isSome = true := by
      rcases htitle with h | h
      · exact absurd h hm
      · exact h
    exact ⟨"Festivals & Events".toList, by simp [hm, hf]⟩

theorem sectionEvents_single (content b0 block : Str)
    (hblocks : boldRe.split false content = [b0, block]) :
    ∃ name, sectionEvents content = [mkEvent name (trim block)] := by
  unfold sectionEvents
  rw [hblocks]
  exact ⟨_, rfl⟩

theorem prefixMatch_nil (ci : Bool) (w : List Char) : prefixMatch ci w [] = w.isEmpty := by
  cases w <;> rfl

theorem labelAt_nil (labels : List String) : labelAt labels [] = false := by
  simp [labelAt, prefixMatch_nil]

theorem labelIn_drop (labels : List String) (s : Str) (h : labelIn labels s = false) :
    ∀ i, i ≤ s.length → labelAt labels (s.drop i) = false := by
  induction s with
  | nil =>
    intro i _
    simp [labelAt_nil]
  | cons c t ih =>
    simp only [labelIn, Bool.or_eq_false_iff] at h
    intro i hi
    cases i with
    | zero => simpa using h.1
    | succ j => simpa using ih h.2 j (by simpa using hi)

/-- The search fails when the regex matches at no position. -/
theorem searchFrom_none (ci : Bool) (r : Re) (s pre : List Char)
    (h : ∀ i, i ≤ s.length → r.matchAt ci ((s.take i).reverse ++ pre) (s.drop i) = none) :
    r.searchFrom ci pre s = none := by
  induction s generalizing pre with
  | nil => simpa [Re.searchFrom] using h 0 (by simp)
  | cons c t ih =>
    have h0 : r.matchAt ci pre (c :: t) = none := by simpa using h 0 (by simp)
    rw [searchFrom_cons_none ci r pre c t h0]
    apply ih
    intro i hi
    simpa using h (i + 1) (by simpa using hi)

/-- A labelled-line pattern finds nothing in a text without its labels. -/
theorem labelRe_search_none (labels : List String) (hne : labels ≠ []) (text : Str)
    (h : labelIn labels text = false) : (labelRe labels).search true text = none := by
  unfold Re.search
  apply searchFrom_none
  intro i hi
  exact labelRe_matchAt_none labels hne _ _ (labelIn_drop labels text h i hi)

/-- An alternation of words tries them in order: the first word that starts
the input and whose continuation succeeds gives the result. -/
theorem run_words (ci : Bool) (ws : List String) (hne : ws ≠ []) (x : MState) (k : Cont) :
    (Re.words ws).run ci x k =
      ws.findSome? fun w =>
        if prefixMatch ci w.toList x.rest then k (x.advance w.toList.length) else none := by
  induction ws with
  | nil => exact absurd rfl hne
  | cons w ws ih =>
    cases ws with
    | nil =>
      simp only [Re.words, List.map_cons, List.map_nil, Re.alts]
      rw [run_str, List.findSome?_cons]
      generalize (if prefixMatch ci w.toList x.rest then k (x.advance w.toList.length) else none) = v
      cases v <;> rfl
    | cons w2 ws2 =>
      have h2 := ih (by simp)
      simp only [Re.words, List.map_cons, Re.alts] at h2 ⊢
      rw [run_alt, run_str, h2]
      conv_rhs => rw [List.findSome?_cons]
      generalize (if prefixMatch ci w.toList x.rest then k (x.advance w.toList.length) else none) = v
      cases v <;> rfl

theorem includesCI_cons (w : Str) (c : Char) (t : List Char) :
    includesCI w (c :: t) = (prefixMatch true w (c :: t) || includesCI w t) := rfl

theorem findSome?_isSome {α β : Type} (f : α → Option β) (l : List α) :
    (l.findSome? f).isSome = l.any fun a => (f a).isSome := by
  induction l with
  | nil => rfl
  | cons a t ih =>
    rw [List.findSome?_cons, List.any_cons]
    cases f a <;> simp [ih]

/-- An alternation of words matches at a position exactly when one of the
words starts the input there. -/
theorem words_matchAt_isSome (ci : Bool) (ws : List String) (hne : ws ≠ []) (pre s : List Char) :
    ((Re.words ws).matchAt ci pre s).isSome = ws.any fun w => prefixMatch ci w.toList s := by
  have h : ((Re.words ws).matchAt ci pre s).isSome =
      ((Re.words ws).run ci ⟨pre, s, []⟩ some).isSome := by
    unfold Re.matchAt
    cases (Re.words ws).run ci ⟨pre, s, []⟩ some <;> rfl
  rw [h, run_words ci ws hne, findSome?_isSome]
  congr 1
  funext w
  dsimp only
  split <;> simp_all

/-- An alternation of words is found in a text exactly when one of the words
occurs in it. -/
theorem words_search_isSome (ws : List String) (hne : ws ≠ []) (pre s : List Char) :
    ((Re.words ws).searchFrom true pre s).isSome = ws.any fun w => includesCI w.toList s := by
  induction s generalizing pre with
  | nil =>
    rw [Re.searchFrom, words_matchAt_isSome true ws hne]
    congr 1
    funext w
    simp [includesCI, prefixMatch_nil]
  | cons c t ih =>
    have hm := words_matchAt_isSome true ws hne pre (c :: t)
    rw [searchFrom_cons]
    cases hcase : (Re.words ws).matchAt true pre (c :: t) with
    | some m =>
      rw [hcase] at hm
      simp only [Option.isSome_some] at hm ⊢
      obtain ⟨w, hw, hp⟩ := List.any_eq_true.mp hm.symm
      exact (List.any_eq_true.mpr ⟨w, hw, by rw [includesCI_cons, hp]; rfl⟩).symm
    | none =>
      rw [hcase] at hm
      simp only [Option.isSome_none] at hm
      simp only
      rw [ih]
      have hall : ∀ w ∈ ws, prefixMatch true w.toList (c :: t) = false := by
        intro w hw
        have := List.any_eq_false.mp hm.symm w hw
        simpa using this
      rw [Bool.eq_iff_iff, List.any_eq_true, List.any_eq_true]
      constructor
      · rintro ⟨w, hw, hp⟩
        exact ⟨w, hw, by rw [includesCI_cons, hp, Bool.or_true]⟩
      · rintro ⟨w, hw, hp⟩
        refine ⟨w, hw, ?_⟩
        rw [includesCI_cons, hall w hw, Bool.false_or] at hp
        exact hp

theorem title_exec_isSome (ws : List String) (hne : ws ≠ []) (title : Str) :
    (Pat.exec ⟨Re.words ws, true, false⟩ title).isSome = titleHas ws title := by
  unfold Pat.exec Re.search titleHas
  exact words_search_isSome ws hne [] title

theorem run_bol (ci : Bool) (x : MState) (k : Cont) :
    Re.bol.run ci x k = if x.pre.isEmpty then k x else none := by
  rw [Re.run]

/-- A pattern anchored with `^` matches nowhere after the start of the text. -/
theorem bol_searchFrom_none (ci : Bool) (r : Re) (pre s : List Char) (hpre : pre ≠ []) :
    (Re.seq Re.bol r).searchFrom ci pre s = none := by
  apply searchFrom_none
  intro i _
  have hne : ((s.take i).reverse ++ pre).isEmpty = false := by
    cases pre with
    | nil => exact absurd rfl hpre
    | cons p q => simp
  simp [Re.matchAt, run_seq, run_bol, hne]

/-- The `^(Time|Date|...)` test succeeds exactly on a line that begins with
one of the words. -/
theorem fieldStart_isNone (line : Str) :
    (fieldStartPat.exec line).isNone = !startsWithAny fieldWords line := by
  have hat : ((Re.seq Re.bol (Re.group 1 (Re.words fieldWords))).matchAt true [] line).isSome
      = startsWithAny fieldWords line := by
    have h : ((Re.seq Re.bol (Re.group 1 (Re.words fieldWords))).matchAt true [] line).isSome =
        ((Re.words fieldWords).run true ⟨[], line, []⟩ fun y =>
          some { y with caps := (1, line.take (line.length - y.rest.length)) :: y.caps }).isSome := by
      unfold Re.matchAt
      rw [run_seq, run_bol]
      simp only [List.isEmpty_nil, if_true]
      rw [run_group]
      cases (Re.words fieldWords).run true ⟨[], line, []⟩ _ <;> rfl
    rw [h, run_words true fieldWords (by simp [fieldWords]), findSome?_isSome]
    unfold startsWithAny
    congr 1
    funext w
    dsimp only
    split <;> simp_all
  have hsearch : (fieldStartPat.exec line).isSome = startsWithAny fieldWords line := by
    rw [← hat]
    unfold Pat.exec Re.search
    show ((Re.seq Re.bol (Re.group 1 (Re.words fieldWords))).searchFrom true [] line).isSome = _
    cases line with
    | nil => rw [Re.searchFrom]
    | cons c t =>
      rw [searchFrom_cons]
      cases (Re.seq Re.bol (Re.group 1 (Re.words fieldWords))).matchAt true [] (c :: t) with
      | some m => rfl
      | none =>
        simp only
        rw [bol_searchFrom_none true _ [c] t (by simp)]
  rw [← hsearch]
  cases fieldStartPat.exec line <;> rfl

theorem dropWhile_isSpace_nil (s : Str) : s.dropWhile isSpace = [] ↔ nonBlank s = false := by
  rw [List.dropWhile_eq_nil_iff]
  simp [nonBlank]

theorem trim_length_pos (s : Str) : decide ((trim s).length > 0) = nonBlank s := by
  have h : trim s = [] ↔ nonBlank s = false := by
    unfold trim
    rw [List.reverse_eq_nil_iff, List.dropWhile_eq_nil_iff]
    constructor
    · intro h
      by_contra hnb
      have hne : s.dropWhile isSpace ≠ [] := fun hnil => hnb ((dropWhile_isSpace_nil s).mp hnil)
      obtain ⟨c0, u, hcu⟩ := List.exists_cons_of_ne_nil hne
      have hc0 : isSpace c0 = false := by
        have := List.head_dropWhile_not isSpace s hne
        simpa [hcu] using this
      have := h c0 (by rw [hcu]; simp)
      simp [hc0] at this
    · intro hb c hc
      rw [(dropWhile_isSpace_nil s).mpr hb] at hc
      simp at hc
  cases hnb : nonBlank s
  · rw [h.mpr hnb]; rfl
  · have : trim s ≠ [] := fun hnil => by rw [h.mp hnil] at hnb; simp at hnb
    simpa using List.length_pos.mpr this

theorem processSection_eq (result : Parsed) (raw : Str) :
    processSection result raw =
      ⟨result.categories ++ (sectionCategory raw).toList,
        result.planningTips ++ sectionPlanningTips raw⟩ := by
  unfold processSection sectionCategory sectionPlanningTips
  by_cases h1 : (musicTitlePat.exec (sectionTitleOf raw)).isSome = true
  · simp [h1]
  · by_cases h2 : (festivalTitlePat.exec (sectionTitleOf raw)).isSome = true
    · simp [h1, h2]
    · by_cases h3 : (tipsTitlePat.exec (sectionTitleOf raw)).isSome = true
      · simp [h1, h2, h3]
      · simp [h1, h2, h3]

/-- The loop over the sections, as one pass that collects categories and tips. -/
theorem foldl_processSection (secs : List Str) (init : Parsed) :
    secs.foldl processSection init =
      ⟨init.categories ++ secs.filterMap sectionCategory,
        init.planningTips ++ secs.flatMap sectionPlanningTips⟩ := by
  induction secs generalizing init with
  | nil => simp
  | cons s t ih =>
    rw [List.foldl_cons, ih, processSection_eq]
    cases h : sectionCategory s <;> simp [List.filterMap_cons, h, List.flatMap_cons]

theorem parseSections_eq (doc : Str) :
    parseSections doc =
      ⟨(headingRe.split false doc).tail.filterMap sectionCategory,
        (headingRe.split false doc).tail.flatMap sectionPlanningTips⟩ := by
  unfold parseSections
  rw [foldl_processSection]
  simp

/-- With a category from the section pass the fallback scanner is not consulted. -/
theorem parseResponse_of_sections (doc : Str) (h : (parseSections doc).categories ≠ []) :
    parseResponse doc =
      ⟨(parseSections doc).categories.map ensureCategory, (parseSections doc).planningTips⟩ := by
  unfold parseResponse
  have hlen : ¬ (parseSections doc).categories.length = 0 := by
    simpa [List.length_eq_zero] using h
  simp only [hlen, if_false]
  rfl

/-- The final steps of `parseResponse` leave the planning tips of the section
pass as they are. -/
theorem parseResponse_planningTips (doc : Str) :
    (parseResponse doc).planningTips = (parseSections doc).planningTips := by
  unfold parseResponse
  simp only
  split_ifs <;> rfl

/-- Without a category from the section pass the categories are those of the
fallback scanner. -/
theorem parseResponse_of_no_sections (doc : Str) (h : (parseSections doc).categories = []) :
    (parseResponse doc).categories = (fallbackCategories doc).map ensureCategory := by
  unfold parseResponse
  simp only [h, List.length_nil, if_true, List.nil_append]
  rfl

theorem sectionEvents_of_no_bold (content : Str) (h : boldRe.search false content = none) :
    sectionEvents content = [] := by
  unfold sectionEvents
  simp only
  rw [split_tail_of_search_none false boldRe content h]
  rfl

theorem sectionCategory_unrecognised (sec : Str) (h : unrecognised sec) :
    sectionCategory sec = none := by
  unfold sectionCategory
  simp [h.1, h.2.1]

theorem sectionPlanningTips_unrecognised (sec : Str) (h : unrecognised sec) :
    sectionPlanningTips sec = [] := by
  unfold sectionPlanningTips
  simp [h.1, h.2.1, h.2.2]

/-- The section pass does not see an unrecognised section. -/
theorem parseSections_unrecognised (doc : Str) (front : Str) (before after : List Str) (sec : Str)
    (hdoc : headingRe.split false doc = front :: (before ++ sec :: after))
    (hun : unrecognised sec) :
    parseSections doc =
      ⟨(before ++ after).filterMap sectionCategory, (before ++ after).flatMap sectionPlanningTips⟩ := by
  rw [parseSections_eq, hdoc]
  simp [List.filterMap_append, List.filterMap_cons, sectionCategory_unrecognised sec hun,
    sectionPlanningTips_unrecognised sec hun]

/-- Greedy `p*` over single characters: with no limit on the count, the
longest run of characters satisfying `p` is tried first; when the
continuation rejects every shorter stop, the result is what it says at the
end of the run. -/
theorem repOpt_greedy_det (p : Char → Bool) (k : Cont) (r : List Char)
    (caps : List (Nat × Str)) (hr : ∀ c t, r = c :: t → p c = false) :
    ∀ (run : List Char) (fuel : Nat) (pre : List Char), (∀ c ∈ run, p c = true) →
      run.length ≤ fuel →
      (∀ a b, run = a ++ b → b ≠ [] → k ⟨a.reverse ++ pre, b ++ r, caps⟩ = none) →
      repOpt (stepChar p) [] true fuel none ⟨pre, run ++ r, caps⟩ k
        = k ⟨run.reverse ++ pre, r, caps⟩ := by
  intro run
  induction run with
  | nil =>
    intro fuel pre _ _ _
    simp only [List.reverse_nil, List.nil_append]
    cases fuel with
    | zero => simp [repOpt]
    | succ n =>
      have hstep : ∀ d : Cont, stepChar p (clearCaps [] ⟨pre, r, caps⟩) d = none := by
        intro d
        rw [clearCaps_nil]
        cases r with
        | nil => rfl
        | cons c t => simp [stepChar_cons, hr c t rfl]
      simp [repOpt, hstep]
  | cons w ws ih =>
    intro fuel pre hrun hfuel hfail
    cases fuel with
    | zero => simp at hfuel
    | succ n =>
      have hw : p w = true := hrun w (by simp)
      have hrec := ih n (w :: pre) (fun c hc => hrun c (by simp [hc]))
        (by simpa using hfuel)
        (fun a b hab hb => by simpa using hfail (w :: a) b (by simp [hab]) hb)
      have h0 : k ⟨pre, w :: (ws ++ r), caps⟩ = none := by
        simpa using hfail [] (w :: ws) rfl (by simp)
      simp only [List.reverse_cons, List.append_assoc, List.singleton_append] at hrec ⊢
      simp only [repOpt, clearCaps_nil, List.cons_append, stepChar_cons, hw, if_true,
        List.length_cons, List.length_append, Option.map_none', reduceCtorEq, if_false]
      have hlt : ws.length + r.length < ws.length + r.length + 1 := Nat.lt_succ_self _
      simp only [hlt, if_true, hrec, h0]
      cases k ⟨ws.reverse ++ w :: pre, r, caps⟩ <;> rfl

/-- Greedy `p*`: when the continuation accepts the end of the longest run, that
is the result. -/
theorem repOpt_greedy_ok (p : Char → Bool) (k : Cont) (z : MState) (r : List Char)
    (caps : List (Nat × Str)) (hr : ∀ c t, r = c :: t → p c = false) :
    ∀ (run : List Char) (fuel : Nat) (pre : List Char), (∀ c ∈ run, p c = true) →
      run.length ≤ fuel → k ⟨run.reverse ++ pre, r, caps⟩ = some z →
      repOpt (stepChar p) [] true fuel none ⟨pre, run ++ r, caps⟩ k = some z := by
  intro run
  induction run with
  | nil =>
    intro fuel pre _ _ hk
    simp only [List.reverse_nil, List.nil_append] at hk ⊢
    cases fuel with
    | zero => simpa [repOpt] using hk
    | succ n =>
      have hstep : ∀ d : Cont, stepChar p (clearCaps [] ⟨pre, r, caps⟩) d = none := by
        intro d
        rw [clearCaps_nil]
        cases r with
        | nil => rfl
        | cons c t => simp [stepChar_cons, hr c t rfl]
      simp [repOpt, hstep, hk]
  | cons w ws ih =>
    intro fuel pre hrun hfuel hk
    cases fuel with
    | zero => simp at hfuel
    | succ n =>
      have hw : p w = true := hrun w (by simp)
      have hrec := ih n (w :: pre) (fun c hc => hrun c (by simp [hc]))
        (by simpa using hfuel) (by simpa using hk)
      simp [repOpt, clearCaps_nil, stepChar_cons, hw, hrec]

theorem takeWhile_dropWhile_head (p : Char → Bool) (s : List Char) :
    ∀ c t, s.dropWhile p = c :: t → p c = false := by
  intro c t h
  have hne : s.dropWhile p ≠ [] := by rw [h]; simp
  have := List.head_dropWhile_not p s hne
  simpa [h] using this

/-- The regex `r+` for a single-character `r`, when the continuation rejects
every stop before the end of the longest run. -/
theorem run_plus_det (ci : Bool) (p : Char → Bool) (r : Re)
    (hr : r.run ci = stepChar p) (hg : r.groups = [])
    (pre s : List Char) (caps : List (Nat × Str)) (k : Cont)
    (hfail : ∀ a b, s.takeWhile p = a ++ b → a ≠ [] → b ≠ [] →
      k ⟨a.reverse ++ pre, b ++ s.dropWhile p, caps⟩ = none) :
    (Re.plus r).run ci ⟨pre, s, caps⟩ k =
      if s.takeWhile p = [] then none
      else k ⟨(s.takeWhile p).reverse ++ pre, s.dropWhile p, caps⟩ := by
  rw [Re.plus, run_rep, hr, hg]
  simp only [repMin, Option.map_none', reduceCtorEq, if_false, clearCaps_nil]
  cases s with
  | nil => simp [stepChar_nil]
  | cons c t =>
    by_cases hc : p c = true
    · have htw : (c :: t).takeWhile p = c :: t.takeWhile p := by simp [List.takeWhile_cons, hc]
      have hdw : (c :: t).dropWhile p = t.dropWhile p := by simp [List.dropWhile_cons, hc]
      rw [htw, hdw] at hfail ⊢
      simp only [stepChar_cons, hc, if_true, reduceCtorEq, if_false]
      have hsplit : t = t.takeWhile p ++ t.dropWhile p := (List.takeWhile_append_dropWhile p t).symm
      have := repOpt_greedy_det p k (t.dropWhile p) caps (takeWhile_dropWhile_head p t)
        (t.takeWhile p) t.length (c :: pre) (fun d hd => List.mem_takeWhile_imp hd)
        (by
          have hl := congrArg List.length hsplit
          rw [List.length_append] at hl
          omega)
        (fun a b hab hb => by
          have := hfail (c :: a) b (by simp [hab]) (by simp) hb
          simpa using this)
      rw [← hsplit] at this
      simpa using this
    · have hc2 : p c = false := by simpa using hc
      simp [stepChar_cons, hc2, List.takeWhile_cons]

/-- The regex `r+` for a single-character `r`, when the continuation accepts
the end of the longest run. -/
theorem run_plus_ok (ci : Bool) (p : Char → Bool) (r : Re)
    (hr : r.run ci = stepChar p) (hg : r.groups = [])
    (pre s : List Char) (caps : List (Nat × Str)) (k : Cont) (z : MState)
    (hne : s.takeWhile p ≠ [])
    (hk : k ⟨(s.takeWhile p).reverse ++ pre, s.dropWhile p, caps⟩ = some z) :
    (Re.plus r).run ci ⟨pre, s, caps⟩ k = some z := by
  rw [Re.plus, run_rep, hr, hg]
  simp only [repMin, Option.map_none', reduceCtorEq, if_false, clearCaps_nil]
  cases s with
  | nil => simp at hne
  | cons c t =>
    by_cases hc : p c = true
    · have htw : (c :: t).takeWhile p = c :: t.takeWhile p := by simp [List.takeWhile_cons, hc]
      have hdw : (c :: t).dropWhile p = t.dropWhile p := by simp [List.dropWhile_cons, hc]
      rw [htw, hdw] at hk
      simp only [stepChar_cons, hc, if_true]
      have hsplit : t = t.takeWhile p ++ t.dropWhile p := (List.takeWhile_append_dropWhile p t).symm
      have := repOpt_greedy_ok p k z (t.dropWhile p) caps (takeWhile_dropWhile_head p t)
        (t.takeWhile p) t.length (c :: pre) (fun d hd => List.mem_takeWhile_imp hd)
        (by
          have hl := congrArg List.length hsplit
          rw [List.length_append] at hl
          omega)
        (by simpa using hk)
      rw [← hsplit] at this
      exact this
    · have hc2 : p c = false := by simpa using hc
      simp [List.takeWhile_cons, hc2] at hne

theorem run_digit_eq (ci : Bool) : Re.digit.run ci = stepChar isDigit := by
  funext x k
  rw [Re.run]

theorem run_space_eq (ci : Bool) : Re.space.run ci = stepChar isSpace := by
  funext x k
  rw [Re.run]

theorem run_cls_eq (ci : Bool) (neg : Bool) (items : List CItem) :
    (Re.cls neg items).run ci = stepChar fun c => (items.any (CItem.test ci c)) != neg := by
  funext x k
  rw [Re.run]

theorem groups_digit : Re.digit.groups = [] := rfl

theorem groups_cls (neg : Bool) (items : List CItem) : (Re.cls neg items).groups = [] := rfl

theorem OSim_some_left {a : MState} {o : Option MState} (h : OSim (some a) o) :
    ∃ b, o = some b ∧ Sim a b := by
  cases o with
  | none => exact absurd h (by simp [OSim])
  | some b => exact ⟨b, rfl, h⟩

theorem OSim_none_left {o : Option MState} (h : OSim none o) : o = none := by
  cases o with
  | none => rfl
  | some b => exact absurd h (by simp [OSim])

theorem stepChar_sim (p : Char → Bool) (x y : MState) (k k2 : Cont) (hxy : Sim x y)
    (hk : KSim k k2) : OSim (stepChar p x k) (stepChar p y k2) := by
  obtain ⟨px, rx, cx⟩ := x
  obtain ⟨py, ry, cy⟩ := y
  obtain ⟨h1, h2⟩ := hxy
  simp only at h1 h2
  subst h1 h2
  cases rx with
  | nil => simp [stepChar, OSim]
  | cons c t =>
    simp only [stepChar]
    split
    · exact hk _ _ ⟨rfl, rfl⟩
    · simp [OSim]

theorem clearCaps_sim (gs : List Nat) (x y : MState) (h : Sim x y) :
    Sim (clearCaps gs x) (clearCaps gs y) := by
  obtain ⟨h1, h2⟩ := h
  exact ⟨h1, by simp [clearCaps, h2]⟩

theorem orElse_sim (o o2 p p2 : Option MState) :
    OSim o o2 → OSim p p2 →
    OSim (match o with | some z => some z | none => p)
      (match o2 with | some z => some z | none => p2) := by
  intro h hp
  cases o with
  | none =>
    rw [OSim_none_left h]
    exact hp
  | some a =>
    obtain ⟨b, hb, hab⟩ := OSim_some_left h
    rw [hb]
    exact hab

theorem repOpt_sim (m m2 : MState → Cont → Option MState) (gs : List Nat) (greedy : Bool)
    (hm : ∀ x y k k2, Sim x y → KSim k k2 → OSim (m x k) (m2 y k2)) :
    ∀ (fuel : Nat) (max : Option Nat) (x y : MState) (k k2 : Cont), Sim x y → KSim k k2 →
      OSim (repOpt m gs greedy fuel max x k) (repOpt m2 gs greedy fuel max y k2) := by
  intro fuel
  induction fuel with
  | zero =>
    intro max x y k k2 hxy hk
    simpa [repOpt] using hk x y hxy
  | succ n ih =>
    intro max x y k k2 hxy hk
    simp only [repOpt]
    split
    · exact hk x y hxy
    · have hd : KSim
          (fun a => if a.rest.length < x.rest.length then
            repOpt m gs greedy n (max.map Nat.pred) a k else none)
          (fun b => if b.rest.length < y.rest.length then
            repOpt m2 gs greedy n (max.map Nat.pred) b k2 else none) := by
        intro a b hab
        simp only
        rw [hab.1, hxy.1]
        split
        · exact ih _ a b k k2 hab hk
        · simp [OSim]
      have hstep := hm _ _ _ _ (clearCaps_sim gs x y hxy) hd
      cases greedy
      · simp only [Bool.false_eq_true, if_false]
        exact orElse_sim _ _ _ _ (hk x y hxy) hstep
      · simp only [if_true]
        exact orElse_sim _ _ _ _ hstep (hk x y hxy)

theorem repMin_sim (m m2 : MState → Cont → Option MState) (gs : List Nat) (greedy : Bool)
    (hm : ∀ x y k k2, Sim x y → KSim k k2 → OSim (m x k) (m2 y k2)) :
    ∀ (min : Nat) (max : Option Nat) (x y : MState) (k k2 : Cont), Sim x y → KSim k k2 →
      OSim (repMin m gs greedy min max x k) (repMin m2 gs greedy min max y k2) := by
  intro min
  induction min with
  | zero =>
    intro max x y k k2 hxy hk
    simp only [repMin]
    rw [hxy.1]
    exact repOpt_sim m m2 gs greedy hm _ _ x y k k2 hxy hk
  | succ n ih =>
    intro max x y k k2 hxy hk
    simp only [repMin]
    split
    · exact hk x y hxy
    · apply hm _ _ _ _ (clearCaps_sim gs x y hxy)
      intro a b hab
      exact ih _ a b k k2 hab hk

/-- A regex that does not look behind gives the same result, up to the text
already passed, in states that agree. -/
theorem run_sim (ci : Bool) (r : Re) (hr : r.noBehind = true) :
    ∀ (x y : MState) (k k2 : Cont), Sim x y → KSim k k2 → OSim (r.run ci x k) (r.run ci y k2) := by
  induction r with
  | empty => intro x y k k2 hxy hk; simpa [Re.run] using hk x y hxy
  | lit p => intro x y k k2 hxy hk; simpa [Re.run] using stepChar_sim _ x y k k2 hxy hk
  | any => intro x y k k2 hxy hk; simpa [Re.run] using stepChar_sim _ x y k k2 hxy hk
  | cls neg items => intro x y k k2 hxy hk; simpa [Re.run] using stepChar_sim _ x y k k2 hxy hk
  | digit => intro x y k k2 hxy hk; simpa [Re.run] using stepChar_sim _ x y k k2 hxy hk
  | space => intro x y k k2 hxy hk; simpa [Re.run] using stepChar_sim _ x y k k2 hxy hk
  | wordB => simp [Re.noBehind] at hr
  | bol => simp [Re.noBehind] at hr
  | eol =>
    intro x y k k2 hxy hk
    simp only [Re.run]
    rw [hxy.1]
    split
    · exact hk x y hxy
    · simp [OSim]
  | seq a b iha ihb =>
    simp only [Re.noBehind, Bool.and_eq_true] at hr
    intro x y k k2 hxy hk
    simp only [Re.run]
    apply iha hr.1 x y _ _ hxy
    intro u v huv
    exact ihb hr.2 u v k k2 huv hk
  | alt a b iha ihb =>
    simp only [Re.noBehind, Bool.and_eq_true] at hr
    intro x y k k2 hxy hk
    simp only [Re.run]
    exact orElse_sim _ _ _ _ (iha hr.1 x y k k2 hxy hk) (ihb hr.2 x y k k2 hxy hk)
  | rep min max greedy r ih =>
    simp only [Re.noBehind] at hr
    intro x y k k2 hxy hk
    simp only [Re.run]
    exact repMin_sim _ _ _ _ (ih hr) min max x y k k2 hxy hk
  | group i r ih =>
    simp only [Re.noBehind] at hr
    intro x y k k2 hxy hk
    simp only [Re.run]
    apply ih hr x y _ _ hxy
    intro u v huv
    apply hk
    exact ⟨huv.1, by simp [huv.1, huv.2, hxy.1]⟩
  | look r ih =>
    simp only [Re.noBehind] at hr
    intro x y k k2 hxy hk
    simp only [Re.run]
    have h := ih hr x y some some hxy (fun u v huv => huv)
    cases hx : r.run ci x some with
    | none =>
      rw [hx] at h
      rw [OSim_none_left h]
      simp [OSim]
    | some u =>
      rw [hx] at h
      obtain ⟨v, hv, huv⟩ := OSim_some_left h
      rw [hv]
      apply hk
      exact ⟨hxy.1, huv.2⟩

/-- A regex that does not look behind matches the same text whatever came before. -/
theorem matchAt_view (ci : Bool) (r : Re) (hr : r.noBehind = true) (pre pre2 s : List Char) :
    (r.matchAt ci pre s).map Match.view = (r.matchAt ci pre2 s).map Match.view := by
  have h := run_sim ci r hr ⟨pre, s, []⟩ ⟨pre2, s, []⟩ some some ⟨rfl, rfl⟩ (fun u v huv => huv)
  unfold Re.matchAt
  cases hx : r.run ci ⟨pre, s, []⟩ some with
  | none =>
    rw [hx] at h
    rw [OSim_none_left h]
  | some u =>
    rw [hx] at h
    obtain ⟨v, hv, huv⟩ := OSim_some_left h
    rw [hv]
    simp [Match.view, huv.1, huv.2]

theorem chEq_exact (p c : Char) : chEq false p c = decide (p = c) := by
  simp only [chEq, Bool.false_eq_true, if_false]
  by_cases h : p = c
  · simp [h]
  · have : p.toNat ≠ c.toNat := by
      intro hn
      apply h
      rw [← Char.ofNat_toNat p, ← Char.ofNat_toNat c, hn]
    simp [h, this]

theorem cls_notStar : (fun c => ([CItem.ch '*'].any (CItem.test false c)) != true) = notStar := by
  funext c
  simp only [List.any_cons, List.any_nil, Bool.or_false, CItem.test, chEq_exact, notStar]
  by_cases h : c = '*'
  · simp [h]
  · have h2 : ¬ '*' = c := fun e => h e.symm
    simp [h, h2]

/-- The closing `\*\*` of a bold token. -/
theorem run_starStar (x : MState) (k : Cont) :
    (Re.seq (Re.lit '*') (Re.lit '*')).run false x k =
      match x.rest with
      | d1 :: d2 :: rest =>
        if d1 = '*' ∧ d2 = '*' then k ⟨d2 :: d1 :: x.pre, rest, x.caps⟩ else none
      | _ => none := by
  obtain ⟨pre, s, caps⟩ := x
  rw [run_seq, run_lit]
  cases s with
  | nil => rfl
  | cons d1 t =>
    cases t with
    | nil =>
      by_cases h : '*' = d1 <;> simp [stepChar_cons, run_lit, stepChar_nil, chEq_exact, h]
    | cons d2 rest =>
      by_cases h1 : '*' = d1
      · by_cases h2 : '*' = d2
        · simp [stepChar_cons, run_lit, chEq_exact, ← h1, ← h2]
        · have h2b : ¬ d2 = '*' := fun e => h2 e.symm
          simp [stepChar_cons, run_lit, chEq_exact, ← h1, h2, h2b]
      · have h1b : ¬ d1 = '*' := fun e => h1 e.symm
        simp [stepChar_cons, chEq_exact, h1, h1b]

/-- The inner text and closing marker of a bold token, `[^*]+\*\*`, with the
state passed through `f` (the recording of a capture) before the marker. -/
theorem run_boldInner (pre t : List Char) (caps : List (Nat × Str)) (f : MState → MState)
    (hf : ∀ y, (f y).rest = y.rest) (k : Cont) :
    (Re.plus (Re.cls true [.ch '*'])).run false ⟨pre, t, caps⟩
        (fun y => (Re.seq (Re.lit '*') (Re.lit '*')).run false (f y) k) =
      if t.takeWhile notStar = [] then none
      else (Re.seq (Re.lit '*') (Re.lit '*')).run false
        (f ⟨(t.takeWhile notStar).reverse ++ pre, t.dropWhile notStar, caps⟩) k := by
  have h := run_plus_det false notStar (Re.cls true [.ch '*'])
    (by rw [run_cls_eq, cls_notStar]) rfl pre t caps
    (fun y => (Re.seq (Re.lit '*') (Re.lit '*')).run false (f y) k)
    (fun a b hab _ hb => by
      obtain ⟨b0, bt, rfl⟩ := List.exists_cons_of_ne_nil hb
      have hb0 : notStar b0 = true := by
        have hmem : b0 ∈ t.takeWhile notStar := by rw [hab]; simp
        exact List.mem_takeWhile_imp hmem
      have hne : ¬ b0 = '*' := by simpa [notStar] using hb0
      show (Re.seq (Re.lit '*') (Re.lit '*')).run false (f _) k = none
      rw [run_starStar]
      simp only [hf, List.cons_append]
      cases bt ++ t.dropWhile notStar <;> simp [hne])
  exact h

theorem boldAt_some (s : Str) (t : Str × Str) (h : boldAt s = some t) :
    s = '*' :: '*' :: (t.1 ++ '*' :: '*' :: t.2) ∧ t.1 ≠ [] ∧ ∀ c ∈ t.1, notStar c = true := by
  cases s with
  | nil => simp [boldAt] at h
  | cons c1 s1 =>
    cases s1 with
    | nil => simp [boldAt] at h
    | cons c2 u =>
      simp only [boldAt] at h
      split_ifs at h with hc
      obtain ⟨h1, h2, h3⟩ := hc
      subst h1 h2
      cases hd : u.dropWhile notStar with
      | nil => rw [hd] at h; simp at h
      | cons d1 r1 =>
        cases r1 with
        | nil => rw [hd] at h; simp at h
        | cons d2 rest =>
          rw [hd] at h
          simp only at h
          split_ifs at h with hd12
          obtain ⟨e1, e2⟩ := hd12
          subst e1 e2
          have ht : t = (u.takeWhile notStar, rest) := (Option.some.inj h).symm
          subst ht
          refine ⟨?_, h3, fun c hc => List.mem_takeWhile_imp hc⟩
          simp only
          rw [← hd, List.takeWhile_append_dropWhile]

/-- The regex `\*\*[^*]+\*\*` matches exactly a bold token. -/
theorem boldRe_run (pre s : List Char) (caps : List (Nat × Str)) (k : Cont) :
    boldRe.run false ⟨pre, s, caps⟩ k =
      match boldAt s with
      | some t => k ⟨'*' :: '*' :: (t.1.reverse ++ '*' :: '*' :: pre), t.2, caps⟩
      | none => none := by
  simp only [boldRe, Re.seqs]
  cases s with
  | nil => simp [run_seq, run_lit, stepChar_nil, boldAt]
  | cons c1 s1 =>
    cases s1 with
    | nil =>
      by_cases h1 : '*' = c1 <;>
        simp [run_seq, run_lit, stepChar_cons, stepChar_nil, chEq_exact, boldAt, h1]
    | cons c2 u =>
      by_cases h1 : c1 = '*'
      · by_cases h2 : c2 = '*'
        · subst h1 h2
          rw [run_seq, run_lit, stepChar_cons, chEq_self]
          simp only [if_true]
          rw [run_seq, run_lit, stepChar_cons, chEq_self]
          simp only [if_true]
          rw [run_seq]
          have h := run_boldInner ('*' :: '*' :: pre) u caps id (fun _ => rfl) k
          simp only [id] at h
          rw [h]
          simp only [boldAt, true_and]
          by_cases htw : u.takeWhile notStar = []
          · simp [htw]
          · simp only [htw, if_false, ne_eq, not_false_eq_true, if_true]
            rw [run_starStar]
            simp only
            cases hd : u.dropWhile notStar with
            | nil => simp
            | cons d1 r1 =>
              cases r1 with
              | nil => simp
              | cons d2 rest =>
                by_cases hdd : d1 = '*' ∧ d2 = '*'
                · obtain ⟨e1, e2⟩ := hdd
                  subst e1 e2
                  simp
                · simp [hdd]
        · have h2b : ¬ '*' = c2 := fun e => h2 e.symm
          subst h1
          simp [run_seq, run_lit, stepChar_cons, chEq_exact, boldAt, h2, h2b]
      · have h1b : ¬ '*' = c1 := fun e => h1 e.symm
        simp [run_seq, run_lit, stepChar_cons, chEq_exact, boldAt, h1, h1b]

/-- The regex `\*\*([^*]+)\*\*` matches exactly a bold token and captures its inner text. -/
theorem boldNameRe_run (pre s : List Char) (caps : List (Nat × Str)) (k : Cont) :
    boldNameRe.run false ⟨pre, s, caps⟩ k =
      match boldAt s with
      | some t => k ⟨'*' :: '*' :: (t.1.reverse ++ '*' :: '*' :: pre), t.2, (1, t.1) :: caps⟩
      | none => none := by
  simp only [boldNameRe, Re.seqs]
  cases s with
  | nil => simp [run_seq, run_lit, stepChar_nil, boldAt]
  | cons c1 s1 =>
    cases s1 with
    | nil =>
      by_cases h1 : '*' = c1 <;>
        simp [run_seq, run_lit, stepChar_cons, stepChar_nil, chEq_exact, boldAt, h1]
    | cons c2 u =>
      by_cases h1 : c1 = '*'
      · by_cases h2 : c2 = '*'
        · subst h1 h2
          rw [run_seq, run_lit, stepChar_cons, chEq_self]
          simp only [if_true]
          rw [run_seq, run_lit, stepChar_cons, chEq_self]
          simp only [if_true]
          rw [run_seq, run_group]
          have h := run_boldInner ('*' :: '*' :: pre) u caps
            (fun y => { y with caps := (1, u.take (u.length - y.rest.length)) :: y.caps })
            (fun _ => rfl) k
          simp only at h
          rw [h]
          simp only [boldAt, true_and]
          by_cases htw : u.takeWhile notStar = []
          · simp [htw]
          · simp only [htw, if_false, ne_eq, not_false_eq_true, if_true]
            rw [run_starStar]
            simp only
            have htake : u.take (u.length - (u.dropWhile notStar).length) = u.takeWhile notStar := by
              have := take_length_sub (u.takeWhile notStar) (u.dropWhile notStar)
              rwa [List.takeWhile_append_dropWhile] at this
            rw [htake]
            cases hd : u.dropWhile notStar with
            | nil => simp
            | cons d1 r1 =>
              cases r1 with
              | nil => simp
              | cons d2 rest =>
                by_cases hdd : d1 = '*' ∧ d2 = '*'
                · obtain ⟨e1, e2⟩ := hdd
                  subst e1 e2
                  simp
                · simp [hdd]
        · have h2b : ¬ '*' = c2 := fun e => h2 e.symm
          subst h1
          simp [run_seq, run_lit, stepChar_cons, chEq_exact, boldAt, h2, h2b]
      · have h1b : ¬ '*' = c1 := fun e => h1 e.symm
        simp [run_seq, run_lit, stepChar_cons, chEq_exact, boldAt, h1, h1b]

theorem boldRe_matchAt_text (pre s : List Char) :
    (boldRe.matchAt false pre s).map Match.text = (boldAt s).map fun t => boldText t.1 := by
  unfold Re.matchAt
  rw [boldRe_run]
  cases h : boldAt s with
  | none => rfl
  | some t =>
    obtain ⟨hs, _, _⟩ := boldAt_some s t h
    simp only [Option.map_some']
    congr 1
    have := take_length_sub ('*' :: '*' :: (t.1 ++ ['*', '*'])) t.2
    simp only [List.cons_append, List.append_assoc] at this
    rw [hs]
    simpa [boldText] using this

theorem boldNameRe_matchAt_text (pre s : List Char) :
    (boldNameRe.matchAt false pre s).map Match.text = (boldAt s).map fun t => boldText t.1 := by
  unfold Re.matchAt
  rw [boldNameRe_run]
  cases h : boldAt s with
  | none => rfl
  | some t =>
    obtain ⟨hs, _, _⟩ := boldAt_some s t h
    simp only [Option.map_some']
    congr 1
    have := take_length_sub ('*' :: '*' :: (t.1 ++ ['*', '*'])) t.2
    simp only [List.cons_append, List.append_assoc] at this
    rw [hs]
    simpa [boldText] using this

theorem splitFrom_skip (ci : Bool) (r : Re) (a b seg pre : List Char) :
    r.splitFrom ci a.length seg pre (a ++ b) = r.splitFrom ci 0 seg (a.reverse ++ pre) b := by
  induction a generalizing pre with
  | nil => rfl
  | cons c t ih =>
    simp only [List.length_cons, List.cons_append, List.reverse_cons, List.append_assoc,
      List.singleton_append]
    rw [Re.splitFrom]
    exact ih (c :: pre)

theorem allFrom_skip (ci : Bool) (r : Re) (a b pre : List Char) :
    r.allFrom ci a.length pre (a ++ b) = r.allFrom ci 0 (a.reverse ++ pre) b := by
  induction a generalizing pre with
  | nil => rfl
  | cons c t ih =>
    simp only [List.length_cons, List.cons_append, List.reverse_cons, List.append_assoc,
      List.singleton_append]
    rw [Re.allFrom]
    exact ih (c :: pre)

theorem matchAt_text_pre (ci : Bool) (r : Re) (hr : r.noBehind = true) (pre pre2 s : List Char) :
    (r.matchAt ci pre s).map Match.text = (r.matchAt ci pre2 s).map Match.text := by
  have h := congrArg (Option.map Prod.fst) (matchAt_view ci r hr pre pre2 s)
  simpa [Option.map_map, Function.comp_def, Match.view] using h

/-- Splitting with a regex that does not look behind ignores the text already read. -/
theorem splitFrom_pre (ci : Bool) (r : Re) (hr : r.noBehind = true) (s : List Char) :
    ∀ (n : Nat) (seg pre pre2 : List Char),
      r.splitFrom ci n seg pre s = r.splitFrom ci n seg pre2 s := by
  induction s with
  | nil => intro n seg pre pre2; simp [Re.splitFrom]
  | cons c t ih =>
    intro n seg pre pre2
    cases n with
    | succ k =>
      rw [Re.splitFrom, Re.splitFrom]
      exact ih k seg _ _
    | zero =>
      have hv := matchAt_text_pre ci r hr pre pre2 (c :: t)
      rw [Re.splitFrom, Re.splitFrom]
      cases h1 : r.matchAt ci pre (c :: t) with
      | none =>
        rw [h1] at hv
        have h2 : r.matchAt ci pre2 (c :: t) = none := by
          cases h : r.matchAt ci pre2 (c :: t) with
          | none => rfl
          | some m => rw [h] at hv; simp at hv
        rw [h2]
        exact ih 0 _ _ _
      | some m =>
        rw [h1] at hv
        cases h2 : r.matchAt ci pre2 (c :: t) with
        | none => rw [h2] at hv; simp at hv
        | some m2 =>
          rw [h2] at hv
          have ht : m.text = m2.text := by simpa using hv
          simp only [ht]
          rw [ih 0 [c] (c :: pre) (c :: pre2), ih (m2.text.length - 1) [] (c :: pre) (c :: pre2)]

/-- The matches of a regex that does not look behind ignore the text already read. -/
theorem allFrom_pre (ci : Bool) (r : Re) (hr : r.noBehind = true) (s : List Char) :
    ∀ (n : Nat) (pre pre2 : List Char),
      (r.allFrom ci n pre s).map Match.view = (r.allFrom ci n pre2 s).map Match.view := by
  induction s with
  | nil =>
    intro n pre pre2
    cases n with
    | succ k => simp [Re.allFrom]
    | zero =>
      have hv := matchAt_view ci r hr pre pre2 []
      rw [Re.allFrom, Re.allFrom]
      cases h1 : r.matchAt ci pre [] with
      | none =>
        rw [h1] at hv
        cases h2 : r.matchAt ci pre2 [] with
        | none => rfl
        | some m => rw [h2] at hv; simp at hv
      | some m =>
        rw [h1] at hv
        cases h2 : r.matchAt ci pre2 [] with
        | none => rw [h2] at hv; simp at hv
        | some m2 =>
          rw [h2] at hv
          simpa using hv
  | cons c t ih =>
    intro n pre pre2
    cases n with
    | succ k =>
      rw [Re.allFrom, Re.allFrom]
      exact ih k _ _
    | zero =>
      have hv := matchAt_view ci r hr pre pre2 (c :: t)
      rw [Re.allFrom, Re.allFrom]
      cases h1 : r.matchAt ci pre (c :: t) with
      | none =>
        rw [h1] at hv
        have h2 : r.matchAt ci pre2 (c :: t) = none := by
          cases h : r.matchAt ci pre2 (c :: t) with
          | none => rfl
          | some m => rw [h] at hv; simp at hv
        rw [h2]
        exact ih 0 _ _
      | some m =>
        rw [h1] at hv
        cases h2 : r.matchAt ci pre2 (c :: t) with
        | none => rw [h2] at hv; simp at hv
        | some m2 =>
          rw [h2] at hv
          have hview : m.view = m2.view := by simpa using hv
          have ht : m.text = m2.text := congrArg Prod.fst hview
          simp only [List.map_cons, hview, ht]
          rw [ih (m2.text.length - 1) (c :: pre) (c :: pre2)]

theorem untilBold_length (s : Str) : (untilBold s).2.length ≤ s.length := by
  induction s with
  | nil => simp [untilBold]
  | cons c t ih =>
    simp only [untilBold]
    split
    · simp
    · simp only [List.length_cons]
      omega

theorem boldAt_length (s : Str) (t : Str × Str) (h : boldAt s = some t) :
    t.2.length < s.length := by
  obtain ⟨hs, _, _⟩ := boldAt_some s t h
  have := congrArg List.length hs
  simp only [List.length_cons, List.length_append] at this
  omega

theorem boldRe_matchAt_none (pre s : List Char) (h : boldAt s = none) :
    boldRe.matchAt false pre s = none := by
  have := boldRe_matchAt_text pre s
  rw [h] at this
  cases hm : boldRe.matchAt false pre s with
  | none => rfl
  | some m => rw [hm] at this; simp at this

theorem boldNameRe_matchAt_none (pre s : List Char) (h : boldAt s = none) :
    boldNameRe.matchAt false pre s = none := by
  have := boldNameRe_matchAt_text pre s
  rw [h] at this
  cases hm : boldNameRe.matchAt false pre s with
  | none => rfl
  | some m => rw [hm] at this; simp at this

theorem boldRe_noBehind : boldRe.noBehind = true := by decide

theorem boldNameRe_noBehind : boldNameRe.noBehind = true := by decide

/-- Splitting at bold tokens: the piece up to the next token, then the split
of what follows that token. -/
theorem boldRe_splitFrom (s : Str) :
    ∀ (seg pre : List Char),
      boldRe.splitFrom false 0 seg pre s =
        (seg.reverse ++ (untilBold s).1) ::
          (match boldAt (untilBold s).2 with
            | some t => boldRe.splitFrom false 0 [] [] t.2
            | none => []) := by
  induction s with
  | nil => intro seg pre; simp [Re.splitFrom, untilBold, boldAt]
  | cons c t ih =>
    intro seg pre
    cases hb : boldAt (c :: t) with
    | none =>
      rw [Re.splitFrom, boldRe_matchAt_none pre (c :: t) hb]
      simp only [untilBold, hb, Option.isSome_none, Bool.false_eq_true, if_false]
      rw [ih]
      simp
    | some tk =>
      obtain ⟨hs, _, _⟩ := boldAt_some (c :: t) tk hb
      have htext := boldRe_matchAt_text pre (c :: t)
      rw [hb] at htext
      cases hm : boldRe.matchAt false pre (c :: t) with
      | none => rw [hm] at htext; simp at htext
      | some m =>
        rw [hm] at htext
        have hmt : m.text = boldText tk.1 := by simpa using htext
        have hc : c = '*' := (List.cons.inj hs).1
        have htl : t = ('*' :: (tk.1 ++ ['*', '*'])) ++ tk.2 := by
          have := (List.cons.inj hs).2
          simpa using this
        rw [Re.splitFrom, hm]
        simp only [hmt, boldText, List.length_cons, List.length_append, List.length_nil,
          Nat.add_one_ne_zero, if_false]
        simp only [untilBold, hb, Option.isSome_some, if_true, List.append_nil]
        have hskip := splitFrom_skip false boldRe ('*' :: (tk.1 ++ ['*', '*'])) tk.2 [] (c :: pre)
        simp only [List.length_cons, List.length_append, List.length_nil] at hskip
        have hlen : tk.1.length + (0 + 1 + 1) + 1 + 1 - 1 = tk.1.length + (0 + 1 + 1) + 1 := by
          omega
        rw [hlen]
        conv_lhs => rw [htl]
        rw [hskip, splitFrom_pre false boldRe boldRe_noBehind tk.2 0 [] _ []]

/-- The blocks after the bold tokens, as the splitter finds them. -/
theorem boldRe_split_blocks (fuel : Nat) :
    ∀ s : Str, s.length ≤ fuel →
      (match boldAt s with
        | some t => boldRe.splitFrom false 0 [] [] t.2
        | none => []) = (boldTokens fuel s).map Prod.snd := by
  induction fuel with
  | zero =>
    intro s hs
    have : s = [] := List.length_eq_zero.mp (Nat.le_zero.mp hs)
    subst this
    simp [boldAt, boldTokens]
  | succ n ih =>
    intro s hs
    cases hb : boldAt s with
    | none => simp [boldTokens, hb]
    | some t =>
      have hlt := boldAt_length s t hb
      have hle := untilBold_length t.2
      simp only [boldTokens, hb, List.map_cons]
      rw [boldRe_splitFrom, ih (untilBold t.2).2 (by omega)]
      simp

/-- The matches of the name regex: the next bold token, then the matches in
what follows it. -/
theorem boldNameRe_allFrom (s : Str) :
    ∀ pre : List Char,
      (boldNameRe.allFrom false 0 pre s).map Match.text =
        match boldAt (untilBold s).2 with
        | some t => boldText t.1 :: (boldNameRe.allFrom false 0 [] t.2).map Match.text
        | none => [] := by
  induction s with
  | nil =>
    intro pre
    rw [Re.allFrom, boldNameRe_matchAt_none pre [] (by simp [boldAt])]
    simp [untilBold, boldAt]
  | cons c t ih =>
    intro pre
    cases hb : boldAt (c :: t) with
    | none =>
      rw [Re.allFrom, boldNameRe_matchAt_none pre (c :: t) hb]
      simp only [untilBold, hb, Option.isSome_none, Bool.false_eq_true, if_false]
      exact ih (c :: pre)
    | some tk =>
      obtain ⟨hs, _, _⟩ := boldAt_some (c :: t) tk hb
      have htext := boldNameRe_matchAt_text pre (c :: t)
      rw [hb] at htext
      cases hm : boldNameRe.matchAt false pre (c :: t) with
      | none => rw [hm] at htext; simp at htext
      | some m =>
        rw [hm] at htext
        have hmt : m.text = boldText tk.1 := by simpa using htext
        have htl : t = ('*' :: (tk.1 ++ ['*', '*'])) ++ tk.2 := by
          have := (List.cons.inj hs).2
          simpa using this
        rw [Re.allFrom, hm]
        simp only [untilBold, hb, Option.isSome_some, if_true, List.map_cons, hmt]
        congr 1
        have hskip := allFrom_skip false boldNameRe ('*' :: (tk.1 ++ ['*', '*'])) tk.2 (c :: pre)
        simp only [List.length_cons, List.length_append, List.length_nil] at hskip
        have hlen : (boldText tk.1).length - 1 = tk.1.length + (0 + 1 + 1) + 1 := by
          simp [boldText]
        rw [hlen]
        conv_lhs => rw [htl]
        rw [hskip]
        have hpre := allFrom_pre false boldNameRe boldNameRe_noBehind tk.2 0
          (('*' :: (tk.1 ++ ['*', '*'])).reverse ++ c :: pre) []
        have := congrArg (List.map Prod.fst) hpre
        simpa [List.map_map, Function.comp_def, Match.view] using this

/-- The texts of the bold tokens, as the name regex finds them. -/
theorem boldNameRe_names (fuel : Nat) :
    ∀ s : Str, s.length ≤ fuel →
      (match boldAt s with
        | some t => boldText t.1 :: (boldNameRe.allFrom false 0 [] t.2).map Match.text
        | none => []) = (boldTokens fuel s).map fun tok => boldText tok.1 := by
  induction fuel with
  | zero =>
    intro s hs
    have : s = [] := List.length_eq_zero.mp (Nat.le_zero.mp hs)
    subst this
    simp [boldAt, boldTokens]
  | succ n ih =>
    intro s hs
    cases hb : boldAt s with
    | none => simp [boldTokens, hb]
    | some t =>
      have hlt := boldAt_length s t hb
      have hle := untilBold_length t.2
      simp only [boldTokens, hb, List.map_cons]
      rw [boldNameRe_allFrom, ih (untilBold t.2).2 (by omega)]

theorem boldTokens_notStar (fuel : Nat) :
    ∀ s : Str, ∀ tok ∈ boldTokens fuel s, ∀ c ∈ tok.1, notStar c = true := by
  induction fuel with
  | zero => intro s tok h; simp [boldTokens] at h
  | succ n ih =>
    intro s tok h
    cases hb : boldAt s with
    | none => simp [boldTokens, hb] at h
    | some t =>
      simp only [boldTokens, hb, List.mem_cons] at h
      rcases h with h | h
      · rw [h]
        exact (boldAt_some s t hb).2.2
      · exact ih _ tok h

theorem starsRe_matchAt_none (pre : List Char) (c : Char) (t : List Char)
    (h : notStar c = true) : starsRe.matchAt false pre (c :: t) = none := by
  have hne : ¬ '*' = c := by
    intro e
    rw [← e] at h
    simp [notStar] at h
  simp [Re.matchAt, starsRe, run_seq, run_lit, stepChar_cons, chEq_exact, hne]

theorem starsRe_matchAt_stars (pre t : List Char) :
    (starsRe.matchAt false pre ('*' :: '*' :: t)).map Match.text = some ['*', '*'] := by
  simp [Re.matchAt, starsRe, run_seq, run_lit, stepChar_cons, chEq_self]
  have h : t.length + 1 + 1 - t.length = 2 := by omega
  rw [h]
  rfl

/-- Splitting the inner text and closing marker of a bold token at `**`. -/
theorem starsRe_split_inner (inner : Str) (h : ∀ c ∈ inner, notStar c = true) :
    ∀ seg pre : List Char,
      starsRe.splitFrom false 0 seg pre (inner ++ ['*', '*']) = [seg.reverse ++ inner, []] := by
  induction inner with
  | nil =>
    intro seg pre
    have hm := starsRe_matchAt_stars pre []
    cases hc : starsRe.matchAt false pre ['*', '*'] with
    | none => rw [hc] at hm; simp at hm
    | some m =>
      rw [hc] at hm
      have hmt : m.text = ['*', '*'] := by simpa using hm
      simp only [List.nil_append]
      rw [Re.splitFrom, hc]
      simp [hmt, Re.splitFrom]
  | cons c t ih =>
    intro seg pre
    simp only [List.cons_append]
    rw [Re.splitFrom, starsRe_matchAt_none pre c _ (h c (by simp))]
    simp only
    rw [ih (fun d hd => h d (by simp [hd]))]
    simp

/-- Removing the `**` markers from a bold token leaves its inner text. -/
theorem starsRe_removeAll_bold (inner : Str) (h : ∀ c ∈ inner, notStar c = true) :
    starsRe.removeAll false (boldText inner) = inner := by
  unfold Re.removeAll Re.split boldText
  simp only
  have hm := starsRe_matchAt_stars [] (inner ++ ['*', '*'])
  cases hc : starsRe.matchAt false [] ('*' :: '*' :: (inner ++ ['*', '*'])) with
  | none => rw [hc] at hm; simp at hm
  | some m =>
    rw [hc] at hm
    have hmt : m.text = ['*', '*'] := by simpa using hm
    rw [Re.splitFrom, hc]
    simp only [hmt, List.length_cons, List.length_nil, Nat.add_one_ne_zero, if_false,
      List.reverse_nil]
    have hskip := splitFrom_skip false starsRe ['*'] (inner ++ ['*', '*']) [] ['*']
    simp only [List.length_cons, List.length_nil, List.singleton_append] at hskip
    have h1 : 0 + 1 + 1 - 1 = 0 + 1 := rfl
    rw [h1, hskip, starsRe_split_inner inner h]
    simp

theorem eventName_token (toks : List (Str × Str)) (k : Nat) (tok : Str × Str)
    (hk : toks[k]? = some tok) (hstar : ∀ c ∈ tok.1, notStar c = true) :
    eventName (toks.map fun t => boldText t.1) (k + 1) = tokenName k tok.1 := by
  have h : (toks.map fun t => boldText t.1).get? (k + 1 - 1) = some (boldText tok.1) := by
    simp [List.get?_eq_getElem?, hk]
  unfold eventName tokenName
  simp only [h, starsRe_removeAll_bold tok.1 hstar]

theorem sectionEvents_tokens (toks : List (Str × Str))
    (hstar : ∀ tok ∈ toks, ∀ c ∈ tok.1, notStar c = true) :
    ((toks.map Prod.snd).enum.map fun (p : Nat × Str) =>
        mkEvent (eventName (toks.map fun t => boldText t.1) (p.1 + 1)) (trim p.2)) =
      toks.enum.map fun p => mkEvent (tokenName p.1 p.2.1) (trim p.2.2) := by
  rw [List.enum_map, List.map_map]
  apply List.map_congr_left
  rintro ⟨k, tok⟩ hmem
  have hk : toks[k]? = some tok := List.mk_mem_enum_iff_getElem?.mp hmem
  have hm : tok ∈ toks := List.getElem?_mem hk
  simp only [Function.comp, Prod.map, id]
  rw [eventName_token toks k tok hk (hstar tok hm)]

theorem headingRe_run_two (pre T : List Char) (caps : List (Nat × Str)) :
    headingRe.run false ⟨pre, '#' :: '#' :: ' ' :: T, caps⟩ some =
      some ⟨(T.takeWhile isSpace).reverse ++ ' ' :: '#' :: '#' :: pre, T.dropWhile isSpace, caps⟩ := by
  have hplus := run_plus_ok false isSpace Re.space (run_space_eq false) rfl
    ('#' :: '#' :: pre) (' ' :: T) caps some
    ⟨(T.takeWhile isSpace).reverse ++ ' ' :: '#' :: '#' :: pre, T.dropWhile isSpace, caps⟩
    (by simp [List.takeWhile_cons, isSpace])
    (by simp [List.takeWhile_cons, List.dropWhile_cons, isSpace])
  unfold headingRe Re.between
  rw [run_seq, run_rep]
  simp only [repMin, repOpt, Re.groups, clearCaps_nil, run_lit, stepChar_cons, chEq_self,
    Option.map_some', Nat.pred, reduceCtorEq, if_false, if_true, Option.some.injEq,
    OfNat.ofNat_ne_zero, List.length_cons]
  have hne : chEq false '#' ' ' = false := by decide
  simp [hne, hplus]

theorem headingRe_run_three (pre T : List Char) (caps : List (Nat × Str)) :
    headingRe.run false ⟨pre, '#' :: '#' :: '#' :: ' ' :: T, caps⟩ some =
      some ⟨(T.takeWhile isSpace).reverse ++ ' ' :: '#' :: '#' :: '#' :: pre,
        T.dropWhile isSpace, caps⟩ := by
  have hplus := run_plus_ok false isSpace Re.space (run_space_eq false) rfl
    ('#' :: '#' :: '#' :: pre) (' ' :: T) caps some
    ⟨(T.takeWhile isSpace).reverse ++ ' ' :: '#' :: '#' :: '#' :: pre, T.dropWhile isSpace, caps⟩
    (by simp [List.takeWhile_cons, isSpace])
    (by simp [List.takeWhile_cons, List.dropWhile_cons, isSpace])
  unfold headingRe Re.between
  rw [run_seq, run_rep]
  simp only [repMin, repOpt, Re.groups, clearCaps_nil, run_lit, stepChar_cons, chEq_self,
    Option.map_some', Nat.pred, reduceCtorEq, if_false, if_true, Option.some.injEq,
    OfNat.ofNat_ne_zero, List.length_cons]
  simp [hplus]

theorem headingRe_noBehind : headingRe.noBehind = true := rfl

theorem take_sub_length (a tw d : List Char) :
    (a ++ (tw ++ d)).take ((a ++ (tw ++ d)).length - d.length) = a ++ tw := by
  have hlen : (a ++ (tw ++ d)).length - d.length = (a ++ tw).length := by
    simp only [List.length_append]
    omega
  rw [hlen, ← List.append_assoc]
  exact List.take_left _ _

theorem take_of_drop_suffix (T a : List Char) :
    (a ++ T).take ((a ++ T).length - (T.dropWhile isSpace).length) =
      a ++ T.takeWhile isSpace := by
  have h := take_sub_length a (T.takeWhile isSpace) (T.dropWhile isSpace)
  rwa [List.takeWhile_append_dropWhile] at h

/-- A document that opens with `## `: the first piece is empty and the split
goes on after the white space that follows the hashes. -/
theorem split_two_hashes (T : List Char) :
    headingRe.split false ('#' :: '#' :: ' ' :: T) =
      [] :: headingRe.splitFrom false 0 [] [] (T.dropWhile isSpace) := by
  have hsplit : T = T.takeWhile isSpace ++ T.dropWhile isSpace :=
    (List.takeWhile_append_dropWhile isSpace T).symm
  have htake := take_of_drop_suffix T ['#', '#', ' ']
  simp only [List.cons_append, List.nil_append] at htake
  unfold Re.split
  simp only
  rw [Re.splitFrom, Re.matchAt, headingRe_run_two]
  simp only [List.length_cons] at htake ⊢
  rw [htake]
  simp only [List.length_cons, Nat.add_one_ne_zero, if_false, List.reverse_nil]
  congr 1
  have hskip := splitFrom_skip false headingRe ('#' :: ' ' :: T.takeWhile isSpace)
    (T.dropWhile isSpace) [] ['#']
  simp only [List.length_cons, List.cons_append, ← hsplit] at hskip
  have h1 : (T.takeWhile isSpace).length + 1 + 1 + 1 - 1 = (T.takeWhile isSpace).length + 1 + 1 := rfl
  rw [h1, hskip]
  exact splitFrom_pre false headingRe headingRe_noBehind _ 0 [] _ []

/-- A document that opens with `### `: the same pieces. -/
theorem split_three_hashes (T : List Char) :
    headingRe.split false ('#' :: '#' :: '#' :: ' ' :: T) =
      [] :: headingRe.splitFrom false 0 [] [] (T.dropWhile isSpace) := by
  have hsplit : T = T.takeWhile isSpace ++ T.dropWhile isSpace :=
    (List.takeWhile_append_dropWhile isSpace T).symm
  have htake := take_of_drop_suffix T ['#', '#', '#', ' ']
  simp only [List.cons_append, List.nil_append] at htake
  unfold Re.split
  simp only
  rw [Re.splitFrom, Re.matchAt, headingRe_run_three]
  simp only [List.length_cons] at htake ⊢
  rw [htake]
  simp only [List.length_cons, Nat.add_one_ne_zero, if_false, List.reverse_nil]
  congr 1
  have hskip := splitFrom_skip false headingRe ('#' :: '#' :: ' ' :: T.takeWhile isSpace)
    (T.dropWhile isSpace) [] ['#']
  simp only [List.length_cons, List.cons_append, ← hsplit] at hskip
  have h1 : (T.takeWhile isSpace).length + 1 + 1 + 1 + 1 - 1 =
      (T.takeWhile isSpace).length + 1 + 1 + 1 := rfl
  rw [h1, hskip]
  exact splitFrom_pre false headingRe headingRe_noBehind _ 0 [] _ []

theorem seq_lit_matchAt_none (ci : Bool) (p : Char) (r : Re) (pre : List Char) (c : Char)
    (t : List Char) (h : chEq ci p c = false) :
    (Re.seq (Re.lit p) r).matchAt ci pre (c :: t) = none := by
  simp [Re.matchAt, run_seq, run_lit, stepChar_cons, h]

theorem seq_seq_lit_matchAt_none (ci : Bool) (p : Char) (r q : Re) (pre : List Char) (c : Char)
    (t : List Char) (h : chEq ci p c = false) :
    (Re.seq (Re.seq (Re.lit p) r) q).matchAt ci pre (c :: t) = none := by
  simp [Re.matchAt, run_seq, run_lit, stepChar_cons, h]

/-- No fallback pattern matches at a character other than the asterisk. -/
theorem eventPatterns_matchAt_none (p : Pat) (hp : p ∈ eventPatterns) (pre : List Char) (c : Char)
    (t : List Char) (h : chEq false '*' c = false) :
    p.re.matchAt p.ci pre (c :: t) = none := by
  simp only [eventPatterns, List.mem_cons, List.mem_singleton, List.not_mem_nil, or_false] at hp
  rcases hp with hp | hp
  · subst hp
    exact seq_lit_matchAt_none false '*' _ pre c t h
  · subst hp
    exact seq_seq_lit_matchAt_none false '*' _ _ pre c t h

theorem eventPatterns_noBehind (p : Pat) (hp : p ∈ eventPatterns) : p.re.noBehind = true := by
  simp only [eventPatterns, List.mem_cons, List.mem_singleton, List.not_mem_nil, or_false] at hp
  rcases hp with hp | hp <;> subst hp <;> rfl

theorem allFrom_cons_none (ci : Bool) (r : Re) (pre : List Char) (c : Char) (t : List Char)
    (h : r.matchAt ci pre (c :: t) = none) :
    r.allFrom ci 0 pre (c :: t) = r.allFrom ci 0 (c :: pre) t := by
  rw [Re.allFrom, h]

/-- The fallback matches do not depend on a front of the document made of
characters other than the asterisk. -/
theorem execAll_front (p : Pat) (hp : p ∈ eventPatterns) (front T : List Char)
    (hfront : ∀ c ∈ front, chEq false '*' c = false) :
    (p.execAll (front ++ T)).map Match.view = (p.execAll T).map Match.view := by
  have key : ∀ (front pre : List Char), (∀ c ∈ front, chEq false '*' c = false) →
      p.re.allFrom p.ci 0 pre (front ++ T) = p.re.allFrom p.ci 0 (front.reverse ++ pre) T := by
    intro front
    induction front with
    | nil => intro pre _; rfl
    | cons c t ih =>
      intro pre hf
      rw [List.cons_append, allFrom_cons_none _ _ _ _ _
        (eventPatterns_matchAt_none p hp pre c _ (hf c (by simp))),
        ih (c :: pre) (fun d hd => hf d (by simp [hd]))]
      simp
  unfold Pat.execAll Re.matchAll
  rw [key front [] hfront]
  exact allFrom_pre p.ci p.re (eventPatterns_noBehind p hp) T 0 _ _

theorem filter_map_view (q : Str → Bool) (f : Match → Event)
    (hf : ∀ m m2 : Match, m.view = m2.view → f m = f m2) :
    ∀ l1 l2 : List Match, l1.map Match.view = l2.map Match.view →
      ((l1.map fun m => (m, f m)).filter fun p => q p.1.text).map Prod.snd =
        ((l2.map fun m => (m, f m)).filter fun p => q p.1.text).map Prod.snd := by
  intro l1
  induction l1 with
  | nil =>
    intro l2 h
    cases l2 with
    | nil => rfl
    | cons b l => simp at h
  | cons a l ih =>
    intro l2 h
    cases l2 with
    | nil => simp at h
    | cons b l2 =>
      simp only [List.map_cons, List.cons.injEq] at h
      have hab := hf a b h.1
      have ht : a.text = b.text := congrArg Prod.fst h.1
      have hrec := ih l2 h.2
      simp only [List.map_cons, List.filter_cons, ht, hab]
      by_cases hq : q b.text = true
      · simp only [hq, if_true, List.map_cons, hrec]
      · simp only [hq, Bool.false_eq_true, if_false, hrec]

theorem fallbackEvent_view (m m2 : Match) (h : m.view = m2.view) :
    mkEvent (trim (m.cap 1)) m.text = mkEvent (trim (m2.cap 1)) m2.text := by
  have ht : m.text = m2.text := congrArg Prod.fst h
  have hc : m.caps = m2.caps := congrArg (fun v => v.2.2) h
  unfold Match.cap
  rw [ht, hc]

theorem fallbackMatches_front (q : Str → Bool) (front T : List Char)
    (hfront : ∀ c ∈ front, chEq false '*' c = false) :
    ((fallbackMatches (front ++ T)).filter fun p => q p.1.text).map Prod.snd =
      ((fallbackMatches T).filter fun p => q p.1.text).map Prod.snd := by
  have h1 := filter_map_view q (fun m => mkEvent (trim (m.cap 1)) m.text) fallbackEvent_view _ _
    (execAll_front bulletEventPat (by simp [eventPatterns]) front T hfront)
  have h2 := filter_map_view q (fun m => mkEvent (trim (m.cap 1)) m.text) fallbackEvent_view _ _
    (execAll_front boldEventPat (by simp [eventPatterns]) front T hfront)
  simp only [fallbackMatches, eventPatterns, List.flatMap_cons, List.flatMap_nil, List.append_nil,
    List.filter_append, List.map_append]
  rw [h1, h2]

/-- The fallback scanner gives the same categories with or without a front
of characters other than the asterisk. -/
theorem fallbackCategories_front (front T : List Char)
    (hfront : ∀ c ∈ front, chEq false '*' c = false) :
    fallbackCategories (front ++ T) = fallbackCategories T := by
  have h1 := fallbackMatches_front isMusicText front T hfront
  have h2 := fallbackMatches_front (fun s => !isMusicText s) front T hfront
  unfold fallbackCategories
  simp only [h1, h2]

theorem parseResponse_hashes (T : List Char) :
    parseResponse ('#' :: '#' :: '#' :: ' ' :: T) = parseResponse ('#' :: '#' :: ' ' :: T) := by
  have hs : parseSections ('#' :: '#' :: '#' :: ' ' :: T) =
      parseSections ('#' :: '#' :: ' ' :: T) := by
    unfold parseSections
    rw [split_two_hashes, split_three_hashes]
  have hf3 := fallbackCategories_front ['#', '#', '#', ' '] T (by decide)
  have hf2 := fallbackCategories_front ['#', '#', ' '] T (by decide)
  simp only [List.cons_append, List.nil_append] at hf3 hf2
  unfold parseResponse
  simp only [hs, hf3, hf2]

theorem run_plus_none (ci : Bool) (p : Char → Bool) (r : Re)
    (hr : r.run ci = stepChar p) (pre s : List Char) (caps : List (Nat × Str)) (k : Cont)
    (h : s.takeWhile p = []) :
    (Re.plus r).run ci ⟨pre, s, caps⟩ k = none := by
  rw [Re.plus, run_rep, hr]
  simp only [repMin, Option.map_none', reduceCtorEq, if_false]
  cases s with
  | nil => rfl
  | cons c t =>
    have hc : p c = false := by
      by_cases hc : p c = true
      · simp [List.takeWhile_cons, hc] at h
      · simpa using hc
    simp [clearCaps, stepChar, hc]

theorem repOpt_max_zero (m : MState → Cont → Option MState) (gs : List Nat) (g : Bool)
    (fuel : Nat) (x : MState) (c : Cont) : repOpt m gs g fuel (some 0) x c = c x := by
  cases fuel <;> simp [repOpt]

/-- The optional group `(\.\d{2})?` always succeeds; it passes over a two-digit
decimal part when one starts the text and over nothing otherwise. -/
theorem run_cents (pre d : List Char) (caps : List (Nat × Str)) :
    ((Re.opt (Re.group 1 (Re.seq (Re.lit '.') (Re.rep 2 (some 2) true Re.digit)))).run false
        ⟨pre, d, caps⟩ some).map MState.rest =
      some (match centsAt d with
        | some cents => cents.2
        | none => d) := by
  unfold Re.opt
  rw [run_rep]
  simp only [repMin]
  cases d with
  | nil => rfl
  | cons c r =>
    simp only [List.length_cons, repOpt, run_group, run_seq, run_lit, run_rep, repMin, clearCaps,
      stepChar, chEq_exact, Option.map_some', Nat.pred, reduceCtorEq, if_false,
      Option.some.injEq, OfNat.ofNat_ne_zero, Re.groups, run_digit_eq, if_true, repOpt_max_zero]
    by_cases hc : c = '.'
    · subst hc
      rcases r with _ | ⟨a, _ | ⟨b, r⟩⟩
      · simp [centsAt]
      · by_cases ha : isDigit a = true <;> simp [centsAt, ha]
      · by_cases ha : isDigit a = true
        · by_cases hb : isDigit b = true
          · have hlt : r.length < r.length + 1 + 1 + 1 := by omega
            simp [centsAt, ha, hb, hlt]
          · simp [centsAt, ha, hb]
        · simp [centsAt, ha]
    · have hc2 : ¬ '.' = c := fun h => hc h.symm
      rcases r with _ | ⟨a, _ | ⟨b, r⟩⟩ <;> simp [centsAt, hc, hc2]

theorem centsAt_some (d : Str) (cents : Str × Str) (h : centsAt d = some cents) :
    d = cents.1 ++ cents.2 := by
  rcases d with _ | ⟨c, _ | ⟨a, _ | ⟨b, r⟩⟩⟩
  · simp [centsAt] at h
  · simp [centsAt] at h
  · simp [centsAt] at h
  · simp only [centsAt] at h
    split at h
    · cases h; rfl
    · cases h

/-- The price regex `\$\d+(\.\d{2})?` at one position reads exactly the price
that starts there. -/
theorem price_matchAt (pre s : List Char) :
    ((Re.seq dollars (Re.opt (Re.group 1 (Re.seq (Re.lit '.')
        (Re.rep 2 (some 2) true Re.digit))))).matchAt false pre s).map Match.text = priceAt s := by
  unfold Re.matchAt dollars
  rw [run_seq, run_seq, run_lit]
  cases s with
  | nil => rfl
  | cons c t =>
    rw [stepChar_cons, chEq_exact]
    by_cases hc : '$' = c
    · subst hc
      simp only [decide_True, if_true]
      by_cases htw : t.takeWhile isDigit = []
      · rw [run_plus_none false isDigit Re.digit (run_digit_eq false) _ _ _ _ htw]
        simp [priceAt, htw]
      · have hc := run_cents ((t.takeWhile isDigit).reverse ++ ['$'] ++ pre) (t.dropWhile isDigit) []
        have hsplit : t = t.takeWhile isDigit ++ t.dropWhile isDigit :=
          (List.takeWhile_append_dropWhile isDigit t).symm
        cases hz : (Re.opt (Re.group 1 (Re.seq (Re.lit '.')
            (Re.rep 2 (some 2) true Re.digit)))).run false
            ⟨(t.takeWhile isDigit).reverse ++ ['$'] ++ pre, t.dropWhile isDigit, []⟩ some with
        | none => rw [hz] at hc; simp at hc
        | some z =>
          rw [hz] at hc
          simp only [Option.map_some', Option.some.injEq] at hc
          rw [run_plus_ok false isDigit Re.digit (run_digit_eq false) rfl _ _ _ _ z htw
            (by simpa using hz)]
          simp only [Option.map_some', priceAt, htw, ne_eq, not_false_eq_true, and_self, if_true]
          cases hcents : centsAt (t.dropWhile isDigit) with
          | none =>
            rw [hcents] at hc
            simp only at hc
            rw [hc]
            have := take_sub_length ['$'] (t.takeWhile isDigit) (t.dropWhile isDigit)
            rw [← hsplit] at this
            simpa using this
          | some cents =>
            rw [hcents] at hc
            simp only at hc
            rw [hc]
            have hd := centsAt_some _ _ hcents
            have := take_sub_length ('$' :: t.takeWhile isDigit) cents.1 cents.2
            rw [← hd] at this
            simp only [List.cons_append] at this
            rw [← hsplit] at this
            simpa using this
    · have hc2 : ¬ c = '$' := fun h => hc h.symm
      simp [hc, priceAt, hc2]

theorem price_search (s : Str) : ∀ pre : List Char,
    ((Re.seq dollars (Re.opt (Re.group 1 (Re.seq (Re.lit '.')
        (Re.rep 2 (some 2) true Re.digit))))).searchFrom false pre s).map Match.text =
      firstPrice s := by
  induction s with
  | nil =>
    intro pre
    rw [Re.searchFrom, price_matchAt]
    rfl
  | cons c t ih =>
    intro pre
    have hm := price_matchAt pre (c :: t)
    rw [searchFrom_cons, firstPrice]
    cases hp : priceAt (c :: t) with
    | none =>
      rw [hp] at hm
      have : (Re.seq dollars (Re.opt (Re.group 1 (Re.seq (Re.lit '.')
          (Re.rep 2 (some 2) true Re.digit))))).matchAt false pre (c :: t) = none := by
        simpa using hm
      rw [this]
      exact ih (c :: pre)
    | some p =>
      rw [hp] at hm
      cases hx : (Re.seq dollars (Re.opt (Re.group 1 (Re.seq (Re.lit '.')
          (Re.rep 2 (some 2) true Re.digit))))).matchAt false pre (c :: t) with
      | none => rw [hx] at hm; simp at hm
      | some m => rw [hx] at hm; simpa using hm

theorem chEq_dollar (ci : Bool) (c : Char) : chEq ci '$' c = decide ('$' = c) := by
  cases ci
  · exact chEq_exact _ _
  · by_cases h : '$' = c
    · subst h
      decide
    · have hn : c.toNat ≠ 36 := by
        intro hn
        apply h
        rw [← Char.ofNat_toNat c, hn]
      have h36 : canon '$' = 36 := by decide
      rw [chEq, if_pos rfl, h36, decide_eq_false h, beq_eq_false_iff_ne]
      unfold canon
      simp only
      split_ifs with hcond
      · simp only [Bool.and_eq_true, decide_eq_true_eq] at hcond
        omega
      · omega

/-- Where no price starts the regex `\$\d+` fails, whatever follows it. -/
theorem dollars_run_none (ci : Bool) (x : MState) (k : Cont) (h : priceAt x.rest = none) :
    dollars.run ci x k = none := by
  obtain ⟨pre, s, caps⟩ := x
  unfold dollars
  rw [run_seq, run_lit]
  cases s with
  | nil => rfl
  | cons c t =>
    rw [stepChar_cons, chEq_dollar]
    by_cases hc : '$' = c
    · subst hc
      simp only [decide_True, if_true]
      by_cases htw : t.takeWhile isDigit = []
      · exact run_plus_none ci isDigit Re.digit (run_digit_eq ci) _ _ _ _ htw
      · simp only [priceAt, htw, ne_eq, not_false_eq_true, and_self, if_true] at h
        cases hcents : centsAt (t.dropWhile isDigit) <;> rw [hcents] at h <;> simp at h
    · simp [hc]

theorem firstPrice_none_drop (s : Str) (h : firstPrice s = none) :
    ∀ n, priceAt (s.drop n) = none := by
  induction s with
  | nil => intro n; simp [priceAt]
  | cons c t ih =>
    intro n
    rw [firstPrice] at h
    cases hp : priceAt (c :: t) with
    | some p => rw [hp] at h; simp at h
    | none =>
      rw [hp] at h
      cases n with
      | zero => simpa using hp
      | succ m => simpa using ih h m

/-- Without a price in the text the range regex `\$\d+\s*-\s*\$\d+` finds nothing. -/
theorem priceRange_search_none (s : Str) (h : firstPrice s = none) :
    (Re.seqs [dollars, dash, dollars]).search false s = none := by
  unfold Re.search
  apply searchFrom_none
  intro i _
  have hre : Re.seqs [dollars, dash, dollars] = Re.seq dollars (Re.seq dash dollars) := rfl
  unfold Re.matchAt
  rw [hre, run_seq, dollars_run_none false _ _ (firstPrice_none_drop s h i)]

/-- Without a price in the text the regex `Starting at \$\d+` finds nothing. -/
theorem startingAt_search_none (s : Str) (h : firstPrice s = none) :
    (Re.seq (Re.str "Starting at ") dollars).search true s = none := by
  unfold Re.search
  apply searchFrom_none
  intro i _
  unfold Re.matchAt
  rw [run_seq, run_str]
  have hd : dollars.run true
      ((⟨(s.take i).reverse ++ [], s.drop i, []⟩ : MState).advance "Starting at ".toList.length)
      some = none :=
    dollars_run_none true _ _ (by
      simp only [MState.advance, List.drop_drop]
      exact firstPrice_none_drop s h _)
  rw [hd]
  simp

theorem prefixMatch_canon (w1 w2 : List Char) (h : w1.map canon = w2.map canon) (s : List Char) :
    prefixMatch true w1 s = prefixMatch true w2 s := by
  induction w1 generalizing w2 s with
  | nil =>
    cases w2 with
    | nil => rfl
    | cons b l => simp at h
  | cons a l ih =>
    cases w2 with
    | nil => simp at h
    | cons b l2 =>
      simp only [List.map_cons, List.cons.injEq] at h
      cases s with
      | nil => rfl
      | cons c t =>
        simp only [prefixMatch, chEq, if_true, h.1, ih l2 h.2 t]

theorem prefixMatch_length (ci : Bool) (w s : List Char) (h : prefixMatch ci w s = true) :
    w.length ≤ s.length := by
  induction w generalizing s with
  | nil => simp
  | cons a l ih =>
    cases s with
    | nil => simp [prefixMatch] at h
    | cons c t =>
      simp only [prefixMatch, Bool.and_eq_true] at h
      have := ih t h.2
      simp only [List.length_cons]
      omega

theorem free_matchAt (pre s : List Char) :
    ((Re.str "Free").matchAt true pre s).map Match.text = freeAt s := by
  unfold Re.matchAt freeAt
  rw [run_str, prefixMatch_canon "Free".toList "free".toList (by decide) s]
  by_cases hp : prefixMatch true "free".toList s = true
  · have hl := prefixMatch_length true _ s hp
    have h4 : "free".toList.length = 4 := rfl
    rw [h4] at hl
    simp only [hp, if_true, MState.advance, Option.map_some', List.length_drop]
    have : s.length - (s.length - "Free".toList.length) = 4 := by
      have : "Free".toList.length = 4 := rfl
      omega
    rw [this]
  · have hp2 : prefixMatch true "free".toList s = false := by simpa using hp
    simp only [hp2, Bool.false_eq_true, if_false, Option.map_none']

theorem free_search (s : Str) : ∀ pre : List Char,
    ((Re.str "Free").searchFrom true pre s).map Match.text = firstFree s := by
  induction s with
  | nil =>
    intro pre
    rw [Re.searchFrom, free_matchAt]
    rfl
  | cons c t ih =>
    intro pre
    have hm := free_matchAt pre (c :: t)
    rw [searchFrom_cons, firstFree]
    cases hp : freeAt (c :: t) with
    | none =>
      rw [hp] at hm
      have : (Re.str "Free").matchAt true pre (c :: t) = none := by simpa using hm
      rw [this]
      exact ih (c :: pre)
    | some p =>
      rw [hp] at hm
      cases hx : (Re.str "Free").matchAt true pre (c :: t) with
      | none => rw [hx] at hm; simp at hm
      | some m => rw [hx] at hm; simpa using hm

theorem prefixMatch_exact (w s : List Char) (h : prefixMatch false w s = true) :
    s = w ++ s.drop w.length := by
  induction w generalizing s with
  | nil => rfl
  | cons a l ih =>
    cases s with
    | nil => simp [prefixMatch] at h
    | cons c t =>
      simp only [prefixMatch, Bool.and_eq_true, chEq_exact, decide_eq_true_eq] at h
      have := ih t h.2
      simp only [List.length_cons, List.drop_succ_cons, List.cons_append, List.cons.injEq]
      exact ⟨h.1.symm, this⟩

theorem run_opt_lit (ci : Bool) (p : Char) (pre s : List Char) (caps : List (Nat × Str))
    (c : Cont) :
    (Re.opt (Re.lit p)).run ci ⟨pre, s, caps⟩ c =
      match s with
      | [] => c ⟨pre, [], caps⟩
      | a :: t =>
        if chEq ci p a then
          match c ⟨a :: pre, t, caps⟩ with
          | some z => some z
          | none => c ⟨pre, a :: t, caps⟩
        else c ⟨pre, a :: t, caps⟩ := by
  unfold Re.opt
  rw [run_rep]
  cases s with
  | nil => rfl
  | cons a t =>
    simp only [repMin, List.length_cons, repOpt, Re.groups, clearCaps_nil, run_lit, stepChar_cons,
      Option.map_some', Nat.pred, reduceCtorEq, if_false, Option.some.injEq,
      OfNat.ofNat_ne_zero, if_true, repOpt_max_zero]
    by_cases h : chEq ci p a = true
    · have hlt : t.length < t.length + 1 := Nat.lt_succ_self _
      simp only [h, hlt, if_true]
    · simp [h]

theorem schemeAt_https (t : List Char) :
    schemeAt ('h' :: 't' :: 't' :: 'p' :: 's' :: ':' :: '/' :: '/' :: t) = some 8 := by
  simp [schemeAt, prefixMatch, chEq_self]

theorem schemeAt_http (t : List Char) :
    schemeAt ('h' :: 't' :: 't' :: 'p' :: ':' :: '/' :: '/' :: t) = some 7 := by
  simp [schemeAt, prefixMatch, chEq_self, chEq_exact]

theorem schemeAt_none_s (t : List Char) (h : prefixMatch false [':', '/', '/'] t = false) :
    schemeAt ('h' :: 't' :: 't' :: 'p' :: 's' :: t) = none := by
  have e3 : "https://".toList = ['h', 't', 't', 'p', 's', ':', '/', '/'] := rfl
  have e4 : "http://".toList = ['h', 't', 't', 'p', ':', '/', '/'] := rfl
  have h2 : prefixMatch false [':', '/', '/'] ('s' :: t) = false := by
    simp [prefixMatch, chEq_exact]
  have h3 : chEq false ':' 's' = false := by decide
  unfold schemeAt
  rw [e3, e4]
  simp only [prefixMatch, chEq_self, Bool.true_and, h, h3, Bool.false_and, Bool.false_eq_true,
    if_false]

theorem schemeAt_none_other (a : Char) (t : List Char) (ha : ¬ 's' = a)
    (h : prefixMatch false [':', '/', '/'] (a :: t) = false) :
    schemeAt ('h' :: 't' :: 't' :: 'p' :: a :: t) = none := by
  have e3 : "https://".toList = ['h', 't', 't', 'p', 's', ':', '/', '/'] := rfl
  have e4 : "http://".toList = ['h', 't', 't', 'p', ':', '/', '/'] := rfl
  have h2 : prefixMatch false ['s', ':', '/', '/'] (a :: t) = false := by
    simp [prefixMatch, chEq_exact, ha]
  unfold schemeAt
  rw [e3, e4]
  simp only [prefixMatch, chEq_self, Bool.true_and, h, h2, Bool.false_eq_true, if_false] at h h2 ⊢
  simp only [h, h2, Bool.false_eq_true, if_false]

theorem schemeAt_none_short (s : List Char) (h : prefixMatch false ['h', 't', 't', 'p'] s = false) :
    schemeAt s = none := by
  have e3 : "https://".toList = ['h', 't', 't', 'p'] ++ ['s', ':', '/', '/'] := rfl
  have e4 : "http://".toList = ['h', 't', 't', 'p'] ++ [':', '/', '/'] := rfl
  have key : ∀ w : List Char, prefixMatch false (['h', 't', 't', 'p'] ++ w) s = false := by
    intro w
    rcases s with _ | ⟨c1, _ | ⟨c2, _ | ⟨c3, _ | ⟨c4, t⟩⟩⟩⟩
    · rfl
    · simp only [List.cons_append, prefixMatch, Bool.and_false]
    · simp only [List.cons_append, prefixMatch, Bool.and_false]
    · simp only [List.cons_append, prefixMatch, Bool.and_false]
    · simp only [prefixMatch, Bool.and_true] at h
      simp only [List.cons_append, List.nil_append, prefixMatch]
      rw [← Bool.and_assoc, ← Bool.and_assoc, ← Bool.and_assoc]
      rw [← Bool.and_assoc, ← Bool.and_assoc] at h
      rw [h, Bool.false_and]
  unfold schemeAt
  rw [e3, e4, key, key]
  rfl

/-- The scheme `https?:\/\/` of an address, followed by any regex `r`. -/
theorem run_scheme (r : Re) (pre s : List Char) (caps : List (Nat × Str)) (k : Cont) :
    (Re.seq (Re.str "http") (Re.seq (Re.opt (Re.lit 's')) (Re.seq (Re.str "://") r))).run false
        ⟨pre, s, caps⟩ k =
      match schemeAt s with
      | some n => r.run false ⟨(s.take n).reverse ++ pre, s.drop n, caps⟩ k
      | none => none := by
  have e1 : "http".toList = ['h', 't', 't', 'p'] := rfl
  have e2 : "://".toList = [':', '/', '/'] := rfl
  rw [run_seq, run_str, e1]
  by_cases h : prefixMatch false ['h', 't', 't', 'p'] s = true
  · have hs := prefixMatch_exact _ _ h
    generalize s.drop ['h', 't', 't', 'p'].length = s4 at hs
    subst hs
    have h' : prefixMatch false ['h', 't', 't', 'p']
        (⟨pre, ['h', 't', 't', 'p'] ++ s4, caps⟩ : MState).rest = true := h
    rw [if_pos h', run_seq]
    have hadv : (⟨pre, ['h', 't', 't', 'p'] ++ s4, caps⟩ : MState).advance
        ['h', 't', 't', 'p'].length = ⟨'p' :: 't' :: 't' :: 'h' :: pre, s4, caps⟩ := by
      simp [MState.advance]
    rw [hadv, run_opt_lit]
    cases s4 with
    | nil =>
      have hsch : schemeAt ['h', 't', 't', 'p'] = none := by decide
      simp only [List.append_nil, hsch, run_seq, run_str, e2]
      rfl
    | cons a t =>
      simp only [chEq_exact, run_seq, run_str, e2, List.cons_append, List.nil_append]
      by_cases ha : 's' = a
      · subst ha
        have hno : prefixMatch false [':', '/', '/'] ('s' :: t) = false := by
          simp [prefixMatch, chEq_exact]
        simp only [decide_True, if_true, hno, Bool.false_eq_true, if_false]
        by_cases h3 : prefixMatch false [':', '/', '/'] t = true
        · have ht := prefixMatch_exact _ _ h3
          generalize t.drop [':', '/', '/'].length = t3 at ht
          subst ht
          simp only [List.cons_append, List.nil_append, schemeAt_https, h3, if_true,
            MState.advance]
          cases hr : r.run false _ k <;> simp_all
        · have h3' : prefixMatch false [':', '/', '/'] t = false := by simpa using h3
          simp only [schemeAt_none_s t h3', h3', Bool.false_eq_true, if_false]
      · simp only [ha, decide_False, Bool.false_eq_true, if_false]
        by_cases h3 : prefixMatch false [':', '/', '/'] (a :: t) = true
        · have ht := prefixMatch_exact _ _ h3
          generalize (a :: t).drop [':', '/', '/'].length = t3 at ht
          rw [ht] at h3 ⊢
          simp only [List.cons_append, List.nil_append] at h3 ⊢
          simp only [schemeAt_http, h3, if_true, MState.advance]
          simp
        · have h3' : prefixMatch false [':', '/', '/'] (a :: t) = false := by simpa using h3
          simp only [schemeAt_none_other a t ha h3', h3', Bool.false_eq_true, if_false]
  · have h' : prefixMatch false ['h', 't', 't', 'p'] s = false := by simpa using h
    have h'' : prefixMatch false ['h', 't', 't', 'p'] (⟨pre, s, caps⟩ : MState).rest = false := h'
    rw [schemeAt_none_short s h', h'']
    rfl

theorem cls_urlChar :
    (fun c => ([CItem.space, CItem.ch ')'].any (CItem.test false c)) != true) = urlChar := by
  funext c
  simp only [List.any_cons, List.any_nil, Bool.or_false, CItem.test, chEq_exact, urlChar]
  by_cases h : c = ')'
  · simp [h]
  · have h2 : ¬ ')' = c := fun e => h e.symm
    cases hs : isSpace c <;> simp [h, h2]

/-- The address of a markdown link with its closing parenthesis,
`(https?:\/\/[^\s)]+)\)`: the second capture is the address. -/
theorem run_url (pre t : List Char) (caps : List (Nat × Str)) :
    ((Re.seq (Re.group 2 (Re.seqs [Re.str "http", Re.opt (Re.lit 's'), Re.str "://",
        Re.plus (Re.cls true [.space, .ch ')'])])) (Re.lit ')')).run false ⟨pre, t, caps⟩ some).map
        MState.caps =
      (urlAt t).map fun url => (2, url) :: caps := by
  have hre : Re.seqs [Re.str "http", Re.opt (Re.lit 's'), Re.str "://",
      Re.plus (Re.cls true [.space, .ch ')'])] =
      Re.seq (Re.str "http") (Re.seq (Re.opt (Re.lit 's')) (Re.seq (Re.str "://")
        (Re.plus (Re.cls true [.space, .ch ')'])))) := rfl
  rw [run_seq, run_group, hre, run_scheme]
  unfold urlAt
  cases hsch : schemeAt t with
  | none => rfl
  | some n =>
    simp only
    have hdet := run_plus_det false urlChar (Re.cls true [.space, .ch ')'])
      (by rw [run_cls_eq, cls_urlChar]) rfl ((t.take n).reverse ++ pre) (t.drop n) caps
      (fun y => (Re.lit ')').run false
        { y with caps := (2, (⟨pre, t, caps⟩ : MState).rest.take
          ((⟨pre, t, caps⟩ : MState).rest.length - y.rest.length)) :: y.caps } some)
      (fun a b hab _ hb => by
        obtain ⟨b0, bt, rfl⟩ := List.exists_cons_of_ne_nil hb
        have hb0 : urlChar b0 = true := by
          have hmem : b0 ∈ (t.drop n).takeWhile urlChar := by rw [hab]; simp
          exact List.mem_takeWhile_imp hmem
        have hne : ¬ ')' = b0 := by
          intro e
          rw [← e] at hb0
          simp [urlChar] at hb0
        simp [run_lit, stepChar, chEq_exact, hne])
    rw [hdet]
    by_cases htw : (t.drop n).takeWhile urlChar = []
    · simp only [htw, if_true, Option.map_none']
      cases (t.drop n).dropWhile urlChar <;> simp
    · simp only [htw, if_false, run_lit]
      cases hdw : (t.drop n).dropWhile urlChar with
      | nil => simp [stepChar]
      | cons c r =>
        simp only [stepChar, chEq_exact]
        by_cases hc : ')' = c
        · subst hc
          have hsplit : t.drop n = (t.drop n).takeWhile urlChar ++ ')' :: r := by
            rw [← hdw]
            exact (List.takeWhile_append_dropWhile urlChar (t.drop n)).symm
          have htake := take_sub_length (t.take n) ((t.drop n).takeWhile urlChar) (')' :: r)
          rw [← hsplit, List.take_append_drop] at htake
          simp only [List.length_cons] at htake
          simp [htw, htake]
        · have hc2 : ¬ c = ')' := fun e => hc e.symm
          simp [hc, hc2]

/-- The end of a markdown link, `\]\((https?:\/\/[^\s)]+)\)`. -/
theorem run_linkTail (pre s : List Char) (caps : List (Nat × Str)) :
    ((Re.seq (Re.lit ']') (Re.seq (Re.lit '(') (Re.seq (Re.group 2
        (Re.seqs [Re.str "http", Re.opt (Re.lit 's'), Re.str "://",
          Re.plus (Re.cls true [.space, .ch ')'])])) (Re.lit ')')))).run false
        ⟨pre, s, caps⟩ some).map MState.caps =
      (linkTailAt s).map fun url => (2, url) :: caps := by
  rw [run_seq, run_lit]
  rcases s with _ | ⟨a, _ | ⟨b, t⟩⟩
  · rfl
  · simp only [stepChar_cons, run_seq, run_lit, linkTailAt]
    split <;> rfl
  · simp only [stepChar_cons, chEq_exact, decide_eq_true_eq, run_lit]
    by_cases ha : ']' = a
    · subst ha
      simp only [if_true]
      rw [run_seq, run_lit, stepChar_cons, chEq_exact]
      by_cases hb : '(' = b
      · subst hb
        simp only [decide_True, if_true, linkTailAt, and_self]
        exact run_url _ t caps
      · have hb2 : ¬ b = '(' := fun e => hb e.symm
        simp [hb, hb2, linkTailAt]
    · have ha2 : ¬ a = ']' := fun e => ha e.symm
      simp [ha, ha2, linkTailAt]

theorem cap2_cons (url : Str) (caps : List (Nat × Str)) : cap2 ((2, url) :: caps) = url := rfl

/-- The lazy text `.*?` of a markdown link followed by the end of the link:
the shortest text on the line after which the end of a link stands. -/
theorem run_linkText (X : List Char) :
    ∀ (u : List Char) (fuel : Nat) (pre : List Char) (caps : List (Nat × Str)),
      u.length ≤ fuel →
      (repOpt (Re.any.run false) [] false fuel none ⟨pre, u, caps⟩ (fun y =>
        linkTailRe.run false
          { y with caps := (1, X.take (X.length - y.rest.length)) :: y.caps } some)).map
          (fun z => cap2 z.caps) = linkTextAt u := by
  intro u
  induction u with
  | nil =>
    intro fuel pre caps _
    have ht := run_linkTail pre [] ((1, X.take (X.length - ([] : List Char).length)) :: caps)
    have hnone : linkTailRe.run false
        ⟨pre, [], (1, X.take (X.length - ([] : List Char).length)) :: caps⟩ some = none := by
      simpa [linkTailAt, linkTailRe] using ht
    cases fuel with
    | zero => simp only [repOpt, hnone]; rfl
    | succ n =>
      simp only [repOpt, reduceCtorEq, if_false, Bool.false_eq_true, hnone, clearCaps_nil,
        run_any, stepChar_nil]
      rfl
  | cons c t ih =>
    intro fuel pre caps hfuel
    cases fuel with
    | zero => simp at hfuel
    | succ n =>
      have ht := run_linkTail pre (c :: t)
        ((1, X.take (X.length - (c :: t).length)) :: caps)
      have hrec := ih n (c :: pre) caps (by simpa using hfuel)
      simp only [repOpt, reduceCtorEq, if_false, Bool.false_eq_true, clearCaps_nil, run_any,
        stepChar_cons, Option.map_none']
      rw [linkTextAt]
      cases htail : linkTailAt (c :: t) with
      | some url =>
        rw [htail] at ht
        cases hz : linkTailRe.run false
            ⟨pre, c :: t, (1, X.take (X.length - (c :: t).length)) :: caps⟩ some with
        | none =>
          unfold linkTailRe at hz
          rw [hz] at ht
          simp at ht
        | some z =>
          have hz2 := hz
          unfold linkTailRe at hz2
          rw [hz2] at ht
          simp only [Option.map_some', Option.some.injEq] at ht
          simp only [hz, Option.map_some', ht, cap2_cons]
      | none =>
        rw [htail] at ht
        have hz : linkTailRe.run false
            ⟨pre, c :: t, (1, X.take (X.length - (c :: t).length)) :: caps⟩ some = none := by
          simpa [linkTailRe] using ht
        simp only [hz]
        by_cases hc : isLineTerminator c = true
        · simp [hc]
        · have hlt : t.length < (c :: t).length := by simp
          simp only [hc, Bool.not_false, Bool.not_eq_true, if_true, hlt, Bool.false_eq_true,
            if_false]
          simpa [hc] using hrec

/-- At one position the markdown-link regex captures the address of the link
that starts there. -/
theorem link_matchAt (pre s : List Char) :
    (linkRe.matchAt false pre s).map (fun m => m.cap 2) = linkAt s := by
  have hre : linkRe = Re.seq (Re.lit '[') (Re.seq (Re.group 1 (Re.starLazy Re.any)) linkTailRe) :=
    rfl
  have hcap : (linkRe.matchAt false pre s).map (fun m => m.cap 2) =
      (linkRe.run false ⟨pre, s, []⟩ some).map fun z => cap2 z.caps := by
    unfold Re.matchAt
    cases linkRe.run false ⟨pre, s, []⟩ some <;> rfl
  rw [hcap, hre, run_seq, run_lit]
  cases s with
  | nil => rfl
  | cons c t =>
    rw [stepChar_cons, chEq_exact, linkAt]
    by_cases hc : '[' = c
    · subst hc
      simp only [decide_True, if_true]
      rw [run_seq, run_group, Re.starLazy, run_rep]
      simp only [repMin, groups_any]
      exact run_linkText t t t.length ('[' :: pre) [] (Nat.le_refl _)
    · have hc2 : ¬ c = '[' := fun e => hc e.symm
      simp [hc, hc2]

theorem link_search (s : Str) : ∀ pre : List Char,
    (linkRe.searchFrom false pre s).map (fun m => m.cap 2) = firstLink s := by
  induction s with
  | nil =>
    intro pre
    rw [Re.searchFrom, link_matchAt]
    rfl
  | cons c t ih =>
    intro pre
    have hm := link_matchAt pre (c :: t)
    rw [searchFrom_cons, firstLink]
    cases hp : linkAt (c :: t) with
    | none =>
      rw [hp] at hm
      have : linkRe.matchAt false pre (c :: t) = none := by simpa using hm
      rw [this]
      exact ih (c :: pre)
    | some p =>
      rw [hp] at hm
      cases hx : linkRe.matchAt false pre (c :: t) with
      | none => rw [hx] at hm; simp at hm
      | some m => rw [hx] at hm; simpa using hm

theorem ensureRequired_date_ok (e : Event) :
    (ensureRequired e).date ≠ [] ∧ (ensureRequired e).date ≠ "Date not specified".toList := by
  unfold ensureRequired
  simp only
  split_ifs <;> simp_all

theorem ensureRequired_time_ok (e : Event) :
    (ensureRequired e).time ≠ [] ∧ (ensureRequired e).time ≠ "Time not specified".toList := by
  unfold ensureRequired
  simp only
  split_ifs <;> simp_all

theorem ensureRequired_venue_ok (e : Event) :
    (ensureRequired e).venue ≠ [] ∧ (ensureRequired e).venue ≠ "Venue not specified".toList := by
  unfold ensureRequired
  simp only
  split_ifs <;> simp_all

/-- Every category `parseResponse` returns has passed the final pass. -/
theorem parseResponse_ensured (text : Str) (c : Category)
    (hc : c ∈ (parseResponse text).categories) :
    ∃ c0 : Category, c = ensureCategory c0 := by
  unfold parseResponse at hc
  simp only [List.mem_map] at hc
  obtain ⟨c0, _, rfl⟩ := hc
  exact ⟨c0, rfl⟩

theorem validateParsedData_tips (p : Parsed) :
    (validateParsedData p).planningTips = p.planningTips := rfl

/-- The categories the validator returns are left as they are by the validator. -/
theorem validate_categories_fixed (p : Parsed) :
    (validateParsedData (validateParsedData p)).categories = (validateParsedData p).categories := by
  rw [validate_categories_eq (validateParsedData p), validate_categories_eq p]
  have hfix : ∀ x ∈ (p.categories.map fun c =>
      (⟨c.name, c.events.filter fun e => decide (MeetsRequired e)⟩ : Category)).filter
        (fun c => decide (c.events ≠ [])),
      (⟨x.name, x.events.filter fun e => decide (MeetsRequired e)⟩ : Category) = x := by
    intro x hx
    obtain ⟨hx1, _⟩ := List.mem_filter.mp hx
    obtain ⟨c, _, rfl⟩ := List.mem_map.mp hx1
    simp only [List.filter_filter, Bool.and_self]
  rw [List.map_congr_left hfix, List.map_id', List.filter_filter]
  simp only [Bool.and_self]

/-- From a turn with `retryCount ≤ maxRetries`, the loop ends within the
`maxRetries + 1 - retryCount` turns that are left, whatever the generator and
the persistence layer do, and it makes at least one and at most that many
further generation calls. -/
theorem retryLoop_ends (env : Env) (maxRetries : Nat) :
    ∀ (fuel retryCount calls : Nat) (lastError : Option Str),
      retryCount ≤ maxRetries → maxRetries + 1 - retryCount ≤ fuel →
      (retryLoop env maxRetries fuel retryCount calls lastError).ending.isSome = true ∧
      calls + 1 ≤ (retryLoop env maxRetries fuel retryCount calls lastError).calls ∧
      (retryLoop env maxRetries fuel retryCount calls lastError).calls ≤
        calls + (maxRetries + 1 - retryCount) := by
  intro fuel
  induction fuel with
  | zero => intro rc calls le h1 h2; omega
  | succ n ih =>
    intro rc calls le h1 h2
    rw [retryLoop]
    simp only [h1, if_true]
    have hstep : rc < maxRetries →
        (retryLoop env maxRetries n (rc + 1) (calls + 1) le).ending.isSome = true ∧
        calls + 1 ≤ (retryLoop env maxRetries n (rc + 1) (calls + 1) le).calls ∧
        (retryLoop env maxRetries n (rc + 1) (calls + 1) le).calls ≤
          calls + (maxRetries + 1 - rc) := by
      intro hlt
      have := ih (rc + 1) (calls + 1) le (by omega) (by omega)
      refine ⟨this.1, by omega, by omega⟩
    have hstepE : ∀ e : Str, rc < maxRetries →
        (retryLoop env maxRetries n (rc + 1) (calls + 1) (some e)).ending.isSome = true ∧
        calls + 1 ≤ (retryLoop env maxRetries n (rc + 1) (calls + 1) (some e)).calls ∧
        (retryLoop env maxRetries n (rc + 1) (calls + 1) (some e)).calls ≤
          calls + (maxRetries + 1 - rc) := by
      intro e hlt
      have := ih (rc + 1) (calls + 1) (some e) (by omega) (by omega)
      refine ⟨this.1, by omega, by omega⟩
    have hend : ∀ (en : Ending) (sv : List Activities),
        (Outcome.mk (calls + 1) (some en) sv).ending.isSome = true ∧
        calls + 1 ≤ (Outcome.mk (calls + 1) (some en) sv).calls ∧
        (Outcome.mk (calls + 1) (some en) sv).calls ≤ calls + (maxRetries + 1 - rc) := by
      intro en sv
      refine ⟨rfl, Nat.le_refl _, ?_⟩
      show calls + 1 ≤ calls + (maxRetries + 1 - rc)
      omega
    cases hcall : env.callChatGPT calls (attemptPrompt env rc calls) with
    | error e =>
      simp only
      by_cases hlt : rc < maxRetries
      · simp only [hlt, if_true]
        exact hstepE e hlt
      · simp only [hlt, if_false]
        exact hend _ []
    | ok response =>
      simp only
      by_cases hretry : totalEvents (validateParsedData (parseResponse response)) < 3 ∧
          rc < maxRetries
      · simp only [hretry, and_self, if_true]
        exact hstep hretry.2
      · simp only [hretry, if_false]
        cases hsave : env.save calls
            (mkActivities (env.getCurrentWeekDateRange calls) response) with
        | ok u =>
          simp only
          exact hend _ [mkActivities (env.getCurrentWeekDateRange calls) response]
        | error e =>
          simp only
          by_cases hlt : rc < maxRetries
          · simp only [hlt, if_true]
            exact hstepE e hlt
          · simp only [hlt, if_false]
            exact hend _ []

/-- More turns than the loop can take change nothing. -/
theorem retryLoop_fuel (env : Env) (maxRetries : Nat) :
    ∀ (fuel fuel2 retryCount calls : Nat) (lastError : Option Str),
      retryCount ≤ maxRetries → maxRetries + 1 - retryCount ≤ fuel →
      maxRetries + 1 - retryCount ≤ fuel2 →
      retryLoop env maxRetries fuel retryCount calls lastError =
        retryLoop env maxRetries fuel2 retryCount calls lastError := by
  intro fuel
  induction fuel with
  | zero => intro f2 rc calls le h1 h2; omega
  | succ n ih =>
    intro f2 rc calls le h1 h2 h3
    cases f2 with
    | zero => omega
    | succ m =>
      rw [retryLoop, retryLoop]
      simp only [h1, if_true]
      by_cases hlt : rc < maxRetries
      · have hrec : ∀ le2, retryLoop env maxRetries n (rc + 1) (calls + 1) le2 =
            retryLoop env maxRetries m (rc + 1) (calls + 1) le2 :=
          fun le2 => ih m (rc + 1) (calls + 1) le2 (by omega) (by omega) (by omega)
        simp only [hlt, if_true, and_true, hrec]
      · simp only [hlt, if_false, and_false]

theorem getCurrentWeekDateRange_start (monthStart : Int → Int) (now : JsDate) :
    (getCurrentWeekDateRange monthStart now).startDate =
      ⟨now.day - daysToMonday now.getDay, 0⟩ := by
  simp only [getCurrentWeekDateRange, JsDate.setDate, JsDate.getDate, JsDate.setHours]
  congr 1
  omega

theorem getCurrentWeekDateRange_end (monthStart : Int → Int) (now : JsDate) :
    (getCurrentWeekDateRange monthStart now).endDate =
      ⟨now.day - daysToMonday now.getDay + 6, 86399999⟩ := by
  simp only [getCurrentWeekDateRange, JsDate.setDate, JsDate.getDate, JsDate.setHours]
  congr 1
  omega

theorem splitChar_ne_nil (sep : Char) (s : Str) : splitChar sep s ≠ [] := by
  induction s with
  | nil => simp [splitChar]
  | cons c t ih =>
    rw [splitChar]
    split_ifs
    · simp
    · cases h : splitChar sep t with
      | nil => exact absurd h ih
      | cons l ls => simp

/-- The first piece of a split is the text before the first separator. -/
theorem splitChar_head (sep : Char) (s : Str) :
    (splitChar sep s).headD [] = s.takeWhile fun c => c != sep := by
  induction s with
  | nil => rfl
  | cons c t ih =>
    rw [splitChar]
    by_cases hc : c = sep
    · simp [hc]
    · cases h : splitChar sep t with
      | nil => exact absurd h (splitChar_ne_nil sep t)
      | cons l ls =>
        rw [h] at ih
        simp only [List.headD_cons] at ih
        simp [hc, List.takeWhile_cons, ih]

theorem dayList_eq (exceeds : ForecastDay → Bool) (forecast : List ForecastDay) :
    dayList (forecast.filter exceeds) = alertDays exceeds forecast := by
  unfold dayList alertDays dayLabel
  simp only [splitChar_head]

theorem filter_length_pos {α : Type} (p : α → Bool) (l : List α) :
    (l.filter p).length > 0 ↔ ∃ x ∈ l, p x = true := by
  rw [gt_iff_lt, List.length_pos, ne_eq, List.filter_eq_nil_iff]
  push_neg
  rfl

theorem foldl_temp_le (f g : ForecastDay → Int) (forecast : List ForecastDay)
    (h : ∀ day ∈ forecast, f day ≤ g day) :
    ∀ a b : Int, a ≤ b →
      forecast.foldl (fun sum day => sum + f day) a ≤
        forecast.foldl (fun sum day => sum + g day) b := by
  induction forecast with
  | nil => intro a b hab; exact hab
  | cons d t ih =>
    intro a b hab
    simp only [List.foldl_cons]
    apply ih (fun day hday => h day (by simp [hday]))
    have := h d (by simp)
    omega

theorem mathRound_mono (x y : ℚ) (h : x ≤ y) : mathRound x ≤ mathRound y := by
  unfold mathRound
  exact Int.floor_le_floor (by linarith)

theorem keys_pushEvents (obj : List (Str × List Event)) (key : Str) (events : List Event) :
    (pushEvents obj key events).map Prod.fst = obj.map Prod.fst := by
  unfold pushEvents
  rw [List.map_map]
  apply List.map_congr_left
  intro p _
  simp only [Function.comp]
  split_ifs <;> rfl

theorem keys_ensureKey_nodup (obj : List (Str × List Event)) (key : Str)
    (h : (obj.map Prod.fst).Nodup) : ((ensureKey obj key).map Prod.fst).Nodup := by
  unfold ensureKey
  split_ifs with hk
  · exact h
  · rw [List.map_append, List.map_singleton]
    apply List.Nodup.append h (List.nodup_singleton _)
    intro a ha hb
    simp only [List.mem_singleton] at hb
    subst hb
    apply hk
    obtain ⟨p, hp, rfl⟩ := List.mem_map.mp ha
    exact List.any_eq_true.mpr ⟨p, hp, by simp⟩

theorem keys_foldl_nodup (events : List TicketmasterEvent) :
    ∀ obj : List (Str × List Event), (obj.map Prod.fst).Nodup →
      ((events.foldl (fun obj event =>
        pushEvents (ensureKey obj event.category.name) event.category.name
          [event.eventData]) obj).map Prod.fst).Nodup := by
  induction events with
  | nil => intro obj h; exact h
  | cons e t ih =>
    intro obj h
    rw [List.foldl_cons]
    apply ih
    rw [keys_pushEvents]
    exact keys_ensureKey_nodup obj _ h

/-- The keys of `eventsByCategory` are pairwise different. -/
theorem eventsByCategory_nodup (tm : List TicketmasterEvent) (gemini : List Event) :
    ((eventsByCategory tm gemini).map Prod.fst).Nodup := by
  unfold eventsByCategory
  have h := keys_foldl_nodup tm [] List.nodup_nil
  simp only
  split_ifs
  · rw [keys_pushEvents]
    exact keys_ensureKey_nodup _ _ h
  · exact h

theorem count_of_nodup (names : List Str) (hn : names.Nodup) (a : Str) :
    names.count a = if a ∈ names then 1 else 0 := by
  induction names with
  | nil => simp
  | cons x t ih =>
    obtain ⟨hx, ht⟩ := List.nodup_cons.mp hn
    rw [List.count_cons, ih ht]
    by_cases hxa : x = a
    · subst hxa
      simp [hx]
    · have hax : ¬ a = x := fun h => hxa h.symm
      simp [hxa, hax]

/-- A name that is ensured occurs exactly once among the category names. -/
theorem count_ensured (names : List Str) (hn : names.Nodup) (a b : Str) (hab : a ≠ b) :
    ((names ++ (if !names.contains a then [a] else [])) ++
      (if !names.contains b then [b] else [])).count a = 1 ∧
    ((names ++ (if !names.contains a then [a] else [])) ++
      (if !names.contains b then [b] else [])).count b = 1 := by
  have hba : b ≠ a := fun h => hab h.symm
  have ca := count_of_nodup names hn a
  have cb := count_of_nodup names hn b
  by_cases ha : a ∈ names <;> by_cases hb : b ∈ names <;>
    simp [List.count_append, ca, cb, ha, hb, hab, hba, List.count_cons, List.count_nil]

/-- A fetch that always fails: from any turn the loop makes the calls that are
left up to `maxRetries` in total and then throws. -/
theorem multiRetryLoop_all_fail {α : Type} (message : Nat → Str) (maxRetries : Nat) :
    ∀ (fuel retries : Nat) (lastError : Option Str),
      retries ≤ maxRetries → maxRetries - retries < fuel →
      MultiApi.retryLoop (α := α) (fun n => .error (message n)) maxRetries fuel retries lastError =
        ⟨maxRetries, some (failedAfter maxRetries
          (if retries = maxRetries then lastError else some (message (maxRetries - 1))))⟩ := by
  intro fuel
  induction fuel with
  | zero => intro r le h1 h2; omega
  | succ n ih =>
    intro r le h1 h2
    rw [MultiApi.retryLoop]
    by_cases hlt : r < maxRetries
    · simp only [hlt, if_true]
      rw [ih (r + 1) (some (message r)) (by omega) (by omega)]
      have hne : ¬ r = maxRetries := by omega
      simp only [hne, if_false]
      by_cases hlast : r + 1 = maxRetries
      · have : maxRetries - 1 = r := by omega
        simp only [hlast, if_true, this]
      · simp only [hlast, if_false]
    · have heq : r = maxRetries := by omega
      subst heq
      simp only [Nat.lt_irrefl, if_false, if_true]

/-- The separator regex matches exactly one separator character. -/
theorem valueSep_matchAt (pre : List Char) (c : Char) (t : List Char) :
    (valueSepRe.matchAt false pre (c :: t)).map Match.text =
      if isSep c then some [c] else none := by
  have hre : valueSepRe = Re.alt (Re.lit ':') (Re.alt (Re.lit '–') (Re.lit '-')) := rfl
  have htake : (c :: t).take ((c :: t).length - t.length) = [c] := by
    simp
  unfold Re.matchAt
  rw [hre, run_alt, run_alt, run_lit, run_lit, run_lit]
  simp only [stepChar_cons, chEq_exact, isSep, beq_iff_eq, Bool.or_eq_true, decide_eq_true_eq]
  by_cases h1 : ':' = c
  · subst h1
    simp
  · by_cases h2 : '–' = c
    · subst h2
      simp
    · by_cases h3 : '-' = c
      · subst h3
        simp
      · have h1b : ¬ c = ':' := fun e => h1 e.symm
        have h2b : ¬ c = '–' := fun e => h2 e.symm
        have h3b : ¬ c = '-' := fun e => h3 e.symm
        simp [h1, h2, h3, h1b, h2b, h3b]

/-- The first piece of a split runs up to the first separator. -/
theorem valueSep_split_head (s : Str) : ∀ seg pre : List Char,
    ∃ rest, valueSepRe.splitFrom false 0 seg pre s =
      (seg.reverse ++ s.takeWhile fun c => !isSep c) :: rest := by
  induction s with
  | nil => intro seg pre; exact ⟨[], by simp [Re.splitFrom]⟩
  | cons c t ih =>
    intro seg pre
    have hm := valueSep_matchAt pre c t
    rw [Re.splitFrom]
    by_cases hc : isSep c = true
    · rw [hc] at hm
      cases hx : valueSepRe.matchAt false pre (c :: t) with
      | none => rw [hx] at hm; simp at hm
      | some m =>
        rw [hx] at hm
        have hmt : m.text = [c] := by simpa using hm
        refine ⟨valueSepRe.splitFrom false 0 [] (c :: pre) t, ?_⟩
        simp [hmt, hc, List.takeWhile_cons]
    · have hc2 : isSep c = false := by simpa using hc
      rw [hc2] at hm
      have hx : valueSepRe.matchAt false pre (c :: t) = none := by simpa using hm
      obtain ⟨rest, hrest⟩ := ih (c :: seg) (c :: pre)
      refine ⟨rest, ?_⟩
      rw [hx]
      simp only [hrest, List.reverse_cons, List.append_assoc, List.singleton_append,
        List.takeWhile_cons, hc2, Bool.not_false, if_true]

/-- A text without separator, then a separator: the first piece is that text
and the split goes on after the separator. -/
theorem valueSep_split_label (label : Str) (hlabel : ∀ c ∈ label, isSep c = false) (c : Char)
    (hc : isSep c = true) (t : List Char) : ∀ seg pre : List Char,
    ∃ pre2, valueSepRe.splitFrom false 0 seg pre (label ++ c :: t) =
      (seg.reverse ++ label) :: valueSepRe.splitFrom false 0 [] pre2 t := by
  induction label with
  | nil =>
    intro seg pre
    have hm := valueSep_matchAt pre c t
    rw [hc] at hm
    cases hx : valueSepRe.matchAt false pre (c :: t) with
    | none => rw [hx] at hm; simp at hm
    | some m =>
      rw [hx] at hm
      have hmt : m.text = [c] := by simpa using hm
      refine ⟨c :: pre, ?_⟩
      rw [List.nil_append, Re.splitFrom, hx]
      simp [hmt]
  | cons a u ih =>
    intro seg pre
    have ha : isSep a = false := hlabel a (by simp)
    have hm := valueSep_matchAt pre a (u ++ c :: t)
    rw [ha] at hm
    have hx : valueSepRe.matchAt false pre (a :: (u ++ c :: t)) = none := by simpa using hm
    obtain ⟨pre2, h2⟩ := ih (fun d hd => hlabel d (by simp [hd])) (a :: seg) (a :: pre)
    refine ⟨pre2, ?_⟩
    rw [List.cons_append, Re.splitFrom, hx]
    simp only [h2, List.reverse_cons, List.append_assoc, List.singleton_append]

theorem trim_space_cons (s : Str) : trim (' ' :: s) = trim s := by
  have h : isSpace ' ' = true := by decide
  simp [trim, List.dropWhile_cons, h]

theorem untilBold_append (s : Str) : (untilBold s).1 ++ (untilBold s).2 = s := by
  induction s with
  | nil => rfl
  | cons c t ih =>
    simp only [untilBold]
    split
    · rfl
    · simp [ih]

theorem takeWhile_notStar_append (inner rest : Str) (h : ∀ c ∈ inner, notStar c = true) :
    (inner ++ '*' :: rest).takeWhile notStar = inner ∧
    (inner ++ '*' :: rest).dropWhile notStar = '*' :: rest := by
  induction inner with
  | nil => simp [List.takeWhile_cons, List.dropWhile_cons, notStar]
  | cons a u ih =>
    have ha : notStar a = true := h a (by simp)
    have := ih (fun c hc => h c (by simp [hc]))
    simp [List.takeWhile_cons, List.dropWhile_cons, ha, this.1, this.2]

/-- A bold token at the start of a text is still there when the text goes on. -/
theorem boldAt_append (s r : Str) (tk : Str × Str) (h : boldAt s = some tk) :
    boldAt (s ++ r) = some (tk.1, tk.2 ++ r) := by
  obtain ⟨hs, hne, hall⟩ := boldAt_some s tk h
  have htw := takeWhile_notStar_append tk.1 ('*' :: (tk.2 ++ r)) hall
  rw [hs]
  simp only [List.cons_append, List.append_assoc, boldAt, htw.1, htw.2, ne_eq, hne,
    not_false_eq_true, and_self, if_true]

theorem noBold_nil : NoBold [] := by
  intro n
  simp [boldAt]

theorem noBold_untilBold (x : Str) : NoBold (untilBold x).1 := by
  induction x with
  | nil => exact noBold_nil
  | cons c t ih =>
    simp only [untilBold]
    split
    · exact noBold_nil
    · rename_i hb
      intro n
      cases n with
      | zero =>
        simp only [List.drop_zero]
        cases hx : boldAt (c :: (untilBold t).1) with
        | none => rfl
        | some tk =>
          have := boldAt_append _ (untilBold t).2 tk hx
          rw [List.cons_append, untilBold_append] at this
          rw [this] at hb
          simp at hb
      | succ m => simpa using ih m

theorem noBold_drop (b : Str) (h : NoBold b) (k : Nat) : NoBold (b.drop k) := by
  intro n
  rw [List.drop_drop]
  exact h _

theorem noBold_prefix (a r : Str) (h : NoBold (a ++ r)) : NoBold a := by
  intro n
  cases hx : boldAt (a.drop n) with
  | none => rfl
  | some tk =>
    by_cases hn : n ≤ a.length
    · have := boldAt_append _ r tk hx
      rw [← List.drop_append_of_le_length hn, h n] at this
      simp at this
    · have : a.drop n = [] := List.drop_eq_nil_of_le (by omega)
      rw [this] at hx
      simp [boldAt] at hx

theorem noBold_trim (b : Str) (h : NoBold b) : NoBold (trim b) := by
  have h1 : NoBold (b.dropWhile isSpace) := by
    have hsplit := List.takeWhile_append_dropWhile isSpace b
    have : b.dropWhile isSpace = b.drop (b.takeWhile isSpace).length := by
      have hgen : ∀ a d : List Char, (a ++ d).drop a.length = d := by
        intro a d
        simp
      have hd := hgen (b.takeWhile isSpace) (b.dropWhile isSpace)
      rw [hsplit] at hd
      exact hd.symm
    rw [this]
    exact noBold_drop b h _
  have hrev := List.takeWhile_append_dropWhile isSpace (b.dropWhile isSpace).reverse
  have h2 : b.dropWhile isSpace =
      ((b.dropWhile isSpace).reverse.dropWhile isSpace).reverse ++
        ((b.dropWhile isSpace).reverse.takeWhile isSpace).reverse := by
    rw [← List.reverse_append, hrev, List.reverse_reverse]
  unfold trim
  rw [h2] at h1
  exact noBold_prefix _ _ h1

theorem noBold_search (b : Str) (h : NoBold b) : boldNameRe.search false b = none := by
  unfold Re.search
  apply searchFrom_none
  intro i _
  exact boldNameRe_matchAt_none _ _ (h i)

theorem boldTokens_blocks (fuel : Nat) :
    ∀ s : Str, ∀ tok ∈ boldTokens fuel s, NoBold tok.2 := by
  induction fuel with
  | zero => intro s tok h; simp [boldTokens] at h
  | succ n ih =>
    intro s tok h
    cases hb : boldAt s with
    | none => simp [boldTokens, hb] at h
    | some t =>
      simp only [boldTokens, hb, List.mem_cons] at h
      rcases h with h | h
      · rw [h]
        exact noBold_untilBold _
      · exact ih _ tok h

/-- No piece of a split at the bold tokens holds a bold token. -/
theorem split_blocks_noBold (body : Str) : ∀ block ∈ boldRe.split false body, NoBold block := by
  cases body with
  | nil =>
    intro block hblock
    have : boldRe.split false [] = [[]] := by decide
    rw [this] at hblock
    simp only [List.mem_singleton] at hblock
    rw [hblock]
    exact noBold_nil
  | cons c t =>
    intro block hblock
    have hsplit : boldRe.split false (c :: t) =
        (untilBold (c :: t)).1 ::
          (boldTokens (c :: t).length (untilBold (c :: t)).2).map Prod.snd := by
      unfold Re.split
      simp only
      rw [boldRe_splitFrom, boldRe_split_blocks _ _ (untilBold_length (c :: t))]
      simp
    rw [hsplit] at hblock
    simp only [List.mem_cons, List.mem_map] at hblock
    rcases hblock with h | ⟨tok, htok, rfl⟩
    · rw [h]
      exact noBold_untilBold _
    · exact boldTokens_blocks _ _ tok htok

/-- In the duplicate the bold text is never found: the block of an event holds
no bold token, so the name is the default. -/
theorem dup_eventName_default (body : Str) (block : Str) (hblock : block ∈ boldRe.split false body)
    (j : Nat) : Dup.eventName j (trim block) = "Event ".toList ++ (toString j).toList := by
  unfold Dup.eventName
  rw [noBold_search _ (noBold_trim _ (split_blocks_noBold body block hblock))]

theorem enum_map_names (f : Nat → Str → Event) (blocks : List Str)
    (hname : ∀ k block, block ∈ blocks →
      (f k block).name = "Event ".toList ++ (toString (k + 1)).toList) :
    ∀ start : Nat, ((blocks.enumFrom start).map fun p => (f p.1 p.2).name) =
      (List.range' start blocks.length).map fun k =>
        "Event ".toList ++ (toString (k + 1)).toList := by
  induction blocks with
  | nil => intro start; rfl
  | cons b t ih =>
    intro start
    simp only [List.enumFrom_cons, List.map_cons, List.length_cons, List.range'_succ]
    rw [hname start b (by simp), ih (fun k block hb => hname k block (by simp [hb]))]

/-- The duplicate names the events of a section body `Event 1`, `Event 2`, ... -/
theorem dup_sectionEvents_names (body : Str) :
    (Dup.sectionEvents body).map Event.name = defaultNames (Dup.sectionEvents body).length := by
  have hlen : (Dup.sectionEvents body).length = (boldRe.split false body).tail.length := by
    simp [Dup.sectionEvents, List.enum]
  rw [hlen]
  unfold Dup.sectionEvents defaultNames
  simp only [List.map_map, List.enum, List.range_eq_range']
  exact enum_map_names
    (fun k block => Dup.mkEvent (Dup.eventName (k + 1) (trim block)) (trim block))
    (boldRe.split false body).tail
    (fun k block hb => dup_eventName_default body block (List.mem_of_mem_tail hb) (k + 1)) 0

theorem dup_processSection_names (result : Parsed) (raw : Str)
    (h : ∀ c ∈ result.categories, c.events.map Event.name = defaultNames c.events.length) :
    ∀ c ∈ (Dup.processSection result raw).categories,
      c.events.map Event.name = defaultNames c.events.length := by
  unfold Dup.processSection
  simp only
  split_ifs
  · intro c hc
    simp only [List.mem_append, List.mem_singleton] at hc
    rcases hc with hc | hc
    · exact h c hc
    · rw [hc]
      exact dup_sectionEvents_names _
  · intro c hc
    simp only [List.mem_append, List.mem_singleton] at hc
    rcases hc with hc | hc
    · exact h c hc
    · rw [hc]
      exact dup_sectionEvents_names _
  · exact h
  · exact h

theorem dup_foldl_names (secs : List Str) :
    ∀ result : Parsed,
      (∀ c ∈ result.categories, c.events.map Event.name = defaultNames c.events.length) →
      ∀ c ∈ (secs.foldl Dup.processSection result).categories,
        c.events.map Event.name = defaultNames c.events.length := by
  induction secs with
  | nil => intro result h; exact h
  | cons s t ih =>
    intro result h
    rw [List.foldl_cons]
    exact ih _ (dup_processSection_names result s h)

theorem dup_sectionEvents_length (body : Str) :
    (Dup.sectionEvents body).length = (sectionEvents body).length := by
  simp [Dup.sectionEvents, sectionEvents, List.enum]

/-- The labelled line is reached only after the generic patterns: for every
event block in which none of the five generic date patterns matches and whose
first `Date:`/`Dates:` label (at a word boundary) heads a line `Date: v` or
`Dates: v` with `v` non-blank, free of line terminators and followed by a line
feed or the end of the block, `extractDate` returns the trimmed `v`. -/
theorem extractDate_label_of_no_generic (front v back : Str) (plural : Bool)
    (hgeneric : firstMatch datePatterns (front ++ dateLine plural v ++ back) = none)
    (hfirst : ∀ i, i < front.length →
      labelAt ["Dates", "Date"] ((front ++ dateLine plural v ++ back).drop i) = false)
    (hbound : ∀ c ∈ front.getLast?, isWord c = false)
    (hline : ∀ c ∈ v, isLineTerminator c = false)
    (hvalue : ∃ c ∈ v, isSpace c = false)
    (hback : ∀ c ∈ back.head?, c = '\n') :
    extractDate (front ++ dateLine plural v ++ back) = trim v := by
  have hback : back = [] ∨ ∃ t, back = '\n' :: t := by
    cases back with
    | nil => exact Or.inl rfl
    | cons b t => exact Or.inr ⟨t, by rw [hback b (by simp)]⟩
  obtain ⟨c0, u, hdrop, hc0, hv⟩ := nonblank_split v hvalue
  have hws : ∀ c ∈ ' ' :: v.takeWhile isSpace, isSpace c = true := by
    intro c hc
    rcases List.mem_cons.mp hc with h | h
    · rw [h]; decide
    · exact (List.mem_takeWhile_imp h)
  have hu : ∀ c ∈ c0 :: u, isLineTerminator c = false := by
    intro c hc
    apply hline
    rw [hv]
    exact List.mem_append_right _ hc
  have hpre : ∀ p q, front.reverse = p :: q → isWord p = false := by
    intro p q hpq
    apply hbound
    rw [List.getLast?_eq_head?_reverse, hpq]
    simp
  obtain ⟨m, hm, hcap⟩ := dateLabel_matchAt front.reverse plural (' ' :: v.takeWhile isSpace) c0 u
    back hpre hws hc0 hu hback
  have htext : front ++ dateLine plural v ++ back =
      front ++ ((if plural then "Dates" else "Date").toList ++
        ':' :: ((' ' :: v.takeWhile isSpace) ++ c0 :: (u ++ back))) := by
    have hv2 : v ++ back = v.takeWhile isSpace ++ c0 :: (u ++ back) := by
      conv_lhs => rw [hv]
      simp
    cases plural
    · simp only [dateLine, Bool.false_eq_true, if_false, List.append_assoc]
      rw [hv2]
      rfl
    · simp only [dateLine, if_true, List.append_assoc]
      rw [hv2]
      rfl
  have hsearch : dateRangePat.exec (front ++ dateLine plural v ++ back) = some m := by
    unfold Pat.exec Re.search
    simp only [dateRangePat]
    have hskip := searchFrom_skip true (labelRe ["Dates", "Date"]) front
      ((if plural then "Dates" else "Date").toList ++
        ':' :: ((' ' :: v.takeWhile isSpace) ++ c0 :: (u ++ back))) []
      (fun i hi => by
        apply labelRe_matchAt_none _ (by simp)
        have := hfirst i hi
        rw [htext, List.drop_append_of_le_length (Nat.le_of_lt hi)] at this
        exact this)
    rw [htext, hskip]
    apply searchFrom_of_matchAt
    simpa using hm
  unfold extractDate
  rw [hgeneric]
  simp only [hsearch, hcap]
  rw [← hdrop, trim_dropWhile]

/-- Example of the labelled line being reached: a block whose date line holds no
date the generic patterns know. -/
theorem extractDate_label_of_no_generic_example :
    extractDate ("* Time: 7:00 PM\n* ".toList ++ dateLine false " To be announced ".toList ++
        "\n* Venue: Noce".toList) = trim " To be announced ".toList :=
  extractDate_label_of_no_generic "* Time: 7:00 PM\n* ".toList " To be announced ".toList
    "\n* Venue: Noce".toList false (by decide!) (by decide!) (by decide!) (by decide!)
    (by decide!) (by decide!)

/-! ## Claims -/

/-- C1: the categories returned by `validateParsedData` are the input categories,
in order, each holding exactly its events (in order) that meet at least 3 of
the 4 required-field conditions, with the categories left empty removed: an
event is kept if and only if it meets that count. -/
theorem validateParsedData_keeps_three_of_four (p : Parsed) :
    (validateParsedData p).categories =
      (p.categories.map fun c =>
        (⟨c.name, c.events.filter fun e => decide (MeetsRequired e)⟩ : Category)).filter
        fun c => decide (c.events ≠ []) :=
  validate_categories_eq p

/-- C2: every category returned by `validateParsedData` has at least one event,
and an input category all of whose events fail the 3-of-4 check leaves no
category behind: the output is that of the input without it. -/
theorem validateParsedData_no_empty_category (p : Parsed) :
    (∀ c ∈ (validateParsedData p).categories, c.events ≠ []) ∧
    (∀ front c back, p.categories = front ++ c :: back →
      (∀ e ∈ c.events, ¬ MeetsRequired e) →
      (validateParsedData p).categories =
        (validateParsedData ⟨front ++ back, p.planningTips⟩).categories) := by
  refine ⟨?_, ?_⟩
  · intro c hc
    rw [validate_categories_eq] at hc
    simpa using (List.mem_filter.mp hc).2
  · intro front c back hp hfail
    rw [validate_categories_eq, validate_categories_eq, hp]
    have hnil : (c.events.filter fun e => decide (MeetsRequired e)) = [] := by
      rw [List.filter_eq_nil_iff]
      intro e he
      simpa using hfail e he
    simp [List.filter_cons, hnil]

/-- Witness of C2: a result with one complete event and one category whose only
event has two required fields. -/
theorem validateParsedData_no_empty_category_witness :
    (∀ c ∈ (validateParsedData ⟨[⟨"Live Music".toList, [eventFull]⟩,
        ⟨"Festivals & Events".toList, [eventNameDate]⟩], []⟩).categories, c.events ≠ []) ∧
    (validateParsedData ⟨[⟨"Live Music".toList, [eventFull]⟩,
        ⟨"Festivals & Events".toList, [eventNameDate]⟩], []⟩).categories =
      (validateParsedData ⟨[⟨"Live Music".toList, [eventFull]⟩], []⟩).categories :=
  ⟨(validateParsedData_no_empty_category _).1,
   (validateParsedData_no_empty_category
      ⟨[⟨"Live Music".toList, [eventFull]⟩, ⟨"Festivals & Events".toList, [eventNameDate]⟩], []⟩).2
      [⟨"Live Music".toList, [eventFull]⟩] ⟨"Festivals & Events".toList, [eventNameDate]⟩ []
      rfl (by decide)⟩

/-- C3 (the code at the failing input): on Scenario A `parseResponse` returns one
category `Live Music` with one event whose `ticketLink` is the whole markdown
link `[site](https://example.com)`, not the URL inside it. -/
theorem parseResponse_scenarioA :
    parseResponse scenarioA =
      ⟨[⟨"Live Music".toList,
          [⟨"Jazz Night".toList, "TBD".toList, "7:00 PM".toList, "TBD".toList, "$15".toList,
            "[site](https://example.com)".toList, "weekly jazz showcase.".toList⟩]⟩], []⟩ := by
  decide!

/-- C4: the five generic patterns are tried before the labelled line, so on a
block whose line `Dates: June 27-29, 2025` holds a range `extractDate` returns
the month-day match `June 27` and not the labelled value `June 27-29, 2025`;
the festival block of the sample response of the repository behaves the same.
The labelled line, commented in the source as the place to look for date
ranges, never sees a range that starts with a month and a day. -/
theorem extractDate_range_label_shadowed :
    extractDate (dateLine true "June 27-29, 2025".toList) = "June 27".toList ∧
    extractDate ("* Dates: June 27-29, 2025\n* Hours: Friday & Saturday 10 AM-10 PM, " ++
      "Sunday 10 AM-5 PM\n* Location: Western Gateway Park\n* Admission: Free").toList =
      "June 27".toList ∧
    trim "June 27-29, 2025".toList = "June 27-29, 2025".toList ∧
    firstMatch datePatterns "June 27-29, 2025".toList ≠ none := by
  decide!

/-- C5: if the generator never fails, every response yields fewer than 3
validated events and persistence succeeds, exactly `maxRetries + 1` generation
calls are made. -/
theorem retry_calls_when_insufficient (env : Env) (maxRetries : Nat)
    (hgen : ∀ k prompt, ∃ r, env.callChatGPT k prompt = .ok r ∧
      totalEvents (validateParsedData (parseResponse r)) < 3)
    (hsave : ∀ k a, env.save k a = .ok ()) :
    (fetchAndStoreActivitiesWithRetry env maxRetries).calls = maxRetries + 1 := by
  obtain ⟨r, _, h⟩ :=
    retryLoop_insufficient env maxRetries hgen hsave (maxRetries + 1) 0 0 none
      (Nat.zero_le _) (by omega)
  simp [fetchAndStoreActivitiesWithRetry, h]

/-- Witness of C5: with `maxRetries = 2` and a generator that always yields one
valid event, exactly 3 generation calls are made. -/
theorem retry_calls_when_insufficient_witness :
    totalEvents (validateParsedData (parseResponse docOne)) = 1 ∧
    (fetchAndStoreActivitiesWithRetry (constEnv (.ok docOne)) 2).calls = 3 :=
  ⟨by decide!,
   retry_calls_when_insufficient (constEnv (.ok docOne)) 2
     (fun _ _ => ⟨docOne, rfl, by decide!⟩) (fun _ _ => rfl)⟩

/-- C6 (counterexample): with `maxRetries = 2` and a generator that always yields
one valid event, the run does not throw: it saves and returns the document
built from the last response, which holds that single event. -/
theorem retry_exhausted_returns_counterexample :
    (fetchAndStoreActivitiesWithRetry (constEnv (.ok docOne)) 2).ending =
      some (Ending.returned (mkActivities ⟨0, 6⟩ docOne)) ∧
    (fetchAndStoreActivitiesWithRetry (constEnv (.ok docOne)) 2).saved =
      [mkActivities ⟨0, 6⟩ docOne] ∧
    totalEvents (validateParsedData (parseResponse docOne)) = 1 := by
  decide!

/-- C6 (amended): when every attempt yields fewer than 3 validated events and
persistence succeeds, the run does not throw: it ends by writing to the store
and returning the document built from the response of the last attempt (call
number `maxRetries`), although it is under the threshold.  That document is
the only one written. -/
theorem retry_exhausted_returns_last (env : Env) (maxRetries : Nat)
    (hgen : ∀ k prompt, ∃ r, env.callChatGPT k prompt = .ok r ∧
      totalEvents (validateParsedData (parseResponse r)) < 3)
    (hsave : ∀ k a, env.save k a = .ok ()) :
    ∃ r, env.callChatGPT maxRetries (attemptPrompt env maxRetries maxRetries) = .ok r ∧
      totalEvents (validateParsedData (parseResponse r)) < 3 ∧
      (fetchAndStoreActivitiesWithRetry env maxRetries).ending =
        some (Ending.returned (mkActivities (env.getCurrentWeekDateRange maxRetries) r)) ∧
      (fetchAndStoreActivitiesWithRetry env maxRetries).saved =
        [mkActivities (env.getCurrentWeekDateRange maxRetries) r] := by
  obtain ⟨r, hr, h⟩ :=
    retryLoop_insufficient env maxRetries hgen hsave (maxRetries + 1) 0 0 none
      (Nat.zero_le _) (by omega)
  simp only [Nat.sub_zero, Nat.zero_add] at hr h
  obtain ⟨r2, hr2, hlt⟩ := hgen maxRetries (attemptPrompt env maxRetries maxRetries)
  have e : r2 = r := by
    rw [hr2] at hr
    exact Except.ok.inj hr
  subst e
  exact ⟨r2, hr2, hlt, by simp [fetchAndStoreActivitiesWithRetry, h],
    by simp [fetchAndStoreActivitiesWithRetry, h]⟩

/-- Witness of C6 (amended): the generator that always yields one valid event,
with `maxRetries = 2`. -/
theorem retry_exhausted_returns_last_witness :
    ∃ r, (constEnv (.ok docOne)).callChatGPT 2 (attemptPrompt (constEnv (.ok docOne)) 2 2) = .ok r ∧
      totalEvents (validateParsedData (parseResponse r)) < 3 ∧
      (fetchAndStoreActivitiesWithRetry (constEnv (.ok docOne)) 2).ending =
        some (Ending.returned
          (mkActivities ((constEnv (.ok docOne)).getCurrentWeekDateRange 2) r)) ∧
      (fetchAndStoreActivitiesWithRetry (constEnv (.ok docOne)) 2).saved =
        [mkActivities ((constEnv (.ok docOne)).getCurrentWeekDateRange 2) r] :=
  retry_exhausted_returns_last (constEnv (.ok docOne)) 2
    (fun _ _ => ⟨docOne, rfl, by decide!⟩) (fun _ _ => rfl)

/-- C7 (counterexample): with `maxRetries = 2` and a generator whose every call
fails, three generation calls are made, not one. -/
theorem retry_after_failed_call_counterexample :
    (fetchAndStoreActivitiesWithRetry (constEnv (.error "Failed to get response".toList)) 2).calls
      = 3 := by
  decide

/-- C7 (amended): a failed generation call is caught and, while retry budget
remains, followed by the next attempt: a generator whose every call fails is
called exactly `maxRetries + 1` times, and the run then throws the error of the
last call. -/
theorem retry_after_failed_call (env : Env) (maxRetries : Nat)
    (hgen : ∀ k prompt, ∃ e, env.callChatGPT k prompt = .error e) :
    (fetchAndStoreActivitiesWithRetry env maxRetries).calls = maxRetries + 1 ∧
    ∃ e, env.callChatGPT maxRetries (attemptPrompt env maxRetries maxRetries) = .error e ∧
      (fetchAndStoreActivitiesWithRetry env maxRetries).ending = some (Ending.thrown e) := by
  obtain ⟨e, he, h⟩ :=
    retryLoop_all_fail env maxRetries hgen (maxRetries + 1) 0 0 none (Nat.zero_le _) (by omega)
  simp only [Nat.sub_zero, Nat.zero_add] at he h
  exact ⟨by simp [fetchAndStoreActivitiesWithRetry, h], e, he,
    by simp [fetchAndStoreActivitiesWithRetry, h]⟩

/-- Witness of C7 (amended): the generator that always fails, with `maxRetries = 2`. -/
theorem retry_after_failed_call_witness :
    (fetchAndStoreActivitiesWithRetry (constEnv (.error "boom".toList)) 2).calls = 2 + 1 ∧
    ∃ e, (constEnv (.error "boom".toList)).callChatGPT 2
          (attemptPrompt (constEnv (.error "boom".toList)) 2 2) = .error e ∧
      (fetchAndStoreActivitiesWithRetry (constEnv (.error "boom".toList)) 2).ending
        = some (Ending.thrown e) :=
  retry_after_failed_call (constEnv (.error "boom".toList)) 2 (fun _ _ => ⟨_, rfl⟩)

/-- C8: if the first response yields at least 3 validated events and persistence
succeeds, exactly one generation call is made, and the document that is
written to the store (the only one written, and the one returned) carries the
categories and planning tips of `validateParsedData (parseResponse response)`. -/
theorem retry_first_response_accepted (env : Env) (maxRetries : Nat) (response : Str)
    (hgen : env.callChatGPT 0 (env.generatePrompt (env.getCurrentWeekDateRange 0)) = .ok response)
    (henough : 3 ≤ totalEvents (validateParsedData (parseResponse response)))
    (hsave : ∀ a, env.save 0 a = .ok ()) :
    (fetchAndStoreActivitiesWithRetry env maxRetries).calls = 1 ∧
    ∃ a, (fetchAndStoreActivitiesWithRetry env maxRetries).saved = [a] ∧
      (fetchAndStoreActivitiesWithRetry env maxRetries).ending = some (Ending.returned a) ∧
      a.categories = (validateParsedData (parseResponse response)).categories ∧
      a.planningTips = (validateParsedData (parseResponse response)).planningTips ∧
      a.rawResponse = response := by
  have hp : attemptPrompt env 0 0 = env.generatePrompt (env.getCurrentWeekDateRange 0) := by
    simp [attemptPrompt]
  have hnot : ¬ (totalEvents (validateParsedData (parseResponse response)) < 3 ∧ 0 < maxRetries) := by
    omega
  have h : fetchAndStoreActivitiesWithRetry env maxRetries =
      ⟨1, some (Ending.returned (mkActivities (env.getCurrentWeekDateRange 0) response)),
        [mkActivities (env.getCurrentWeekDateRange 0) response]⟩ := by
    rw [fetchAndStoreActivitiesWithRetry, retryLoop, if_pos (Nat.zero_le _), hp, hgen]
    simp only [hnot, if_false, hsave]
  rw [h]
  exact ⟨rfl, _, rfl, rfl, rfl, rfl, rfl⟩

/-- Witness of C8: a first response with three valid events, `maxRetries = 2`. -/
theorem retry_first_response_accepted_witness :
    3 ≤ totalEvents (validateParsedData (parseResponse docThree)) ∧
    (fetchAndStoreActivitiesWithRetry (constEnv (.ok docThree)) 2).calls = 1 ∧
    ∃ a, (fetchAndStoreActivitiesWithRetry (constEnv (.ok docThree)) 2).saved = [a] ∧
      (fetchAndStoreActivitiesWithRetry (constEnv (.ok docThree)) 2).ending
          = some (Ending.returned a) ∧
      a.categories = (validateParsedData (parseResponse docThree)).categories ∧
      a.planningTips = (validateParsedData (parseResponse docThree)).planningTips ∧
      a.rawResponse = docThree :=
  ⟨by decide!,
   retry_first_response_accepted (constEnv (.ok docThree)) 2 docThree rfl (by decide!)
     (fun _ => rfl)⟩

/-- C9: for every document with one heading whose title is classed as music or
festival, followed by a single bold-named event whose block holds only a date
line (no time pattern and no venue pattern matches in it), the validated parse
holds neither the event nor its category: time and venue are `TBD`, so the
event has no more than 2 of the 4 required fields, and the category, left
empty, is dropped. -/
theorem date_only_event_dropped (doc front sec b0 block : Str)
    (hsplit : headingRe.split false doc = [front, sec])
    (htitle : (musicTitlePat.exec (sectionTitleOf sec)).isSome ∨
      (festivalTitlePat.exec (sectionTitleOf sec)).isSome)
    (hblocks : boldRe.split false (sectionContentOf sec) = [b0, block])
    (htime : firstMatch timePatterns (trim block) = none)
    (hvenue : firstMatch venuePatterns (trim block) = none) :
    (validateParsedData (parseResponse doc)).categories = [] := by
  obtain ⟨label, hcat⟩ := parseSections_single doc front sec hsplit htitle
  obtain ⟨name, hev⟩ := sectionEvents_single _ b0 block hblocks
  rw [hev] at hcat
  have hparse : (parseResponse doc).categories =
      [⟨label, [ensureRequired (mkEvent name (trim block))]⟩] := by
    simp [parseResponse, hcat]
  have hdrop : ¬ MeetsRequired (ensureRequired (mkEvent name (trim block))) :=
    not_meetsRequired_of_tbd _
      (ensureRequired_time _ (extractTime_of_no_match _ htime))
      (ensureRequired_venue _ (extractVenue_of_no_match _ hvenue))
  rw [validate_categories_eq, hparse]
  simp [hdrop]

/-- Witness of C9: the example of the claim. -/
theorem date_only_event_dropped_witness :
    (validateParsedData (parseResponse dateOnlyDoc)).categories = [] :=
  date_only_event_dropped dateOnlyDoc []
    "LIVE MUSIC\n\n**Jazz Night**\n* Date: Saturday, June 28\n".toList []
    "\n* Date: Saturday, June 28".toList (by decide!) (by decide!) (by decide!) (by decide!)
    (by decide!)

/-- A date line that also names a place is not a date-only block: with the line
`* Date: Saturday, June 28 at Noce` the venue pattern finds `Noce`, so name,
date and venue are present and both the event and its category are kept. -/
theorem date_line_with_venue_kept :
    (validateParsedData (parseResponse dateVenueDoc)).categories =
      [⟨"Live Music".toList, [⟨"Jazz Night".toList, "Saturday, June 28".toList, "TBD".toList,
        "Noce".toList, "Free".toList, [], "* Date: Saturday, June 28 at Noce".toList⟩]⟩] := by
  decide!

/-- C10: for every document with no heading marker, exactly one match of the
bullet fallback pattern, whose text includes the word `concert`, and no match
of the bold-name fallback pattern, `parseResponse` returns exactly one category,
`Live Music`, with exactly one event, named by the trimmed first capture (the
text of the `* name` line). -/
theorem fallback_single_concert (doc : Str)
    (hhead : headingRe.search false doc = none)
    (hone : (bulletEventPat.execAll doc).length = 1)
    (hbold : boldEventPat.execAll doc = [])
    (hword : ∀ m ∈ bulletEventPat.execAll doc, includes "concert".toList m.text = true) :
    ∃ e, (parseResponse doc).categories = [⟨"Live Music".toList, [e]⟩] ∧
      ∀ m ∈ bulletEventPat.execAll doc, e.name = trim (m.cap 1) := by
  obtain ⟨m, hm⟩ := List.length_eq_one.mp hone
  have hmusic : isMusicText m.text = true :=
    isMusicText_of_concert m.text (hword m (by simp [hm]))
  have hfb : fallbackCategories doc =
      [⟨"Live Music".toList, [mkEvent (trim (m.cap 1)) m.text]⟩] := by
    simp [fallbackCategories, fallbackMatches, eventPatterns, hm, hbold, hmusic]
  refine ⟨ensureRequired (mkEvent (trim (m.cap 1)) m.text), ?_, ?_⟩
  · simp [parseResponse, parseSections_of_no_heading doc hhead, hfb]
  · intro m2 hm2
    rw [hm] at hm2
    rw [List.mem_singleton.mp hm2, ensureRequired_name]
    rfl

/-- Witness of C10: a bullet-style concert listing without headings. -/
theorem fallback_single_concert_witness :
    ∃ e, (parseResponse bulletDoc).categories = [⟨"Live Music".toList, [e]⟩] ∧
      ∀ m ∈ bulletEventPat.execAll bulletDoc, e.name = trim (m.cap 1) :=
  fallback_single_concert bulletDoc (by decide!) (by decide!) (by decide!) (by decide!)


/-- C16: `extractDate` is a total function from texts to texts, and on every
text in which none of the five date patterns matches and no `Date:`/`Dates:`
label occurs (in any letter case) it returns exactly `TBD`. -/
theorem extractDate_default (text : Str)
    (hgeneric : firstMatch datePatterns text = none)
    (hlabel : labelIn ["Dates", "Date"] text = false) :
    extractDate text = "TBD".toList := by
  have h : dateRangePat.exec text = none :=
    labelRe_search_none ["Dates", "Date"] (by simp) text hlabel
  simp [extractDate, hgeneric, h]

/-- Witness of C16: a line of prose without a date. -/
theorem extractDate_default_witness :
    extractDate "Doors open early, updates to follow".toList = "TBD".toList :=
  extractDate_default _ (by decide!) (by decide!)

/-- C15: a section is classified by its title, case-insensitively and by
substring, with a fixed precedence: Live Music for `live music`, `music`,
`concerts` or `shows`; otherwise Festivals & Events for `festivals`, `events`,
`outdoor` or `family`; otherwise planning tips for `planning`, `tips` or
`notes`; otherwise the section adds nothing.  A section titled
`Music Festivals` gives only a Live Music category. -/
theorem processSection_classifies (result : Parsed) (rawSection : Str) :
    (processSection result rawSection =
      if titleHas ["live music", "music", "concerts", "shows"] (sectionTitleOf rawSection) then
        { result with categories := result.categories ++
            [⟨"Live Music".toList, sectionEvents (sectionContentOf rawSection)⟩] }
      else if titleHas ["festivals", "events", "outdoor", "family"] (sectionTitleOf rawSection) then
        { result with categories := result.categories ++
            [⟨"Festivals & Events".toList, sectionEvents (sectionContentOf rawSection)⟩] }
      else if titleHas ["planning", "tips", "notes"] (sectionTitleOf rawSection) then
        { result with planningTips := result.planningTips ++
            sectionTips (sectionContentOf rawSection) }
      else result) ∧
    (parseResponse "## Music Festivals\n**Gala**\n* Date: 6/27/25\n".toList).categories.map
      Category.name = ["Live Music".toList] := by
  refine ⟨?_, by decide!⟩
  unfold processSection
  simp only [musicTitlePat, festivalTitlePat, tipsTitlePat]
  have h1 := title_exec_isSome ["live music", "music", "concerts", "shows"] (by simp)
    (sectionTitleOf rawSection)
  have h2 := title_exec_isSome ["festivals", "events", "outdoor", "family"] (by simp)
    (sectionTitleOf rawSection)
  have h3 := title_exec_isSome ["planning", "tips", "notes"] (by simp)
    (sectionTitleOf rawSection)
  simp only [h1, h2, h3]

/-- C20: on every event block without a `Bio:`/`Description:`/`Details:` label
(in any letter case) `extractDescription` returns the trimmed last non-blank
line, unless that trimmed line begins, up to case, with `Time`, `Date`,
`Venue`, `Tickets`, `Link`, `Location`, `Hours` or `Admission`, or the block
has no non-blank line: then it returns `No description available.`. -/
theorem extractDescription_last_line (text : Str)
    (hlabel : labelIn ["Bio", "Description", "Details"] text = false) :
    extractDescription text =
      match ((splitLines text).filter nonBlank).getLast? with
      | some line => if startsWithAny fieldWords (trim line) then noDescription else trim line
      | none => noDescription := by
  have h : firstMatch bioPatterns text = none := by
    have := labelRe_search_none ["Bio", "Description", "Details"] (by simp) text hlabel
    simp only [firstMatch, bioPatterns, Pat.exec, this]
  unfold extractDescription
  rw [h]
  simp only [trim_length_pos]
  have hf : (List.filter (fun line => nonBlank line) (splitLines text)) =
      (splitLines text).filter nonBlank := rfl
  cases hl : ((splitLines text).filter nonBlank).getLast? with
  | none => simp only [hf, hl]; rfl
  | some line =>
    simp only [hf, hl]
    have := fieldStart_isNone (trim line)
    cases hs : startsWithAny fieldWords (trim line)
    · rw [hs] at this
      simp only [Bool.not_false] at this
      simp [this]
    · rw [hs] at this
      simp only [Bool.not_true] at this
      simp [this, noDescription]

/-- Witness of C20: a block that ends with a sentence and a blank line. -/
theorem extractDescription_last_line_witness :
    extractDescription "* Jazz Night at Noce\n  Great evening of live jazz. \n \n".toList =
      "Great evening of live jazz.".toList := by
  have h := extractDescription_last_line
    "* Jazz Night at Noce\n  Great evening of live jazz. \n \n".toList (by decide!)
  rw [h]
  decide!

/-- C11: if at least one heading of the document is classed as music or
festival, the categories of `parseResponse` are exactly those of the section
pass, one per such heading and in document order; the fallback scanner adds
nothing, even when every section has no bold-marked name, in which case every
category has an empty event list. -/
theorem fallback_only_without_categories (doc : Str)
    (h : ∃ sec ∈ (headingRe.split false doc).tail, (sectionCategory sec).isSome) :
    (parseResponse doc).categories =
      ((headingRe.split false doc).tail.filterMap sectionCategory).map ensureCategory ∧
    ((∀ sec ∈ (headingRe.split false doc).tail, boldRe.search false (sectionContentOf sec) = none) →
      (parseResponse doc).categories =
        (headingRe.split false doc).tail.filterMap fun sec =>
          (sectionCategory sec).map fun c => ⟨c.name, []⟩) := by
  have hne : (parseSections doc).categories ≠ [] := by
    rw [parseSections_eq]
    obtain ⟨sec, hsec, hsome⟩ := h
    obtain ⟨c, hc⟩ := Option.isSome_iff_exists.mp hsome
    intro hnil
    have : c ∈ (headingRe.split false doc).tail.filterMap sectionCategory :=
      List.mem_filterMap.mpr ⟨sec, hsec, hc⟩
    simp only at hnil
    rw [hnil] at this
    simp at this
  have hcat : (parseResponse doc).categories =
      ((headingRe.split false doc).tail.filterMap sectionCategory).map ensureCategory := by
    rw [parseResponse_of_sections doc hne, parseSections_eq]
  refine ⟨hcat, ?_⟩
  intro hbold
  rw [hcat, List.map_filterMap]
  apply List.filterMap_congr
  intro sec hsec
  have he := sectionEvents_of_no_bold _ (hbold sec hsec)
  unfold sectionCategory
  split_ifs <;> simp [ensureCategory, he]

/-- Witness of C11: the bullet list under `## Music` matches the fallback
pattern, yet the result is the Live Music category of the section pass, empty. -/
theorem fallback_only_without_categories_witness :
    (parseResponse musicBulletDoc).categories = [⟨"Live Music".toList, []⟩] ∧
    (bulletEventPat.execAll musicBulletDoc).length = 1 := by
  refine ⟨?_, by decide!⟩
  have h := (fallback_only_without_categories musicBulletDoc (by decide!)).2 (by decide!)
  rw [h]
  decide!

/-- C14 (amended): replacing the text of a section whose title matches none of
the three keyword sets by any text with the same title (such as the title line
alone, the body removed) never changes the planning tips of `parseResponse`,
and it does not change the categories when the section pass yields at least
one category.  When the section pass yields none, the categories are those
the fallback scanner finds in the whole response, the text of that section
included. -/
theorem unrecognised_section_ignored (doc doc2 front front2 : Str) (before after : List Str)
    (sec sec2 : Str)
    (hdoc : headingRe.split false doc = front :: (before ++ sec :: after))
    (hdoc2 : headingRe.split false doc2 = front2 :: (before ++ sec2 :: after))
    (hun : unrecognised sec)
    (htitle : sectionTitleOf sec2 = sectionTitleOf sec) :
    (parseResponse doc2).planningTips = (parseResponse doc).planningTips ∧
    ((parseSections doc).categories ≠ [] →
      (parseResponse doc2).categories = (parseResponse doc).categories) ∧
    ((parseSections doc).categories = [] →
      (parseResponse doc).categories = (fallbackCategories doc).map ensureCategory ∧
      (parseResponse doc2).categories = (fallbackCategories doc2).map ensureCategory) := by
  have hun2 : unrecognised sec2 := by
    unfold unrecognised at hun ⊢
    rw [htitle]
    exact hun
  have h1 := parseSections_unrecognised doc front before after sec hdoc hun
  have h2 := parseSections_unrecognised doc2 front2 before after sec2 hdoc2 hun2
  have heq : parseSections doc2 = parseSections doc := by rw [h1, h2]
  refine ⟨?_, ?_, ?_⟩
  · rw [parseResponse_planningTips, parseResponse_planningTips, heq]
  · intro hcat
    have hcat2 : (parseSections doc2).categories ≠ [] := by rw [heq]; exact hcat
    rw [parseResponse_of_sections doc hcat, parseResponse_of_sections doc2 hcat2, heq]
  · intro hnone
    have hnone2 : (parseSections doc2).categories = [] := by rw [heq]; exact hnone
    exact ⟨parseResponse_of_no_sections doc hnone, parseResponse_of_no_sections doc2 hnone2⟩

/-- Witness of C14 (amended): the introduction of a document with a music section. -/
theorem unrecognised_section_ignored_witness :
    (parseResponse introMusicCut).planningTips = (parseResponse introMusicDoc).planningTips ∧
    ((parseSections introMusicDoc).categories ≠ [] →
      (parseResponse introMusicCut).categories = (parseResponse introMusicDoc).categories) ∧
    ((parseSections introMusicDoc).categories = [] →
      (parseResponse introMusicDoc).categories =
        (fallbackCategories introMusicDoc).map ensureCategory ∧
      (parseResponse introMusicCut).categories =
        (fallbackCategories introMusicCut).map ensureCategory) :=
  unrecognised_section_ignored introMusicDoc introMusicCut [] [] []
    ["Music\n**Jazz Night**\n* Date: 6/27/25\n* Time: 7 PM\n".toList]
    "This week\nSome words.\n* a list\n".toList "This week\n".toList
    (by decide!) (by decide!) (by decide!) (by decide!)

/-- C14 (counterexample): the only section, `This week`, matches no keyword
set, so the section pass yields no category and the fallback scanner reads the
whole document: with the body there is a Live Music category, without it none. -/
theorem unrecognised_section_body_counterexample :
    unrecognised "This week\n* Jazz concert\n  * Time: 7 PM\n  * Tickets: $5\n  * Link: noce.com\n  * Bio: weekly showcase\n".toList ∧
    headingRe.split false introBulletDoc =
      [[], "This week\n* Jazz concert\n  * Time: 7 PM\n  * Tickets: $5\n  * Link: noce.com\n  * Bio: weekly showcase\n".toList] ∧
    (parseResponse introBulletDoc).categories.map Category.name = ["Live Music".toList] ∧
    (parseResponse introBulletCut).categories = [] := by
  decide!

/-- C12: the events of a music or festival section body are, in order, one per
bold token of the body (the non-overlapping `**…**` tokens without an asterisk
inside, found from left to right): the j-th event is named by the trimmed inner
text of the j-th token, or `Event j` when that text is blank, and its fields
are extracted from the trimmed text between that token and the next token or
the end of the body. -/
theorem sectionEvents_bold_tokens (body : Str) :
    sectionEvents body =
      (bodyTokens body).enum.map fun p => mkEvent (tokenName p.1 p.2.1) (trim p.2.2) := by
  have hle := untilBold_length body
  have hblocks : (boldRe.split false body).tail = (bodyTokens body).map Prod.snd := by
    cases body with
    | nil => decide
    | cons c t =>
      unfold Re.split
      simp only
      rw [boldRe_splitFrom, List.tail_cons]
      exact boldRe_split_blocks _ _ hle
  have hnames : (boldNameRe.matchAll false body).map Match.text =
      (bodyTokens body).map fun t => boldText t.1 := by
    unfold Re.matchAll
    rw [boldNameRe_allFrom]
    exact boldNameRe_names _ _ hle
  unfold sectionEvents
  simp only [hblocks, hnames]
  exact sectionEvents_tokens _ (boldTokens_notStar _ _)

/-- C13 (as the code has it): a heading is written with two or three hash
symbols.  For every title and body, the documents `### title\nbody` and
`## title\nbody` yield the same categories and the same planning tips. -/
theorem heading_two_or_three_hashes (title body : Str) :
    parseResponse ("### ".toList ++ title ++ "\n".toList ++ body) =
      parseResponse ("## ".toList ++ title ++ "\n".toList ++ body) := by
  have h := parseResponse_hashes (title ++ "\n".toList ++ body)
  simpa using h

/-- C13, counterexample: with the title `Music` and a body that holds one bold
event, the heading with two hashes opens a Live Music section, while the
heading with one hash opens none and the document yields no category. -/
theorem heading_one_hash_counterexample :
    (parseResponse "## Music\n**A**\n* Date: 6/27/25\n* Time: 7 PM".toList).categories =
      [⟨"Live Music".toList,
        [⟨"A".toList, "6/27/25".toList, "7 PM".toList, "TBD".toList, "Free".toList, [],
          "* Time: 7 PM".toList⟩]⟩] ∧
    (parseResponse "# Music\n**A**\n* Date: 6/27/25\n* Time: 7 PM".toList).categories = [] := by
  decide!

/-- C17: the single-time patterns come before the range patterns in
`timePatterns`, so for a block without a label that holds a clock range
`extractTime` gives the first clock time of the range, not the range. -/
theorem extractTime_range_first_time :
    extractTime "Doors 7:00 PM - 9:00 PM".toList = "7:00 PM".toList ∧
    extractTime "Open 7 AM - 12 PM".toList = "7 AM".toList ∧
    extractTime "7:00 - 9:00 PM".toList = "9:00 PM".toList := by
  decide!

/-- C19: on every event block without a `Tickets:`/`Admission:`/`Price:`/`Cost:`
label (in any letter case) `extractTicketPrice` returns the first substring
made of `$`, digits and an optional two-digit decimal part; without one, the
first occurrence of `free` in any letter case, as written; without one, the
sentinel `Free`.  A range or a `Starting at` phrase is never returned:
`Starting at $45` gives `$45` and `$10 - $20` gives `$10`. -/
theorem extractTicketPrice_unlabelled (text : Str)
    (hlabel : labelIn ["Tickets", "Admission", "Price", "Cost"] text = false) :
    extractTicketPrice text =
      (match firstPrice text with
        | some price => price
        | none =>
          match firstFree text with
          | some word => word
          | none => "Free".toList) ∧
    extractTicketPrice "Starting at $45".toList = "$45".toList ∧
    extractTicketPrice "$10 - $20".toList = "$10".toList := by
  refine ⟨?_, by decide!, by decide!⟩
  have h1 : (labelRe ["Tickets", "Admission", "Price", "Cost"]).search true text = none :=
    labelRe_search_none _ (by simp) text hlabel
  have h2 := price_search text []
  have h5 := free_search text []
  unfold extractTicketPrice pricePatterns
  simp only [firstMatch, Pat.exec, h1]
  cases hp : (Re.seq dollars (Re.opt (Re.group 1 (Re.seq (Re.lit '.')
      (Re.rep 2 (some 2) true Re.digit))))).search false text with
  | some m =>
    rw [Re.search] at hp
    rw [hp] at h2
    simp only [Option.map_some'] at h2
    simp [← h2]
  | none =>
    rw [Re.search] at hp
    rw [hp] at h2
    simp only [Option.map_none'] at h2
    have h3 := priceRange_search_none text h2.symm
    have h4 := startingAt_search_none text h2.symm
    simp only [h3, h4, ← h2]
    cases hf : (Re.str "Free").search true text with
    | some m =>
      rw [Re.search] at hf
      rw [hf] at h5
      simp only [Option.map_some'] at h5
      simp [← h5]
    | none =>
      rw [Re.search] at hf
      rw [hf] at h5
      simp only [Option.map_none'] at h5
      simp [← h5]

/-- Witness of C19: a block with a price with cents and, later, the word free. -/
theorem extractTicketPrice_unlabelled_witness :
    extractTicketPrice "Entry $12.50 or free for kids".toList = "$12.50".toList := by
  have h := (extractTicketPrice_unlabelled "Entry $12.50 or free for kids".toList (by decide!)).1
  rw [h]
  decide!

/-- C18: on every event block without a `Ticket Link:`/`Link:`/`Website:` label
(in any letter case) `extractTicketLink` returns exactly the address of the
first markdown link `[text](address)` whose address starts with `http://` or
`https://` (the address being the characters up to the closing parenthesis,
none of them white space), and the empty string when the block has no such
link. -/
theorem extractTicketLink_unlabelled (text : Str)
    (hlabel : labelIn ["Ticket Link", "Link", "Website"] text = false) :
    extractTicketLink text =
      match firstLink text with
      | some address => address
      | none => [] := by
  have h1 : (labelRe ["Ticket Link", "Link", "Website"]).search true text = none :=
    labelRe_search_none _ (by simp) text hlabel
  have h2 := link_search text []
  have hre : Re.seqs [Re.lit '[', Re.group 1 (Re.starLazy Re.any), Re.lit ']', Re.lit '(',
      Re.group 2 (Re.seqs [Re.str "http", Re.opt (Re.lit 's'), Re.str "://",
        Re.plus (Re.cls true [.space, .ch ')'])]), Re.lit ')'] = linkRe := rfl
  unfold extractTicketLink linkPatterns
  simp only [firstMatch, Pat.exec, h1, hre]
  cases hp : linkRe.search false text with
  | some m =>
    rw [Re.search] at hp
    rw [hp] at h2
    simp only [Option.map_some'] at h2
    simp [← h2]
  | none =>
    rw [Re.search] at hp
    rw [hp] at h2
    simp only [Option.map_none'] at h2
    simp [← h2]

/-- Witness of C18: a block with two links, the first written over a bracket. -/
theorem extractTicketLink_unlabelled_witness :
    extractTicketLink "See [a] [tickets](https://noce.com/jazz?x=1) or [b](http://b.org)".toList =
      "https://noce.com/jazz?x=1".toList := by
  have h := extractTicketLink_unlabelled
    "See [a] [tickets](https://noce.com/jazz?x=1) or [b](http://b.org)".toList (by decide!)
  rw [h]
  decide!

/-- C21: for every input text, every event of every category that
`parseResponse` returns (from the section pass or from the fallback scanner)
has a non-empty date, time and venue, and none of them is the placeholder
`Date not specified`, `Time not specified` or `Venue not specified`. -/
theorem parseResponse_required_fields (text : Str) (c : Category) (e : Event)
    (hc : c ∈ (parseResponse text).categories) (he : e ∈ c.events) :
    (e.date ≠ [] ∧ e.date ≠ "Date not specified".toList) ∧
    (e.time ≠ [] ∧ e.time ≠ "Time not specified".toList) ∧
    (e.venue ≠ [] ∧ e.venue ≠ "Venue not specified".toList) := by
  obtain ⟨c0, rfl⟩ := parseResponse_ensured text c hc
  simp only [ensureCategory, List.mem_map] at he
  obtain ⟨e0, _, rfl⟩ := he
  exact ⟨ensureRequired_date_ok e0, ensureRequired_time_ok e0, ensureRequired_venue_ok e0⟩

/-- Witness of C21: the event of a section that holds one date line. -/
theorem parseResponse_required_fields_witness :
    ("Saturday, June 28".toList ≠ [] ∧ "Saturday, June 28".toList ≠ "Date not specified".toList) ∧
    ("TBD".toList ≠ [] ∧ "TBD".toList ≠ "Time not specified".toList) ∧
    ("TBD".toList ≠ [] ∧ "TBD".toList ≠ "Venue not specified".toList) :=
  parseResponse_required_fields dateOnlyDoc
    ⟨"Live Music".toList,
      [⟨"Jazz Night".toList, "Saturday, June 28".toList, "TBD".toList, "TBD".toList,
        "Free".toList, [], "* Date: Saturday, June 28".toList⟩]⟩
    ⟨"Jazz Night".toList, "Saturday, June 28".toList, "TBD".toList, "TBD".toList,
      "Free".toList, [], "* Date: Saturday, June 28".toList⟩
    (by decide!) (by decide!)

/-- C29: `validateParsedData` is idempotent: a second pass returns the same
categories, with the same events, and the same planning tips. -/
theorem validateParsedData_idempotent (p : Parsed) :
    validateParsedData (validateParsedData p) = validateParsedData p := by
  have h1 := validate_categories_fixed p
  have h2 : (validateParsedData (validateParsedData p)).planningTips =
      (validateParsedData p).planningTips := rfl
  cases hv : validateParsedData (validateParsedData p) with
  | mk cs ts =>
    cases hw : validateParsedData p with
    | mk cs2 ts2 =>
      rw [hv, hw] at h1 h2
      simp only at h1 h2
      rw [h1, h2]

/-- C23: `fetchAndStoreActivitiesWithRetry` terminates for every `maxRetries`
and every behaviour of the generator and of persistence: the loop ends
(returning or throwing) within `maxRetries + 1` turns, so that any larger
bound on the turns gives the same run, and it ends after at least one and at
most `maxRetries + 1` generation calls. -/
theorem retry_terminates (env : Env) (maxRetries fuel : Nat) (hfuel : maxRetries + 1 ≤ fuel) :
    retryLoop env maxRetries fuel 0 0 none = fetchAndStoreActivitiesWithRetry env maxRetries ∧
    (fetchAndStoreActivitiesWithRetry env maxRetries).ending.isSome = true ∧
    1 ≤ (fetchAndStoreActivitiesWithRetry env maxRetries).calls ∧
    (fetchAndStoreActivitiesWithRetry env maxRetries).calls ≤ maxRetries + 1 := by
  have h := retryLoop_ends env maxRetries (maxRetries + 1) 0 0 none (Nat.zero_le _) (by omega)
  refine ⟨?_, h.1, by simpa using h.2.1, by simpa using h.2.2⟩
  exact retryLoop_fuel env maxRetries fuel (maxRetries + 1) 0 0 none (Nat.zero_le _)
    (by omega) (by omega)

/-- Witness of C23: a run with a failed call, insufficient responses and a
failed save, with `maxRetries = 2` and a bound of 5 turns. -/
theorem retry_terminates_witness :
    retryLoop flakyEnv 2 5 0 0 none = fetchAndStoreActivitiesWithRetry flakyEnv 2 ∧
    (fetchAndStoreActivitiesWithRetry flakyEnv 2).ending.isSome = true ∧
    1 ≤ (fetchAndStoreActivitiesWithRetry flakyEnv 2).calls ∧
    (fetchAndStoreActivitiesWithRetry flakyEnv 2).calls ≤ 2 + 1 :=
  retry_terminates flakyEnv 2 5 (by decide)

/-- C22: `getCurrentWeekDateRange` returns the Monday-to-Sunday week of the
current day.  For every weekday index `d` in 0..6 (0 is Sunday) the number
`daysToMonday` lies in 0..6 and going back that many days from a day with
index `d` reaches index 1, a Monday.  The start date is that Monday at
00:00:00.000, the end date is exactly 6 calendar days later (a Sunday) at
23:59:59.999, and the current day lies between the two. -/
theorem getCurrentWeekDateRange_monday_to_sunday (monthStart : Int → Int) (now : JsDate)
    (d : Fin 7) :
    (0 ≤ daysToMonday d.val ∧ daysToMonday d.val ≤ 6 ∧
      ((d.val : Int) - daysToMonday d.val) % 7 = 1) ∧
    (0 ≤ now.getDay ∧ now.getDay ≤ 6) ∧
    (getCurrentWeekDateRange monthStart now).startDate.day = now.day - daysToMonday now.getDay ∧
    (getCurrentWeekDateRange monthStart now).startDate.getDay = 1 ∧
    (getCurrentWeekDateRange monthStart now).endDate.day =
      (getCurrentWeekDateRange monthStart now).startDate.day + 6 ∧
    (getCurrentWeekDateRange monthStart now).endDate.getDay = 0 ∧
    (getCurrentWeekDateRange monthStart now).startDate.day ≤ now.day ∧
    now.day ≤ (getCurrentWeekDateRange monthStart now).endDate.day ∧
    (getCurrentWeekDateRange monthStart now).startDate.ms = 0 ∧
    (getCurrentWeekDateRange monthStart now).endDate.ms = 86399999 := by
  rw [getCurrentWeekDateRange_start, getCurrentWeekDateRange_end]
  have hd := d.isLt
  simp only [JsDate.getDay, daysToMonday]
  refine ⟨⟨?_, ?_, ?_⟩, ⟨?_, ?_⟩, ?_, ?_, ?_, ?_, ?_, ?_, trivial, trivial⟩ <;>
    first
    | trivial
    | omega

/-- C25: for an empty forecast `generateWeatherPlanningTips` returns exactly the
`Weather forecast unavailable` tip.  For a non-empty forecast it returns
exactly: a Heat Advisory tip if and only if some day has `temp.max > 85`, then
a Rain Alert tip if and only if some day has `precipitation > 50`, then one
Weekly Weather summary; each alert lists, in forecast order and joined by
`, `, the text before the first comma of the date of exactly the days that
exceed its threshold. -/
theorem generateWeatherPlanningTips_tips (forecast : List ForecastDay) (hne : forecast ≠ []) :
    generateWeatherPlanningTips [] = [weatherUnavailable] ∧
    generateWeatherPlanningTips forecast =
      (if ∃ day ∈ forecast, day.temp.max > 85 then
        [heatAdvisory (alertDays (fun day => decide (day.temp.max > 85)) forecast)] else []) ++
      (if ∃ day ∈ forecast, day.precipitation > 50 then
        [rainAlert (alertDays (fun day => decide (day.precipitation > 50)) forecast)] else []) ++
      [weeklyWeather (averageLow forecast) (averageHigh forecast) (forecast.head hne).weather] := by
  refine ⟨rfl, ?_⟩
  cases forecast with
  | nil => exact absurd rfl hne
  | cons first rest =>
    have h1 := filter_length_pos (fun day : ForecastDay => decide (day.temp.max > 85))
      (first :: rest)
    have h2 := filter_length_pos (fun day : ForecastDay => decide (day.precipitation > 50))
      (first :: rest)
    simp only [decide_eq_true_eq] at h1 h2
    simp only [generateWeatherPlanningTips, dayList_eq, List.nil_append, List.head_cons]
    by_cases a : ∃ day ∈ first :: rest, day.temp.max > 85 <;>
      by_cases b : ∃ day ∈ first :: rest, day.precipitation > 50 <;>
      simp only [a, b, h1.mpr, h2.mpr, h1, h2, if_true, if_false, List.nil_append,
        List.cons_append, not_false_eq_true]

/-- Witness of C25: a forecast with one hot and one rainy day. -/
theorem generateWeatherPlanningTips_tips_witness :
    generateWeatherPlanningTips [] = [weatherUnavailable] ∧
    generateWeatherPlanningTips sampleForecast =
      (if ∃ day ∈ sampleForecast, day.temp.max > 85 then
        [heatAdvisory (alertDays (fun day => decide (day.temp.max > 85)) sampleForecast)]
        else []) ++
      (if ∃ day ∈ sampleForecast, day.precipitation > 50 then
        [rainAlert (alertDays (fun day => decide (day.precipitation > 50)) sampleForecast)]
        else []) ++
      [weeklyWeather (averageLow sampleForecast) (averageHigh sampleForecast)
        (sampleForecast.head (List.cons_ne_nil _ _)).weather] :=
  generateWeatherPlanningTips_tips sampleForecast (List.cons_ne_nil _ _)

/-- C30: for every non-empty forecast in which every day has
`temp.min ≤ temp.max` (whole degrees), the reported average low,
`Math.round` of the sum of the lows over the number of days, is at most the
reported average high, where `Math.round` rounds a half up. -/
theorem averageLow_le_averageHigh (forecast : List ForecastDay) (hne : forecast ≠ [])
    (h : ∀ day ∈ forecast, day.temp.min ≤ day.temp.max) :
    averageLow forecast ≤ averageHigh forecast := by
  unfold averageLow averageHigh
  apply mathRound_mono
  have hsum := foldl_temp_le (fun day => day.temp.min) (fun day => day.temp.max) forecast h 0 0
    (le_refl _)
  have hq : ((forecast.foldl (fun sum day => sum + day.temp.min) 0 : Int) : ℚ) ≤
      ((forecast.foldl (fun sum day => sum + day.temp.max) 0 : Int) : ℚ) := by
    exact_mod_cast hsum
  have hpos : (0 : ℚ) < ((forecast.length : Nat) : ℚ) := by
    exact_mod_cast List.length_pos.mpr hne
  exact div_le_div_of_nonneg_right hq (le_of_lt hpos)

/-- Witness of C30: the sample forecast, lows 68, 64, 61 and highs 91, 80, 79. -/
theorem averageLow_le_averageHigh_witness :
    averageLow sampleForecast ≤ averageHigh sampleForecast :=
  averageLow_le_averageHigh sampleForecast (List.cons_ne_nil _ _) (by decide)

/-- C26: for every list of Ticketmaster events and every list of Gemini
activities, the categories `fetchAndStoreActivities` builds hold a category
named `Live Music` and a category named `Festivals & Events`, each exactly
once, also when it has no events; with all sources empty the result is those
two categories with empty event lists. -/
theorem buildCategories_ensured (ticketmasterEvents : List TicketmasterEvent)
    (geminiActivities : List Event) :
    ((buildCategories ticketmasterEvents geminiActivities).map Category.name).count
      "Live Music".toList = 1 ∧
    ((buildCategories ticketmasterEvents geminiActivities).map Category.name).count
      "Festivals & Events".toList = 1 ∧
    buildCategories [] [] =
      [⟨"Live Music".toList, []⟩, ⟨"Festivals & Events".toList, []⟩] := by
  have hn := eventsByCategory_nodup ticketmasterEvents geminiActivities
  have hnames : ((eventsByCategory ticketmasterEvents geminiActivities).map
      fun p => (⟨p.1, p.2⟩ : Category)).map Category.name =
      (eventsByCategory ticketmasterEvents geminiActivities).map Prod.fst := by
    rw [List.map_map]
    rfl
  have hc := count_ensured _ hn "Live Music".toList "Festivals & Events".toList (by decide)
  have hshape : (buildCategories ticketmasterEvents geminiActivities).map Category.name =
      ((eventsByCategory ticketmasterEvents geminiActivities).map Prod.fst ++
        (if !((eventsByCategory ticketmasterEvents geminiActivities).map Prod.fst).contains
          "Live Music".toList then ["Live Music".toList] else [])) ++
        (if !((eventsByCategory ticketmasterEvents geminiActivities).map Prod.fst).contains
          "Festivals & Events".toList then ["Festivals & Events".toList] else []) := by
    unfold buildCategories
    simp only [hnames]
    split_ifs <;> simp [hnames]
  rw [hshape]
  exact ⟨hc.1, hc.2, by decide⟩

/-- C27: in `fetchAndStoreActivitiesWithRetry(maxRetries)` of `multi-api.js` the
loop runs while `retries < maxRetries`, so a fetch that always fails is
attempted `maxRetries` times, not `maxRetries + 1` times.  With
`maxRetries = 0` no attempt is made and the final statement throws a
`TypeError` (it reads `.message` of `null`); otherwise the error
`Failed after maxRetries attempts. Last error: ...` carries the message of the
last failure. -/
theorem multi_retry_attempts (maxRetries : Nat) (message : Nat → Str) :
    (MultiApi.fetchAndStoreActivitiesWithRetry (α := Unit)
      (fun n => .error (message n)) maxRetries).attempts = maxRetries ∧
    (MultiApi.fetchAndStoreActivitiesWithRetry (α := Unit)
      (fun n => .error (message n)) maxRetries).ending =
      some (if maxRetries = 0 then FetchEnding.typeError
        else FetchEnding.thrown ("Failed after ".toList ++ (toString maxRetries).toList ++
          " attempts. Last error: ".toList ++ message (maxRetries - 1))) := by
  unfold MultiApi.fetchAndStoreActivitiesWithRetry
  rw [multiRetryLoop_all_fail message maxRetries (maxRetries + 1) 0 none (Nat.zero_le _)
    (by omega)]
  by_cases h0 : maxRetries = 0
  · subst h0
    exact ⟨rfl, rfl⟩
  · have h1 : ¬ 0 = maxRetries := fun h => h0 h.symm
    simp only [h0, h1, if_false, failedAfter, and_self]

/-- C28: for every label without `:`, `–` or `-` and every value,
`extractValue(label + ': ' + value)` is the trimmed part of the value that
comes before its first `:`, `–` or `-`: the trimmed value when the value has
none of them (`Date: June 25, 2025` gives `June 25, 2025`), but only a part of
it otherwise (`7:00 PM` gives `7`, `June 27-29` gives `June 27`,
`https://example.com` gives `https`). -/
theorem extractValue_first_piece (label value : Str)
    (hlabel : ∀ c ∈ label, isSep c = false) :
    extractValue (label ++ ": ".toList ++ value) =
      trim (value.takeWhile fun c => !isSep c) ∧
    extractValue "Date: June 25, 2025".toList = "June 25, 2025".toList ∧
    extractValue "Time: 7:00 PM".toList = "7".toList ∧
    extractValue "Date: June 27-29".toList = "June 27".toList ∧
    extractValue "Link: https://example.com".toList = "https".toList := by
  refine ⟨?_, by decide!, by decide!, by decide!, by decide!⟩
  have hline : label ++ ": ".toList ++ value = label ++ ':' :: (' ' :: value) := by
    simp
  obtain ⟨pre2, h1⟩ := valueSep_split_label label hlabel ':' (by decide) (' ' :: value) [] []
  obtain ⟨rest, h2⟩ := valueSep_split_head (' ' :: value) [] pre2
  have hsp : isSep ' ' = false := by decide
  have hsplit : valueSepRe.split false (label ++ ':' :: (' ' :: value)) =
      label :: (' ' :: value.takeWhile fun c => !isSep c) :: rest := by
    have hne : label ++ ':' :: (' ' :: value) ≠ [] := by simp
    have : valueSepRe.split false (label ++ ':' :: (' ' :: value)) =
        valueSepRe.splitFrom false 0 [] [] (label ++ ':' :: (' ' :: value)) := by
      unfold Re.split
      split
      · rename_i heq
        exact absurd heq hne
      · rfl
    rw [this, h1, h2]
    simp [List.takeWhile_cons, hsp]
  rw [hline]
  unfold extractValue
  simp only [hsplit, List.length_cons, List.getD_cons_succ, List.getD_cons_zero]
  simp [trim_space_cons]

/-- Witness of C28: the label `Price` and a value with a hyphen. -/
theorem extractValue_first_piece_witness :
    extractValue ("Price".toList ++ ": ".toList ++ "$10 - $20".toList) =
      trim ("$10 - $20".toList.takeWhile fun c => !isSep c) :=
  (extractValue_first_piece "Price".toList "$10 - $20".toList (by decide)).1

/-- C24: the duplicate parser of `test-improved-integration.js` does not name
events as the service does.  It looks for the bold text inside the block of an
event, where there is none, so in every category it returns, for every
document, the events are named `Event 1`, `Event 2`, ... by position (a
section body gives as many events as in the service).  For the one-event
document `docOne` the service returns the name `Jazz Night`, the duplicate
`Event 1`. -/
theorem dup_names_by_position (doc : Str) (c : Category)
    (hc : c ∈ (Dup.parseResponse doc).categories) :
    c.events.map Event.name = defaultNames c.events.length ∧
    (∀ body : Str, (Dup.sectionEvents body).length = (sectionEvents body).length) ∧
    ((parseResponse docOne).categories.map fun c => c.events.map Event.name) =
      [["Jazz Night".toList]] ∧
    ((Dup.parseResponse docOne).categories.map fun c => c.events.map Event.name) =
      [["Event 1".toList]] := by
  refine ⟨?_, dup_sectionEvents_length, by decide!, by decide!⟩
  exact dup_foldl_names _ ⟨[], []⟩ (fun c hc => by simp at hc) c hc

/-- Witness of C24: the category the duplicate returns for `docOne`. -/
theorem dup_names_by_position_witness :
    ["Event 1".toList] = defaultNames 1 ∧
    (∀ body : Str, (Dup.sectionEvents body).length = (sectionEvents body).length) ∧
    ((parseResponse docOne).categories.map fun c => c.events.map Event.name) =
      [["Jazz Night".toList]] ∧
    ((Dup.parseResponse docOne).categories.map fun c => c.events.map Event.name) =
      [["Event 1".toList]] :=
  dup_names_by_position docOne
    ⟨"Live Music".toList,
      [⟨"Event 1".toList, "Saturday, June 28".toList, "7:00 PM".toList, "Noce".toList, [], [],
        "* Venue: Noce".toList⟩]⟩
    (by decide!)

end DesMoines
